import Mathlib

/-!
# Verification of `dependency_graph.py`

Shallow embedding of `src/dependency_graph/dependency_graph.py` (classes
`Node`, `Edge`, `DirectedGraph`) and proofs about the claims of the
specification.

Modelling conventions:
* Node names are `String`.  Python compares `Node`/`Edge` objects held in a
  graph by object identity; since a graph enforces unique node names and all
  public operations address nodes by name, object identity of nodes inside one
  graph coincides with name equality, and an `Edge` is determined by the names
  of its two endpoints.
* The opaque `data` payload of a node is never read or written by any modelled
  operation, so it is omitted.
* Python exceptions become `Except` values, with the failure conditions named
  as in the specification (`DuplicateNode`, `SelfLoop`, ...).  A Python
  `RecursionError` (exceeding the interpreter's recursion limit) is modelled
  by the `recursionLimit` failure, and the recursion budget is an explicit
  `Nat` parameter.
* The `while` loop of `find_paths` is modelled with an explicit fuel
  parameter; `fuelExhausted` is an artifact of the embedding and is proven
  unreachable (`traverseLoop_no_fuel` below gives the bound).
-/

set_option maxHeartbeats 1000000

namespace DepGraph

/-- The failure conditions of the specification (§7), plus `recursionLimit`
(modelling a Python `RecursionError`) and `fuelExhausted` (an embedding
artifact, proven unreachable). -/
inductive GraphFailure where
  | duplicateNode
  | selfLoop
  | unknownNode
  | duplicateRelation
  | invalidRelation
  | cycleDetected
  | recursionLimit
  | fuelExhausted
deriving DecidableEq, Repr

/-- `class Edge`: an ordered pair of endpoint node names
(`from_node`, `to_node`). -/
structure Edge where
  from_node : String
  to_node : String
deriving DecidableEq, Repr

/-- `Edge.__eq__`: two edges are equal when they connect the same pair of
nodes in either direction (direction-insensitive). -/
def Edge.eqUndirected (self other : Edge) : Bool :=
  (self.from_node == other.from_node && self.to_node == other.to_node) ||
  (self.from_node == other.to_node && self.to_node == other.from_node)

/-- `Edge.connected_to_node`. -/
def Edge.connected_to_node (self : Edge) (node : String) : Bool :=
  self.from_node == node || self.to_node == node

/-- `Edge.is_incoming_edge`: raises `InvalidRelation` when `node` is not an
endpoint; otherwise Python returns `True` or (implicitly) `None`, i.e. the
truth value of `to_node == node`. -/
def Edge.is_incoming_edge (self : Edge) (node : String) : Except GraphFailure Bool :=
  if !(self.connected_to_node node) then .error .invalidRelation
  else .ok (self.to_node == node)

/-- `Edge.is_outgoing_edge`. -/
def Edge.is_outgoing_edge (self : Edge) (node : String) : Except GraphFailure Bool :=
  if !(self.connected_to_node node) then .error .invalidRelation
  else .ok (self.from_node == node)

/-- `class Node`: name, incident edges (`self.edges`), the outgoing/incoming
partitions, and the accumulated dependency set `_depends_on` (a Python set of
nodes, modelled as an insertion-ordered duplicate-free list of names). -/
structure Node where
  name : String
  edges : List Edge
  outgoing_edges : List Edge
  incoming_edges : List Edge
  dependsOnSet : List String
deriving DecidableEq, Repr

/-- `Node.__init__`: fresh node with empty edge lists and dependency set. -/
def Node.fresh (name : String) : Node := ⟨name, [], [], [], []⟩

/-- `Node.has_edge`: some incident edge equals `other_edge` under the
direction-insensitive equality. -/
def Node.has_edge (self : Node) (other_edge : Edge) : Bool :=
  self.edges.any (fun edge => other_edge.eqUndirected edge)

/-- `Node.add_dependency`: idempotent set insertion into `_depends_on`. -/
def Node.add_dependency (self : Node) (node : String) : Node :=
  if node ∈ self.dependsOnSet then self
  else { self with dependsOnSet := self.dependsOnSet ++ [node] }

/-- `Node.depends_on`: set membership query. -/
def Node.depends_on (self : Node) (node : String) : Bool :=
  self.dependsOnSet.contains node

/-- Helper for `Node.has_incoming_edges`: Python's short-circuiting
`any(edge.is_incoming_edge(self) for edge in self.edges)`, which can raise
`InvalidRelation` from `is_incoming_edge`. -/
def anyIncoming (name : String) : List Edge → Except GraphFailure Bool
  | [] => .ok false
  | e :: rest =>
    match e.is_incoming_edge name with
    | .error err => .error err
    | .ok true => .ok true
    | .ok false => anyIncoming name rest

/-- `Node.has_incoming_edges`. -/
def Node.has_incoming_edges (self : Node) : Except GraphFailure Bool :=
  anyIncoming self.name self.edges

/-- `Node.add_edge`: reject a duplicate relation, else append to `edges` and
to the outgoing or incoming partition according to whether this node is the
edge's source. -/
def Node.add_edge (self : Node) (edge : Edge) : Except GraphFailure Node :=
  if self.has_edge edge then .error .duplicateRelation
  else if edge.from_node == self.name then
    .ok { self with
          edges := self.edges ++ [edge],
          outgoing_edges := self.outgoing_edges ++ [edge] }
  else
    .ok { self with
          edges := self.edges ++ [edge],
          incoming_edges := self.incoming_edges ++ [edge] }

/-- `class DirectedGraph`: the name→node mapping (a Python dict, modelled as
an insertion-ordered list of nodes with unique names), the memoized `paths`,
and the `_cache_dirty` flag. -/
structure DirectedGraph where
  nodes : List Node
  paths : List (List String)
  cache_dirty : Bool
deriving DecidableEq, Repr

/-- `DirectedGraph.__init__`. -/
def DirectedGraph.empty : DirectedGraph := ⟨[], [], true⟩

/-- The graph's node names, in insertion order (the dict's key order). -/
def DirectedGraph.names (g : DirectedGraph) : List String := g.nodes.map Node.name

/-- Dict lookup `self.nodes[key]` / `self.nodes.get(key)`. -/
def DirectedGraph.findNode (g : DirectedGraph) (key : String) : Option Node :=
  g.nodes.find? (fun nd => nd.name == key)

/-- `DirectedGraph.get_node`. -/
def DirectedGraph.get_node (g : DirectedGraph) (key : String) : Option Node :=
  g.findNode key

/-- `DirectedGraph.add_node`: fails with `DuplicateNode` on an existing name,
otherwise inserts the node (at the end of the dict's insertion order). -/
def DirectedGraph.add_node (g : DirectedGraph) (node : Node) : Except GraphFailure DirectedGraph :=
  if g.names.contains node.name then .error .duplicateNode
  else .ok { g with nodes := g.nodes ++ [node] }

/-- In-place mutation of the node stored under `key`. -/
def DirectedGraph.replaceNode (g : DirectedGraph) (key : String) (nd : Node) : DirectedGraph :=
  { g with nodes := g.nodes.map (fun x => if x.name == key then nd else x) }

/-- `DirectedGraph.add_edge`: `SelfLoop` on equal keys, `UnknownNode` on a
missing key, then registers the new edge on the source node and then on the
target node (each registration may fail with `DuplicateRelation`).  The error
carries the graph state at the moment the exception is raised — in particular
the (unreachable, see `add_edge_atomic_err`) failure of the second
registration would leave the first one in place, exactly as in Python. -/
def DirectedGraph.add_edge (g : DirectedGraph) (from_node_key to_node_key : String) :
    Except (GraphFailure × DirectedGraph) DirectedGraph :=
  if from_node_key == to_node_key then .error (.selfLoop, g)
  else
    match g.findNode from_node_key with
    | none => .error (.unknownNode, g)
    | some from_nd =>
      match g.findNode to_node_key with
      | none => .error (.unknownNode, g)
      | some to_nd =>
        let new_edge : Edge := ⟨from_node_key, to_node_key⟩
        match from_nd.add_edge new_edge with
        | .error err => .error (err, g)
        | .ok from_nd2 =>
          let g1 := g.replaceNode from_node_key from_nd2
          match to_nd.add_edge new_edge with
          | .error err => .error (err, g1)
          | .ok to_nd2 => .ok (g1.replaceNode to_node_key to_nd2)

/-- The successor names of a node: its `outgoing_edges` targets in order
(dereferenced weakrefs — every edge is strongly owned by the endpoint `edges`
lists, so the weakrefs are always alive). -/
def DirectedGraph.outsOf (g : DirectedGraph) (key : String) : List String :=
  match g.findNode key with
  | some nd => nd.outgoing_edges.map Edge.to_node
  | none => []

/-- The dependency set of the node stored under `key`. -/
def DirectedGraph.depsOf (g : DirectedGraph) (key : String) : List String :=
  match g.findNode key with
  | some nd => nd.dependsOnSet
  | none => []

/-- `node.add_dependency(dep)` performed on the node stored under `who`. -/
def DirectedGraph.addDep (g : DirectedGraph) (who dep : String) : DirectedGraph :=
  { g with nodes := g.nodes.map (fun nd => if nd.name == who then nd.add_dependency dep else nd) }

/-- Lines 166–169 of `find_paths`: `for prev_node in current_path: if
prev_node == current_node: continue; prev_node.add_dependency(current_node)`. -/
def DirectedGraph.addDepsAlong (g : DirectedGraph) (current_path : List String)
    (current : String) : DirectedGraph :=
  current_path.foldl
    (fun acc prev => if prev == current then acc else acc.addDep prev current) g

/-- Root collection of `find_paths` (lines 152–156): every node whose
`has_incoming_edges()` is false, in dict order.  Threads the
`InvalidRelation` exception `has_incoming_edges` may raise. -/
def collectRootsGo : List Node → Except GraphFailure (List String)
  | [] => .ok []
  | nd :: rest =>
    match nd.has_incoming_edges with
    | .error err => .error err
    | .ok true => collectRootsGo rest
    | .ok false => (collectRootsGo rest).map (fun rs => nd.name :: rs)

/-- All root node names of the graph. -/
def DirectedGraph.collectRoots (g : DirectedGraph) : Except GraphFailure (List String) :=
  collectRootsGo g.nodes

/-- Lines 175–181: scan the outgoing targets in order; the first target
already on the current path triggers cycle detection (`none`), otherwise
every target is pushed with its own copy of the current path. -/
def pushTargets (current_path : List String) : List String → Option (List (String × List String))
  | [] => some []
  | t :: ts =>
    if current_path.contains t then none
    else (pushTargets current_path ts).map (fun rest => (t, current_path) :: rest)

/-- Outcome of the stack traversal: normal completion, cycle detection (with
the dependency mutations performed so far), or fuel exhaustion (an embedding
artifact, proven unreachable). -/
inductive LoopResult where
  | ok (g : DirectedGraph) (paths : List (List String))
  | cycleHit (g : DirectedGraph)
  | outOfFuel
deriving DecidableEq, Repr

/-- Largest outgoing-edge count of any node; used only to size the fuel. -/
def DirectedGraph.maxOut (g : DirectedGraph) : Nat :=
  g.nodes.foldl (fun m nd => max m nd.outgoing_edges.length) 0

/-- Fuel bound for one root's `while` loop; `traverseLoop_no_fuel` shows it
is never exhausted. -/
def DirectedGraph.traversalFuel (g : DirectedGraph) : Nat :=
  (g.maxOut + 1) ^ (g.nodes.length + 1)

/-- Lines 161–181: the explicit-stack depth-first loop for one root.  The
stack top is the list head (Python appends and pops at the end; pushing the
targets in edge order and then popping from the end is the same as consing
them in reverse order here).  Each iteration appends the current node to its
path, records the path's dependencies, then either records a maximal path or
pushes all targets (detecting a cycle if a target is already on the path). -/
def traverseLoop (g : DirectedGraph) (fuel : Nat)
    (node_stack : List (String × List String)) (paths : List (List String)) : LoopResult :=
  match node_stack with
  | [] => .ok g paths
  | (current_node, popped_path) :: rest =>
    match fuel with
    | 0 => .outOfFuel
    | fuel' + 1 =>
      let current_path := popped_path ++ [current_node]
      let g' := g.addDepsAlong current_path current_node
      if g'.outsOf current_node = [] then
        traverseLoop g' fuel' rest (if current_path = [] then paths else paths ++ [current_path])
      else
        match pushTargets current_path (g'.outsOf current_node) with
        | none => .cycleHit g'
        | some entries => traverseLoop g' fuel' (entries.reverse ++ rest) paths

/-- Lines 160–181: one independent depth-first exploration per root, seeded
with `[(root, [])]`, accumulating `paths` across roots. -/
def traverseRoots (g : DirectedGraph) (roots : List String)
    (paths : List (List String)) : LoopResult :=
  match roots with
  | [] => .ok g paths
  | r :: rest =>
    match traverseLoop g g.traversalFuel [(r, [])] paths with
    | .ok g' paths' => traverseRoots g' rest paths'
    | other => other

mutual

/-- `DirectedGraph.find_paths` with an explicit recursion budget (Python's
recursion limit).  Returns the memo when `_cache_dirty` is false; otherwise
runs the traversal.  On cycle detection line 179 calls `self.dump()` — which
itself calls `find_paths()` — before line 180 would raise
`Exception("Cycle detected!")`; the nesting consumes one unit of budget, and
exhausting the budget is Python's `RecursionError`. -/
def find_paths_rec : Nat → DirectedGraph → Except GraphFailure (DirectedGraph × List (List String))
  | 0, _ => .error .recursionLimit
  | depth + 1, g =>
    if g.cache_dirty = false then .ok (g, g.paths)
    else
      match g.collectRoots with
      | .error err => .error err
      | .ok root_nodes =>
        match traverseRoots g root_nodes [] with
        | .ok g' paths => .ok ({ g' with paths := paths }, paths)
        | .cycleHit g' =>
          match dump_rec depth g' with
          | .ok _ => .error .cycleDetected
          | .error err => .error err
        | .outOfFuel => .error .fuelExhausted
termination_by depth _ => 2 * depth
decreasing_by all_goals omega

/-- `DirectedGraph.dump`: line 134 calls `self.find_paths()` first; the
subsequent printing reads but does not modify the graph, so it is a no-op on
state. -/
def dump_rec : Nat → DirectedGraph → Except GraphFailure DirectedGraph
  | depth, g =>
    match find_paths_rec depth g with
    | .ok (g', _) => .ok g'
    | .error err => .error err
termination_by depth _ => 2 * depth + 1
decreasing_by all_goals omega

end

/-- `DirectedGraph.find_paths` at Python's default recursion limit (1000). -/
def DirectedGraph.find_paths (g : DirectedGraph) :
    Except GraphFailure (DirectedGraph × List (List String)) :=
  find_paths_rec 1000 g

/-- `DirectedGraph.dump` at Python's default recursion limit. -/
def DirectedGraph.dump (g : DirectedGraph) : Except GraphFailure DirectedGraph :=
  dump_rec 1000 g

/-- `Node.__lt__` lifted to the graph: `self == other` (object identity,
realized as name equality inside a graph) gives `False`, otherwise
`self.depends_on(other)`. -/
def nodeLt (g : DirectedGraph) (a b : String) : Bool :=
  if a == b then false
  else match g.findNode a with
    | some nd => nd.depends_on b
    | none => false

/-- The scan of lines 200–205: one pass over the working list recording the
(last) index at which `node` itself sits and the highest index of any node
that `node` is `<` (i.e. depends on), the latter starting at `0`. -/
def scanNodes (g : DirectedGraph) (node : String) :
    List String → Nat → Int × Nat → Int × Nat
  | [], _, acc => acc
  | m :: rest, i, (index_of_node, highest_idx) =>
    scanNodes g node rest (i + 1)
      (if node == m then (i : Int) else index_of_node,
       if nodeLt g node m then (if i > highest_idx then i else highest_idx) else highest_idx)

/-- Python `list.insert(i, x)`: positions beyond the end append. -/
def listInsertPy (l : List String) (i : Nat) (x : String) : List String :=
  if i > l.length then l ++ [x] else l.insertIdx i x

/-- Lines 198–209: for each node of the snapshot, scan the live list; if the
highest index of a node it depends on is at or beyond its own index, insert
it right after that index and remove its old (first) occurrence.
`index_of_node` is initialized to `-1` once, outside the loop, and threads
across iterations exactly as in Python. -/
def planFold (g : DirectedGraph) :
    List String → List String → Int → List String
  | [], nodes, _ => nodes
  | node :: todo, nodes, index_of_node0 =>
    match scanNodes g node nodes 0 (index_of_node0, 0) with
    | (index_of_node, highest_idx) =>
      if ((highest_idx : Int) + 1 > index_of_node) then
        planFold g todo ((listInsertPy nodes (highest_idx + 1) node).erase node) index_of_node
      else
        planFold g todo nodes index_of_node

/-- `DirectedGraph.create_plan`: run `find_paths` (propagating its failure),
then relocate each node of the snapshot after the highest-indexed node it
depends on. -/
def DirectedGraph.create_plan (g : DirectedGraph) : Except GraphFailure (List String) :=
  match g.find_paths with
  | .error err => .error err
  | .ok (g', _) => .ok (planFold g' g'.names g'.names (-1))

end DepGraph

namespace DepGraph

/-! ## Specification-side notions -/

/-- The directed successor relation of the graph: there is an edge from `u`
to `v` (read off `u`'s outgoing-edge list). -/
def edgeRel (g : DirectedGraph) (u v : String) : Prop := v ∈ g.outsOf u

/-- `u` reaches `v` by following zero or more outgoing edges. -/
def Reaches (g : DirectedGraph) (u v : String) : Prop :=
  Relation.ReflTransGen (edgeRel g) u v

/-- `u` reaches `v` by following at least one outgoing edge: the transitive
closure of §4.3, "everything reachable forward". -/
def ReachesPlus (g : DirectedGraph) (u v : String) : Prop :=
  Relation.TransGen (edgeRel g) u v

/-- The graph has no directed cycle. -/
def Acyclic (g : DirectedGraph) : Prop := ∀ x, ¬ ReachesPlus g x x

/-- The root predicate exactly as the code computes it: a stored node none of
whose incident edges targets it. -/
def rootsSimple (g : DirectedGraph) : List String :=
  (g.nodes.filter (fun nd => !(nd.edges.any (fun e => e.to_node == nd.name)))).map Node.name

/-- `r` is a root node of `g`. -/
def IsRoot (g : DirectedGraph) (r : String) : Prop := r ∈ rootsSimple g

/-- `n` is reachable from some root of `g`. -/
def RootReachable (g : DirectedGraph) (n : String) : Prop :=
  ∃ r, IsRoot g r ∧ Reaches g r n

/-- Erase the (mutable) dependency set of a node, keeping its structural
fields: the part of a node the traversal control flow can observe. -/
def skelNode (nd : Node) : Node := { nd with dependsOnSet := [] }

/-- The structural skeleton of a graph's node table. -/
def skel (g : DirectedGraph) : List Node := g.nodes.map skelNode

/-- Well-formedness invariant of every graph state reachable through the
public interface: unique names; each stored edge touches its holder, is no
self-loop, has both endpoints stored, and is recorded on both endpoint
nodes; and the outgoing partition is exactly the source-side filter. -/
structure WF (g : DirectedGraph) : Prop where
  names_nodup : g.names.Nodup
  edges_conn : ∀ nd ∈ g.nodes, ∀ e ∈ nd.edges, e.from_node = nd.name ∨ e.to_node = nd.name
  edges_no_self : ∀ nd ∈ g.nodes, ∀ e ∈ nd.edges, e.from_node ≠ e.to_node
  edges_mem_from : ∀ nd ∈ g.nodes, ∀ e ∈ nd.edges, e.from_node ∈ g.names
  edges_mem_to : ∀ nd ∈ g.nodes, ∀ e ∈ nd.edges, e.to_node ∈ g.names
  edges_sym : ∀ nd ∈ g.nodes, ∀ e ∈ nd.edges, ∀ md ∈ g.nodes,
    (md.name = e.from_node ∨ md.name = e.to_node) → e ∈ md.edges
  out_filter : ∀ nd ∈ g.nodes, nd.outgoing_edges = nd.edges.filter (fun e => e.from_node == nd.name)
  in_filter : ∀ nd ∈ g.nodes, nd.incoming_edges = nd.edges.filter (fun e => !(e.from_node == nd.name))

/-- Every recorded dependency reflects actual forward reachability. -/
def DepsSound (g : DirectedGraph) : Prop :=
  ∀ nd ∈ g.nodes, ∀ d ∈ nd.dependsOnSet, ReachesPlus g nd.name d

/-- Graph states reachable through the public interface (§6), starting from
a fresh graph: node insertion, edge insertion (successful or failed — a
failed `add_edge` raises after possibly mutating state, which the error
value carries), and path enumeration (successful, or crashing mid-way on
cycle detection with the dependency mutations performed so far;
`create_plan` and `dump` mutate only through `find_paths`). -/
inductive ReachableState : DirectedGraph → Prop where
  | init : ReachableState DirectedGraph.empty
  | addNodeOk {g g' : DirectedGraph} {nm : String} :
      ReachableState g → g.add_node (Node.fresh nm) = .ok g' → ReachableState g'
  | addEdgeOk {g g' : DirectedGraph} {a b : String} :
      ReachableState g → g.add_edge a b = .ok g' → ReachableState g'
  | addEdgeErr {g g' : DirectedGraph} {a b : String} {err : GraphFailure} :
      ReachableState g → g.add_edge a b = .error (err, g') → ReachableState g'
  | findPathsOk {g g' : DirectedGraph} {ps : List (List String)} :
      ReachableState g → g.find_paths = .ok (g', ps) → ReachableState g'
  | findPathsCycleHit {g g' : DirectedGraph} {roots : List String} :
      ReachableState g → g.collectRoots = .ok roots →
      traverseRoots g roots [] = .cycleHit g' → ReachableState g'

/-! ## Transport lemmas: the traversal mutates only dependency sets -/

theorem skelNode_name (nd : Node) : (skelNode nd).name = nd.name := rfl

theorem findNode_map (g : DirectedGraph) (f : Node → Node)
    (hf : ∀ nd, (f nd).name = nd.name) (x : String) :
    DirectedGraph.findNode { g with nodes := g.nodes.map f } x = Option.map f (g.findNode x) := by
  unfold DirectedGraph.findNode
  simp only [List.find?_map]
  have : ((fun nd : Node => nd.name == x) ∘ f) = (fun nd : Node => nd.name == x) := by
    funext nd
    simp [Function.comp, hf]
  rw [this]

theorem names_map (g : DirectedGraph) (f : Node → Node)
    (hf : ∀ nd, (f nd).name = nd.name) :
    DirectedGraph.names { g with nodes := g.nodes.map f } = g.names := by
  unfold DirectedGraph.names
  simp only [List.map_map]
  have : (Node.name ∘ f) = Node.name := by
    funext nd
    exact hf nd
  rw [this]

theorem addDep_name_preserving (dep : String) (nd : Node) :
    (Node.add_dependency nd dep).name = nd.name := by
  unfold Node.add_dependency
  split <;> rfl

theorem skelNode_add_dependency (nd : Node) (dep : String) :
    skelNode (nd.add_dependency dep) = skelNode nd := by
  unfold Node.add_dependency skelNode
  split <;> rfl

/-- `addDep` changes no structural field of any node. -/
theorem skel_addDep (g : DirectedGraph) (who dep : String) :
    skel (g.addDep who dep) = skel g := by
  unfold skel DirectedGraph.addDep
  simp only [List.map_map]
  have : (skelNode ∘ fun nd : Node => if nd.name == who then nd.add_dependency dep else nd) =
      skelNode := by
    funext nd
    by_cases h : nd.name == who <;> simp [Function.comp, h, skelNode_add_dependency]
  rw [this]

theorem addDep_paths (g : DirectedGraph) (who dep : String) :
    (g.addDep who dep).paths = g.paths := rfl

theorem addDep_dirty (g : DirectedGraph) (who dep : String) :
    (g.addDep who dep).cache_dirty = g.cache_dirty := rfl

theorem skel_addDepsAlong (g : DirectedGraph) (cp : List String) (n : String) :
    skel (g.addDepsAlong cp n) = skel g := by
  unfold DirectedGraph.addDepsAlong
  induction cp generalizing g with
  | nil => rfl
  | cons a cp ih =>
    simp only [List.foldl_cons]
    split
    · exact ih g
    · exact (ih _).trans (skel_addDep g a n)

theorem addDepsAlong_paths (g : DirectedGraph) (cp : List String) (n : String) :
    (g.addDepsAlong cp n).paths = g.paths := by
  unfold DirectedGraph.addDepsAlong
  induction cp generalizing g with
  | nil => rfl
  | cons a cp ih =>
    simp only [List.foldl_cons]
    split
    · exact ih g
    · exact (ih _).trans (addDep_paths g a n)

theorem addDepsAlong_dirty (g : DirectedGraph) (cp : List String) (n : String) :
    (g.addDepsAlong cp n).cache_dirty = g.cache_dirty := by
  unfold DirectedGraph.addDepsAlong
  induction cp generalizing g with
  | nil => rfl
  | cons a cp ih =>
    simp only [List.foldl_cons]
    split
    · exact ih g
    · exact (ih _).trans (addDep_dirty g a n)

set_option linter.unnecessarySeqFocus false in
/-- `outsOf` is determined by the skeleton. -/
theorem outsOf_congr {g h : DirectedGraph} (hs : skel g = skel h) (x : String) :
    g.outsOf x = h.outsOf x := by
  have hg : Option.map skelNode (g.findNode x) = Option.map skelNode (h.findNode x) := by
    unfold DirectedGraph.findNode
    have : ∀ k : DirectedGraph, Option.map skelNode (k.nodes.find? (fun nd => nd.name == x)) =
        (skel k).find? (fun nd => nd.name == x) := by
      intro k
      unfold skel
      rw [List.find?_map]
      rfl
    rw [show (g.nodes.find? fun nd => nd.name == x) = g.findNode x from rfl] at *
    calc Option.map skelNode (g.findNode x) = (skel g).find? (fun nd => nd.name == x) := this g
      _ = (skel h).find? (fun nd => nd.name == x) := by rw [hs]
      _ = Option.map skelNode (h.findNode x) := (this h).symm
  unfold DirectedGraph.outsOf
  cases hgf : g.findNode x <;> cases hhf : h.findNode x <;>
    rw [hgf, hhf] at hg <;> simp at hg <;> try rfl
  · rename_i nd md
    have : (skelNode nd).outgoing_edges = (skelNode md).outgoing_edges := by rw [hg]
    simpa [skelNode] using congrArg (List.map Edge.to_node) this

/-- `names` is determined by the skeleton. -/
theorem names_congr {g h : DirectedGraph} (hs : skel g = skel h) :
    g.names = h.names := by
  have : ∀ k : DirectedGraph, k.names = (skel k).map Node.name := by
    intro k
    unfold DirectedGraph.names skel
    rw [List.map_map]
    rfl
  rw [this g, this h, hs]

/-- `maxOut` is determined by the skeleton. -/
theorem maxOut_congr {g h : DirectedGraph} (hs : skel g = skel h) :
    g.maxOut = h.maxOut := by
  have : ∀ k : DirectedGraph, k.maxOut =
      (skel k).foldl (fun m nd => max m nd.outgoing_edges.length) 0 := by
    intro k
    unfold DirectedGraph.maxOut skel
    rw [List.foldl_map]
    rfl
  rw [this g, this h, hs]

end DepGraph

namespace DepGraph

/-! ## Lookup and dependency-set characterizations -/

theorem findNode_some {g : DirectedGraph} {x : String} {nd : Node}
    (h : g.findNode x = some nd) : nd.name = x ∧ nd ∈ g.nodes := by
  unfold DirectedGraph.findNode at h
  refine ⟨?_, List.mem_of_find?_eq_some h⟩
  have := List.find?_some h
  simpa using this

theorem findNode_none_iff {g : DirectedGraph} {x : String} :
    g.findNode x = none ↔ x ∉ g.names := by
  unfold DirectedGraph.findNode DirectedGraph.names
  rw [List.find?_eq_none]
  simp

theorem mem_names_of_findNode_some {g : DirectedGraph} {x : String} {nd : Node}
    (h : g.findNode x = some nd) : x ∈ g.names := by
  by_contra hx
  rw [← findNode_none_iff] at hx
  rw [h] at hx
  exact Option.noConfusion hx

theorem outsOf_ne_nil_mem {g : DirectedGraph} {x : String}
    (h : g.outsOf x ≠ []) : x ∈ g.names := by
  unfold DirectedGraph.outsOf at h
  cases hf : g.findNode x with
  | none => rw [hf] at h; exact absurd rfl h
  | some nd => exact mem_names_of_findNode_some hf

theorem mem_add_dependency {nd : Node} {dep y : String} :
    y ∈ (nd.add_dependency dep).dependsOnSet ↔ y ∈ nd.dependsOnSet ∨ y = dep := by
  unfold Node.add_dependency
  split
  · rename_i hmem
    constructor
    · exact fun h => Or.inl h
    · rintro (h | rfl)
      · exact h
      · exact hmem
  · simp

theorem addDep_names (g : DirectedGraph) (who dep : String) :
    (g.addDep who dep).names = g.names :=
  names_congr (skel_addDep g who dep)

theorem addDepsAlong_names (g : DirectedGraph) (cp : List String) (n : String) :
    (g.addDepsAlong cp n).names = g.names :=
  names_congr (skel_addDepsAlong g cp n)

/-- Effect of a single `add_dependency` on the dependency sets, at the level
of membership. -/
theorem depsOf_addDep (g : DirectedGraph) (who dep x y : String) :
    y ∈ (g.addDep who dep).depsOf x ↔
      y ∈ g.depsOf x ∨ (x = who ∧ y = dep ∧ x ∈ g.names) := by
  have hname : ∀ nd : Node, ((fun nd : Node =>
      if nd.name == who then nd.add_dependency dep else nd) nd).name = nd.name := by
    intro nd
    by_cases h : nd.name == who <;> simp [h, addDep_name_preserving]
  have hfind := findNode_map g _ hname x
  unfold DirectedGraph.depsOf
  rw [show (g.addDep who dep).findNode x =
      DirectedGraph.findNode { g with nodes := g.nodes.map (fun nd : Node =>
        if nd.name == who then nd.add_dependency dep else nd) } x from rfl, hfind]
  cases hf : g.findNode x with
  | none =>
    have hx : x ∉ g.names := findNode_none_iff.mp hf
    simp [hx]
  | some nd =>
    obtain ⟨hnd, _⟩ := findNode_some hf
    have hx : x ∈ g.names := mem_names_of_findNode_some hf
    by_cases hwho : x = who
    · subst hwho
      show y ∈ (if (nd.name == x) = true then nd.add_dependency dep else nd).dependsOnSet ↔ _
      rw [if_pos (by simp [hnd])]
      rw [mem_add_dependency]
      simp [hx]
    · show y ∈ (if (nd.name == who) = true then nd.add_dependency dep else nd).dependsOnSet ↔ _
      rw [if_neg (by simp [hnd, hwho])]
      simp [hwho]

/-- Effect of the dependency-recording loop (lines 166–169) on the
dependency sets. -/
theorem depsOf_addDepsAlong (g : DirectedGraph) (cp : List String) (n x y : String) :
    y ∈ (g.addDepsAlong cp n).depsOf x ↔
      y ∈ g.depsOf x ∨ (x ∈ cp ∧ x ≠ n ∧ y = n ∧ x ∈ g.names) := by
  induction cp generalizing g with
  | nil => simp [DirectedGraph.addDepsAlong]
  | cons a cp ih =>
    have hstep : (g.addDepsAlong (a :: cp) n) =
        ((if (a == n) then g else g.addDep a n).addDepsAlong cp n) := by
      unfold DirectedGraph.addDepsAlong
      simp only [List.foldl_cons]
    rw [hstep]
    by_cases han : a = n
    · subst han
      rw [if_pos (by simp)]
      rw [ih g]
      constructor
      · rintro (h | ⟨h1, h2, h3, h4⟩)
        · exact Or.inl h
        · exact Or.inr ⟨List.mem_cons_of_mem _ h1, h2, h3, h4⟩
      · rintro (h | ⟨h1, h2, h3, h4⟩)
        · exact Or.inl h
        · rcases List.mem_cons.mp h1 with rfl | h1
          · exact absurd rfl h2
          · exact Or.inr ⟨h1, h2, h3, h4⟩
    · rw [if_neg (by simpa using han)]
      rw [ih _]
      rw [depsOf_addDep, addDep_names]
      constructor
      · rintro ((h | ⟨h1, h2, h3⟩) | ⟨h1, h2, h3, h4⟩)
        · exact Or.inl h
        · exact Or.inr ⟨by rw [h1]; exact List.mem_cons_self a cp,
            by rw [h1]; exact han, h2, h3⟩
        · exact Or.inr ⟨List.mem_cons_of_mem _ h1, h2, h3, h4⟩
      · rintro (h | ⟨h1, h2, h3, h4⟩)
        · exact Or.inl (Or.inl h)
        · rcases List.mem_cons.mp h1 with h5 | h5
          · exact Or.inl (Or.inr ⟨h5, h3, h4⟩)
          · exact Or.inr ⟨h5, h2, h3, h4⟩

/-! ## Root collection under well-formedness -/

/-- Root names computed from a node list (the `rootsSimple` filter). -/
def listRoots (l : List Node) : List String :=
  (l.filter (fun nd => !(nd.edges.any (fun e => e.to_node == nd.name)))).map Node.name

theorem rootsSimple_eq_listRoots (g : DirectedGraph) : rootsSimple g = listRoots g.nodes := rfl

theorem anyIncoming_ok {name : String} {edges : List Edge}
    (h : ∀ e ∈ edges, e.connected_to_node name = true) :
    anyIncoming name edges = .ok (edges.any (fun e => e.to_node == name)) := by
  induction edges with
  | nil => rfl
  | cons e rest ih =>
    have hc := h e (List.mem_cons_self e rest)
    have hie : e.is_incoming_edge name = .ok (e.to_node == name) := by
      unfold Edge.is_incoming_edge
      rw [hc]
      rfl
    unfold anyIncoming
    rw [hie]
    by_cases ht : e.to_node == name
    · rw [ht]
      show Except.ok true = _
      simp [List.any_cons, ht]
    · simp only [Bool.not_eq_true] at ht
      rw [ht]
      show anyIncoming name rest = _
      rw [ih (fun e he => h e (List.mem_cons_of_mem _ he))]
      simp [List.any_cons, ht]

theorem collectRootsGo_ok {l : List Node}
    (h : ∀ nd ∈ l, ∀ e ∈ nd.edges, e.from_node = nd.name ∨ e.to_node = nd.name) :
    collectRootsGo l = .ok (listRoots l) := by
  induction l with
  | nil => rfl
  | cons nd rest ih =>
    have hconn : ∀ e ∈ nd.edges, e.connected_to_node nd.name = true := by
      intro e he
      unfold Edge.connected_to_node
      rcases h nd (List.mem_cons_self nd rest) e he with h1 | h1 <;> simp [h1]
    unfold collectRootsGo Node.has_incoming_edges
    rw [anyIncoming_ok hconn]
    have hrest := ih (fun m hm => h m (List.mem_cons_of_mem _ hm))
    by_cases hin : nd.edges.any (fun e => e.to_node == nd.name)
    · rw [hin]
      show collectRootsGo rest = _
      rw [hrest]
      unfold listRoots
      rw [List.filter_cons_of_neg (by simp [hin])]
    · simp only [Bool.not_eq_true] at hin
      rw [hin]
      show (collectRootsGo rest).map _ = _
      rw [hrest]
      unfold listRoots
      rw [List.filter_cons_of_pos (by simp [hin])]
      rfl

/-- Under well-formedness, root collection cannot raise `InvalidRelation` and
returns exactly the nodes with no incoming edge. -/
theorem collectRoots_ok {g : DirectedGraph} (hwf : WF g) :
    g.collectRoots = .ok (rootsSimple g) :=
  collectRootsGo_ok hwf.edges_conn

end DepGraph

namespace DepGraph

/-! ## The search tree of the stack traversal -/

/-- Descendant relation between stack entries of the traversal, over a fixed
adjacency function: entry `(t, p ++ [n])` is a child of entry `(n, p)` when
`t` is a successor of `n` that is not yet on the current path. -/
inductive EntryReach (adj : String → List String) :
    String × List String → String × List String → Prop where
  | refl (e : String × List String) : EntryReach adj e e
  | push {n t : String} {p : List String} {e : String × List String}
      (ht : t ∈ adj n) (hnp : t ∉ p ++ [n])
      (h : EntryReach adj (t, p ++ [n]) e) : EntryReach adj (n, p) e

theorem EntryReach.push_back {adj : String → List String}
    {e e' : String × List String} {t : String}
    (h : EntryReach adj e e') (ht : t ∈ adj e'.1) (hnp : t ∉ e'.2 ++ [e'.1]) :
    EntryReach adj e (t, e'.2 ++ [e'.1]) := by
  induction h with
  | refl e => exact .push ht hnp (.refl _)
  | push ht' hnp' _ ih => exact .push ht' hnp' (ih ht hnp)

/-- Entry paths only mention names of stored nodes (a node with a successor
is stored, since its outgoing list was read off a stored node). -/
theorem EntryReach.namesInv {g : DirectedGraph}
    {e e' : String × List String}
    (h : EntryReach g.outsOf e e')
    (hp : ∀ z ∈ e.2, z ∈ g.names) : ∀ z ∈ e'.2, z ∈ g.names := by
  induction h with
  | refl e => exact hp
  | push ht _ _ ih =>
    refine ih ?_
    intro z hz
    rcases List.mem_append.mp hz with hz | hz
    · exact hp z hz
    · rcases List.mem_singleton.mp hz with rfl
      exact outsOf_ne_nil_mem (List.ne_nil_of_mem ht)

theorem EntryReach.nodupInv {adj : String → List String}
    {e e' : String × List String}
    (h : EntryReach adj e e')
    (hnd : (e.2 ++ [e.1]).Nodup) : (e'.2 ++ [e'.1]).Nodup := by
  induction h with
  | refl e => exact hnd
  | push ht hnp _ ih =>
    refine ih ?_
    rw [List.nodup_append]
    exact ⟨hnd, List.nodup_singleton _, by
      intro z hz hz'
      rcases List.mem_singleton.mp hz' with rfl
      exact hnp hz⟩

theorem EntryReach.chainInv {adj : String → List String}
    {e e' : String × List String}
    (h : EntryReach adj e e')
    (hc : List.Chain' (fun u v => v ∈ adj u) (e.2 ++ [e.1])) :
    List.Chain' (fun u v => v ∈ adj u) (e'.2 ++ [e'.1]) := by
  induction h with
  | refl e => exact hc
  | push ht _ _ ih =>
    refine ih ?_
    refine List.Chain'.append hc (List.chain'_singleton _) ?_
    intro x hx y hy
    rw [List.getLast?_concat] at hx
    obtain rfl := Option.some_inj.mp (Option.mem_def.mp hx)
    obtain rfl := Option.some_inj.mp (Option.mem_def.mp hy)
    exact ht

/-! ## `pushTargets` characterization -/

theorem pushTargets_some {cp : List String} :
    ∀ {ts : List String} {entries : List (String × List String)},
    pushTargets cp ts = some entries →
    entries = ts.map (fun t => (t, cp)) ∧ ∀ t ∈ ts, t ∉ cp := by
  intro ts
  induction ts with
  | nil =>
    intro entries h
    simp [pushTargets] at h
    simp [h.symm]
  | cons t ts ih =>
    intro entries h
    unfold pushTargets at h
    by_cases hm : cp.contains t
    · rw [if_pos hm] at h
      exact absurd h (by simp)
    · rw [if_neg hm] at h
      cases hrec : pushTargets cp ts with
      | none => rw [hrec] at h; exact absurd h (by simp)
      | some rest =>
        rw [hrec] at h
        obtain ⟨h1, h2⟩ := ih hrec
        have h' : (t, cp) :: rest = entries := by
          have hmap : Option.map (fun rest => (t, cp) :: rest) (some rest) =
              some ((t, cp) :: rest) := rfl
          rw [hmap] at h
          exact Option.some_inj.mp h
        refine ⟨by rw [← h', h1, List.map_cons], ?_⟩
        intro z hz
        rcases List.mem_cons.mp hz with rfl | hz
        · intro hcp
          exact hm (List.elem_eq_true_of_mem hcp)
        · exact h2 z hz

theorem pushTargets_none {cp : List String} :
    ∀ {ts : List String}, pushTargets cp ts = none → ∃ t ∈ ts, t ∈ cp := by
  intro ts
  induction ts with
  | nil => intro h; simp [pushTargets] at h
  | cons t ts ih =>
    intro h
    unfold pushTargets at h
    by_cases hm : cp.contains t
    · exact ⟨t, List.mem_cons_self t ts, List.mem_of_elem_eq_true hm⟩
    · rw [if_neg hm] at h
      cases hrec : pushTargets cp ts with
      | none =>
        obtain ⟨z, hz1, hz2⟩ := ih hrec
        exact ⟨z, List.mem_cons_of_mem _ hz1, hz2⟩
      | some rest => rw [hrec] at h; exact absurd h (by simp)

theorem pushTargets_of_not_mem {cp ts : List String} (h : ∀ t ∈ ts, t ∉ cp) :
    pushTargets cp ts = some (ts.map (fun t => (t, cp))) := by
  induction ts with
  | nil => rfl
  | cons t ts ih =>
    unfold pushTargets
    rw [if_neg (by
      intro hc
      exact h t (List.mem_cons_self t ts) (List.mem_of_elem_eq_true hc))]
    rw [ih (fun z hz => h z (List.mem_cons_of_mem _ hz))]
    rfl

/-! ## Unfolding equations for `traverseLoop` -/

theorem traverseLoop_nil (g : DirectedGraph) (fuel : Nat) (paths : List (List String)) :
    traverseLoop g fuel [] paths = .ok g paths := by
  unfold traverseLoop
  rfl

theorem traverseLoop_zero (g : DirectedGraph) (n : String) (p : List String)
    (rest : List (String × List String)) (paths : List (List String)) :
    traverseLoop g 0 ((n, p) :: rest) paths = .outOfFuel := by
  unfold traverseLoop
  rfl

theorem traverseLoop_succ (g : DirectedGraph) (fuel : Nat) (n : String) (p : List String)
    (rest : List (String × List String)) (paths : List (List String)) :
    traverseLoop g (fuel + 1) ((n, p) :: rest) paths =
      if (g.addDepsAlong (p ++ [n]) n).outsOf n = [] then
        traverseLoop (g.addDepsAlong (p ++ [n]) n) fuel rest
          (if p ++ [n] = [] then paths else paths ++ [p ++ [n]])
      else
        match pushTargets (p ++ [n]) ((g.addDepsAlong (p ++ [n]) n).outsOf n) with
        | none => .cycleHit (g.addDepsAlong (p ++ [n]) n)
        | some entries =>
          traverseLoop (g.addDepsAlong (p ++ [n]) n) fuel (entries.reverse ++ rest) paths := by
  conv_lhs => unfold traverseLoop

end DepGraph

namespace DepGraph

/-! ## The traversal only mutates dependency sets -/

/-- The graph state a loop outcome carries (none on fuel exhaustion). -/
def LoopResult.stateOf : LoopResult → Option DirectedGraph
  | .ok g _ => some g
  | .cycleHit g => some g
  | .outOfFuel => none

theorem traverseLoop_state : ∀ (fuel : Nat) (g : DirectedGraph)
    (stack : List (String × List String)) (paths : List (List String))
    (g' : DirectedGraph),
    (traverseLoop g fuel stack paths).stateOf = some g' →
    skel g' = skel g ∧ g'.paths = g.paths ∧ g'.cache_dirty = g.cache_dirty := by
  intro fuel
  induction fuel with
  | zero =>
    intro g stack paths g' h
    cases stack with
    | nil =>
      rw [traverseLoop_nil] at h
      have h' : some g = some g' := h
      obtain rfl := Option.some_inj.mp h'
      exact ⟨rfl, rfl, rfl⟩
    | cons e rest =>
      obtain ⟨n, p⟩ := e
      rw [traverseLoop_zero] at h
      exact absurd h (by simp [LoopResult.stateOf])
  | succ fuel ih =>
    intro g stack paths g' h
    cases stack with
    | nil =>
      rw [traverseLoop_nil] at h
      have h' : some g = some g' := h
      obtain rfl := Option.some_inj.mp h'
      exact ⟨rfl, rfl, rfl⟩
    | cons e rest =>
      obtain ⟨n, p⟩ := e
      rw [traverseLoop_succ] at h
      have hsk : skel (g.addDepsAlong (p ++ [n]) n) = skel g := skel_addDepsAlong g (p ++ [n]) n
      have hpa : (g.addDepsAlong (p ++ [n]) n).paths = g.paths := addDepsAlong_paths g (p ++ [n]) n
      have hdi : (g.addDepsAlong (p ++ [n]) n).cache_dirty = g.cache_dirty :=
        addDepsAlong_dirty g (p ++ [n]) n
      by_cases hout : (g.addDepsAlong (p ++ [n]) n).outsOf n = []
      · rw [if_pos hout] at h
        obtain ⟨h1, h2, h3⟩ := ih _ rest _ g' h
        exact ⟨h1.trans hsk, h2.trans hpa, h3.trans hdi⟩
      · rw [if_neg hout] at h
        cases hpt : pushTargets (p ++ [n]) ((g.addDepsAlong (p ++ [n]) n).outsOf n) with
        | none =>
          rw [hpt] at h
          have h' : some (g.addDepsAlong (p ++ [n]) n) = some g' := h
          obtain rfl := Option.some_inj.mp h'
          exact ⟨hsk, hpa, hdi⟩
        | some entries =>
          rw [hpt] at h
          have h' : (traverseLoop (g.addDepsAlong (p ++ [n]) n) fuel
              (entries.reverse ++ rest) paths).stateOf = some g' := h
          obtain ⟨h1, h2, h3⟩ := ih _ _ _ g' h'
          exact ⟨h1.trans hsk, h2.trans hpa, h3.trans hdi⟩

/-! ## Fuel adequacy -/

theorem foldl_max_acc_le : ∀ (l : List Node) (acc : Nat),
    acc ≤ l.foldl (fun m nd => max m nd.outgoing_edges.length) acc := by
  intro l
  induction l with
  | nil => intro acc; exact le_refl _
  | cons nd l ih =>
    intro acc
    exact le_trans (le_max_left _ _) (ih _)

theorem foldl_max_mem_le : ∀ (l : List Node) (acc : Nat) (nd : Node), nd ∈ l →
    nd.outgoing_edges.length ≤ l.foldl (fun m nd => max m nd.outgoing_edges.length) acc := by
  intro l
  induction l with
  | nil =>
    intro acc nd h
    exact absurd h (List.not_mem_nil nd)
  | cons m l ih =>
    intro acc nd h
    rcases List.mem_cons.mp h with rfl | h
    · exact le_trans (le_max_right _ _) (foldl_max_acc_le l _)
    · exact ih _ nd h

theorem outsOf_length_le (g : DirectedGraph) (n : String) :
    (g.outsOf n).length ≤ g.maxOut := by
  unfold DirectedGraph.outsOf
  cases hf : g.findNode n with
  | none => simp
  | some nd =>
    obtain ⟨_, hmem⟩ := findNode_some hf
    rw [List.length_map]
    exact foldl_max_mem_le g.nodes 0 nd hmem

theorem nodup_subset_length {l l' : List String} (h : l.Nodup) (hs : ∀ z ∈ l, z ∈ l') :
    l.length ≤ l'.length := by
  calc l.length = l.toFinset.card := (List.toFinset_card_of_nodup h).symm
    _ ≤ l'.toFinset.card := Finset.card_le_card (by
        intro x hx
        rw [List.mem_toFinset] at hx
        rw [List.mem_toFinset]
        exact hs x hx)
    _ ≤ l'.length := l'.toFinset_card_le

/-- Measure of a stack entry: exponential in the remaining path budget. -/
def entryMeasure (C N : Nat) (e : String × List String) : Nat := C ^ (N - e.2.length)

/-- Measure of the whole stack: the loop strictly decreases it. -/
def stackMeasure (C N : Nat) (stack : List (String × List String)) : Nat :=
  (stack.map (entryMeasure C N)).sum

theorem stackMeasure_cons (C N : Nat) (e : String × List String)
    (rest : List (String × List String)) :
    stackMeasure C N (e :: rest) = entryMeasure C N e + stackMeasure C N rest := by
  unfold stackMeasure
  rw [List.map_cons, List.sum_cons]

theorem stackMeasure_append (C N : Nat) (l₁ l₂ : List (String × List String)) :
    stackMeasure C N (l₁ ++ l₂) = stackMeasure C N l₁ + stackMeasure C N l₂ := by
  unfold stackMeasure
  rw [List.map_append, List.sum_append]

theorem stackMeasure_reverse (C N : Nat) (l : List (String × List String)) :
    stackMeasure C N l.reverse = stackMeasure C N l := by
  unfold stackMeasure
  rw [List.map_reverse, List.sum_reverse]

theorem sum_map_const_nat {α : Type} (l : List α) (c : Nat) :
    (l.map (fun _ => c)).sum = l.length * c := by
  rw [show (fun _ : α => c) = Function.const α c from rfl, List.map_const,
    List.sum_replicate, smul_eq_mul]

/-- The fuel can only run out if the measure exceeds it; since every pushed
path is duplicate-free over stored names, the chosen fuel never does. -/
theorem traverseLoop_no_fuel : ∀ (fuel : Nat) (g : DirectedGraph)
    (stack : List (String × List String)) (paths : List (List String)),
    (∀ e ∈ stack, (e.2 ++ [e.1]).Nodup ∧ ∀ z ∈ e.2, z ∈ g.names) →
    stackMeasure (g.maxOut + 1) g.names.length stack ≤ fuel →
    traverseLoop g fuel stack paths ≠ .outOfFuel := by
  intro fuel
  induction fuel with
  | zero =>
    intro g stack paths hinv hm
    cases stack with
    | nil =>
      rw [traverseLoop_nil]
      exact fun h => LoopResult.noConfusion h
    | cons e rest =>
      exfalso
      rw [stackMeasure_cons] at hm
      have : (1 : Nat) ≤ entryMeasure (g.maxOut + 1) g.names.length e :=
        Nat.one_le_pow _ _ (by omega)
      omega
  | succ fuel ih =>
    intro g stack paths hinv hm
    cases stack with
    | nil =>
      rw [traverseLoop_nil]
      exact fun h => LoopResult.noConfusion h
    | cons e rest =>
      obtain ⟨n, p⟩ := e
      rw [traverseLoop_succ]
      have hnames2 : (g.addDepsAlong (p ++ [n]) n).names = g.names :=
        addDepsAlong_names g (p ++ [n]) n
      have hmax2 : (g.addDepsAlong (p ++ [n]) n).maxOut = g.maxOut :=
        maxOut_congr (skel_addDepsAlong g (p ++ [n]) n)
      rw [stackMeasure_cons] at hm
      have hone : (1 : Nat) ≤ entryMeasure (g.maxOut + 1) g.names.length (n, p) :=
        Nat.one_le_pow _ _ (by omega)
      have hrestinv : ∀ e ∈ rest, (e.2 ++ [e.1]).Nodup ∧
          ∀ z ∈ e.2, z ∈ (g.addDepsAlong (p ++ [n]) n).names := by
        intro e he
        obtain ⟨h1, h2⟩ := hinv e (List.mem_cons_of_mem _ he)
        rw [hnames2]
        exact ⟨h1, h2⟩
      by_cases hout : (g.addDepsAlong (p ++ [n]) n).outsOf n = []
      · rw [if_pos hout]
        refine ih _ rest _ hrestinv ?_
        rw [hnames2, hmax2]
        omega
      · rw [if_neg hout]
        cases hpt : pushTargets (p ++ [n]) ((g.addDepsAlong (p ++ [n]) n).outsOf n) with
        | none => exact fun h => LoopResult.noConfusion h
        | some entries =>
          obtain ⟨hent, hnotmem⟩ := pushTargets_some hpt
          obtain ⟨hnd, hsub⟩ := hinv (n, p) (List.mem_cons_self _ _)
          have hn_mem : n ∈ g.names := by
            rw [← hnames2]
            exact outsOf_ne_nil_mem hout
          have hcp_sub : ∀ z ∈ p ++ [n], z ∈ g.names := by
            intro z hz
            rcases List.mem_append.mp hz with hz | hz
            · exact hsub z hz
            · rcases List.mem_singleton.mp hz with rfl
              exact hn_mem
          have hlen : (p ++ [n]).length ≤ g.names.length := nodup_subset_length hnd hcp_sub
          rw [List.length_append, List.length_singleton] at hlen
          -- measure of the pushed entries
          have hsum : stackMeasure (g.maxOut + 1) g.names.length entries =
              ((g.addDepsAlong (p ++ [n]) n).outsOf n).length *
                (g.maxOut + 1) ^ (g.names.length - p.length - 1) := by
            rw [hent]
            unfold stackMeasure
            rw [List.map_map]
            have : (entryMeasure (g.maxOut + 1) g.names.length ∘ fun t => (t, p ++ [n])) =
                fun _ => (g.maxOut + 1) ^ (g.names.length - p.length - 1) := by
              funext t
              unfold entryMeasure
              simp [Function.comp, List.length_append, Nat.sub_sub]
            rw [this, sum_map_const_nat]
          refine ih _ _ _ ?_ ?_
          · intro e he
            rcases List.mem_append.mp he with he | he
            · rw [List.mem_reverse] at he
              rw [hent] at he
              obtain ⟨t, ht, rfl⟩ := List.mem_map.mp he
              constructor
              · rw [List.nodup_append]
                refine ⟨hnd, List.nodup_singleton _, ?_⟩
                intro z hz hz'
                rcases List.mem_singleton.mp hz' with rfl
                exact hnotmem z ht hz
              · intro z hz
                rw [hnames2]
                exact hcp_sub z hz
            · exact hrestinv e he
          · rw [hnames2, hmax2, stackMeasure_append, stackMeasure_reverse, hsum]
            have hL : ((g.addDepsAlong (p ++ [n]) n).outsOf n).length ≤ g.maxOut := by
              rw [← hmax2]
              exact outsOf_length_le _ n
            have hXpos : (1 : Nat) ≤ (g.maxOut + 1) ^ (g.names.length - p.length - 1) :=
              Nat.one_le_pow _ _ (by omega)
            have hsplit : entryMeasure (g.maxOut + 1) g.names.length (n, p) =
                g.maxOut * (g.maxOut + 1) ^ (g.names.length - p.length - 1) +
                  (g.maxOut + 1) ^ (g.names.length - p.length - 1) := by
              unfold entryMeasure
              have hexp : g.names.length - p.length = (g.names.length - p.length - 1) + 1 := by
                omega
              conv_lhs => rw [hexp]
              rw [pow_succ]
              generalize (g.maxOut + 1) ^ (g.names.length - p.length - 1) = X
              ring
            have hLX : ((g.addDepsAlong (p ++ [n]) n).outsOf n).length *
                (g.maxOut + 1) ^ (g.names.length - p.length - 1) ≤
                g.maxOut * (g.maxOut + 1) ^ (g.names.length - p.length - 1) :=
              Nat.mul_le_mul_right _ hL
            rw [hsplit] at hm
            set X := (g.maxOut + 1) ^ (g.names.length - p.length - 1) with hX
            set MX := g.maxOut * X with hMX
            set LX := ((g.addDepsAlong (p ++ [n]) n).outsOf n).length * X with hLX2
            omega

end DepGraph

namespace DepGraph

/-! ## Chains and the transitive closure -/

theorem chain_head_transGen {R : String → String → Prop} :
    ∀ (rest : List String) (z n : String),
    List.Chain' R (z :: (rest ++ [n])) → Relation.TransGen R z n := by
  intro rest
  induction rest with
  | nil =>
    intro z n hc
    exact Relation.TransGen.single (List.chain'_cons.mp hc).1
  | cons b rest ih =>
    intro z n hc
    rw [List.cons_append] at hc
    obtain ⟨hzb, hc'⟩ := List.chain'_cons.mp hc
    exact Relation.TransGen.head hzb (ih b n hc')

theorem chain_mem_transGen {R : String → String → Prop} :
    ∀ (l : List String) (x n : String), x ∈ l →
    List.Chain' R (l ++ [n]) → Relation.TransGen R x n := by
  intro l
  induction l with
  | nil =>
    intro x n h
    exact absurd h (List.not_mem_nil x)
  | cons a l ih =>
    intro x n hx hc
    rcases List.mem_cons.mp hx with rfl | hx
    · exact chain_head_transGen l x n hc
    · exact ih x n hx (List.Chain'.tail hc)

/-- On an acyclic graph the traversal never reports a cycle: a reported
cycle is a target already on the duplicate-free current path, which yields a
closed chain. -/
theorem traverseLoop_no_cycle : ∀ (fuel : Nat) (g : DirectedGraph)
    (stack : List (String × List String)) (paths : List (List String)),
    (∀ e ∈ stack, List.Chain' (edgeRel g) (e.2 ++ [e.1])) →
    (∀ x, ¬ Relation.TransGen (edgeRel g) x x) →
    ∀ gc, traverseLoop g fuel stack paths ≠ .cycleHit gc := by
  intro fuel
  induction fuel with
  | zero =>
    intro g stack paths _ _ gc
    cases stack with
    | nil =>
      rw [traverseLoop_nil]
      exact fun h => LoopResult.noConfusion h
    | cons e rest =>
      obtain ⟨n, p⟩ := e
      rw [traverseLoop_zero]
      exact fun h => LoopResult.noConfusion h
  | succ fuel ih =>
    intro g stack paths hchain hacyc gc
    cases stack with
    | nil =>
      rw [traverseLoop_nil]
      exact fun h => LoopResult.noConfusion h
    | cons e rest =>
      obtain ⟨n, p⟩ := e
      rw [traverseLoop_succ]
      have hsk := skel_addDepsAlong g (p ++ [n]) n
      have hrel : edgeRel (g.addDepsAlong (p ++ [n]) n) = edgeRel g := by
        funext u v
        unfold edgeRel
        rw [outsOf_congr hsk]
      by_cases hout : (g.addDepsAlong (p ++ [n]) n).outsOf n = []
      · rw [if_pos hout]
        refine ih _ rest _ ?_ ?_ gc
        · intro e he
          rw [hrel]
          exact hchain e (List.mem_cons_of_mem _ he)
        · rw [hrel]
          exact hacyc
      · rw [if_neg hout]
        cases hpt : pushTargets (p ++ [n]) ((g.addDepsAlong (p ++ [n]) n).outsOf n) with
        | none =>
          exfalso
          obtain ⟨t, ht, htcp⟩ := pushTargets_none hpt
          have ht' : edgeRel g n t := by
            unfold edgeRel
            rw [← outsOf_congr hsk]
            exact ht
          have hcp := hchain (n, p) (List.mem_cons_self _ _)
          rcases List.mem_append.mp htcp with htp | htn
          · exact hacyc t (Relation.TransGen.trans
              (chain_mem_transGen p t n htp hcp) (Relation.TransGen.single ht'))
          · rcases List.mem_singleton.mp htn with rfl
            exact hacyc t (Relation.TransGen.single ht')
        | some entries =>
          obtain ⟨hent, hnm⟩ := pushTargets_some hpt
          refine ih _ _ _ ?_ ?_ gc
          · intro e he
            rw [hrel]
            rcases List.mem_append.mp he with he | he
            · rw [List.mem_reverse] at he
              rw [hent] at he
              obtain ⟨t, ht, rfl⟩ := List.mem_map.mp he
              refine List.Chain'.append (hchain (n, p) (List.mem_cons_self _ _))
                (List.chain'_singleton _) ?_
              intro x hx y hy
              rw [List.getLast?_concat] at hx
              obtain rfl := Option.some_inj.mp (Option.mem_def.mp hx)
              obtain rfl := Option.some_inj.mp (Option.mem_def.mp hy)
              unfold edgeRel
              rw [← outsOf_congr hsk]
              exact ht
            · exact hchain e (List.mem_cons_of_mem _ he)
          · rw [hrel]
            exact hacyc

end DepGraph

namespace DepGraph

theorem EntryReach.trans {adj : String → List String} {a b c : String × List String}
    (h1 : EntryReach adj a b) (h2 : EntryReach adj b c) : EntryReach adj a c := by
  induction h1 with
  | refl e => exact h2
  | push ht hnp _ ih => exact .push ht hnp (ih h2)

/-- The recorded paths after a successful run: the input paths followed by
exactly the terminal entries of the search trees of the stack entries. -/
theorem traverseLoop_paths : ∀ (fuel : Nat) (g : DirectedGraph)
    (stack : List (String × List String)) (paths : List (List String))
    (g' : DirectedGraph) (paths' : List (List String)),
    traverseLoop g fuel stack paths = .ok g' paths' →
    ∀ q, q ∈ paths' ↔ q ∈ paths ∨ ∃ e ∈ stack, ∃ n' p',
      EntryReach g.outsOf e (n', p') ∧ g.outsOf n' = [] ∧ q = p' ++ [n'] := by
  intro fuel
  induction fuel with
  | zero =>
    intro g stack paths g' paths' h q
    cases stack with
    | nil =>
      rw [traverseLoop_nil] at h
      obtain ⟨rfl, rfl⟩ : g = g' ∧ paths = paths' := by
        cases h
        exact ⟨rfl, rfl⟩
      simp
    | cons e rest =>
      obtain ⟨n, p⟩ := e
      rw [traverseLoop_zero] at h
      exact absurd h (by simp)
  | succ fuel ih =>
    intro g stack paths g' paths' h q
    cases stack with
    | nil =>
      rw [traverseLoop_nil] at h
      obtain ⟨rfl, rfl⟩ : g = g' ∧ paths = paths' := by
        cases h
        exact ⟨rfl, rfl⟩
      simp
    | cons e rest =>
      obtain ⟨n, p⟩ := e
      rw [traverseLoop_succ] at h
      have hsk := skel_addDepsAlong g (p ++ [n]) n
      have hadj : (g.addDepsAlong (p ++ [n]) n).outsOf = g.outsOf :=
        funext (outsOf_congr hsk)
      by_cases hout : (g.addDepsAlong (p ++ [n]) n).outsOf n = []
      · rw [if_pos hout] at h
        rw [if_neg (by simp)] at h
        have houtg : g.outsOf n = [] := by
          rw [← hadj]
          exact hout
        have := ih _ rest _ _ _ h q
        rw [hadj] at this
        rw [this]
        rw [List.mem_append, List.mem_singleton]
        constructor
        · rintro ((hq | hq) | ⟨e, he, n', p', hr, hterm, hq⟩)
          · exact Or.inl hq
          · exact Or.inr ⟨(n, p), List.mem_cons_self _ _, n, p, .refl _, houtg, hq⟩
          · exact Or.inr ⟨e, List.mem_cons_of_mem _ he, n', p', hr, hterm, hq⟩
        · rintro (hq | ⟨e, he, n', p', hr, hterm, hq⟩)
          · exact Or.inl (Or.inl hq)
          · rcases List.mem_cons.mp he with rfl | he
            · cases hr with
              | refl => exact Or.inl (Or.inr hq)
              | push ht hnp h' =>
                rw [houtg] at ht
                exact absurd ht (List.not_mem_nil _)
            · exact Or.inr ⟨e, he, n', p', hr, hterm, hq⟩
      · rw [if_neg hout] at h
        cases hpt : pushTargets (p ++ [n]) ((g.addDepsAlong (p ++ [n]) n).outsOf n) with
        | none =>
          rw [hpt] at h
          exact absurd h (by simp)
        | some entries =>
          rw [hpt] at h
          obtain ⟨hent, hnm⟩ := pushTargets_some hpt
          rw [hadj] at hent hnm
          have houtg : g.outsOf n ≠ [] := by
            rw [← hadj]
            exact hout
          have := ih _ _ _ _ _ h q
          rw [hadj] at this
          rw [this]
          constructor
          · rintro (hq | ⟨e, he, n', p', hr, hterm, hq⟩)
            · exact Or.inl hq
            · rcases List.mem_append.mp he with he | he
              · rw [List.mem_reverse] at he
                rw [hent] at he
                obtain ⟨t, ht, rfl⟩ := List.mem_map.mp he
                refine Or.inr ⟨(n, p), List.mem_cons_self _ _, n', p', ?_, hterm, hq⟩
                exact EntryReach.trans (.push ht (hnm t ht) (.refl _)) hr
              · exact Or.inr ⟨e, List.mem_cons_of_mem _ he, n', p', hr, hterm, hq⟩
          · rintro (hq | ⟨e, he, n', p', hr, hterm, hq⟩)
            · exact Or.inl hq
            · rcases List.mem_cons.mp he with rfl | he
              · cases hr with
                | refl => exact absurd hterm houtg
                | push ht hnp h' =>
                  rename_i t
                  refine Or.inr ⟨(t, p ++ [n]), List.mem_append.mpr (Or.inl ?_),
                    n', p', h', hterm, hq⟩
                  rw [List.mem_reverse, hent]
                  exact List.mem_map.mpr ⟨t, ht, rfl⟩
              · exact Or.inr ⟨e, List.mem_append.mpr (Or.inr he), n', p', hr, hterm, hq⟩

end DepGraph

namespace DepGraph

/-- The dependency sets after a successful run: the input sets extended by
one entry per visited path — every strictly earlier node of a visited path
comes to depend on the path's last node. -/
theorem traverseLoop_deps : ∀ (fuel : Nat) (g : DirectedGraph)
    (stack : List (String × List String)) (paths : List (List String))
    (g' : DirectedGraph) (paths' : List (List String)),
    traverseLoop g fuel stack paths = .ok g' paths' →
    (∀ e ∈ stack, ∀ z ∈ e.2, z ∈ g.names) →
    ∀ x y, y ∈ g'.depsOf x ↔ y ∈ g.depsOf x ∨ ∃ e ∈ stack, ∃ n' p',
      EntryReach g.outsOf e (n', p') ∧ x ∈ p' ∧ x ≠ n' ∧ y = n' := by
  intro fuel
  induction fuel with
  | zero =>
    intro g stack paths g' paths' h hstk x y
    cases stack with
    | nil =>
      rw [traverseLoop_nil] at h
      obtain ⟨rfl, rfl⟩ : g = g' ∧ paths = paths' := by
        cases h
        exact ⟨rfl, rfl⟩
      simp
    | cons e rest =>
      obtain ⟨n, p⟩ := e
      rw [traverseLoop_zero] at h
      exact absurd h (by simp)
  | succ fuel ih =>
    intro g stack paths g' paths' h hstk x y
    cases stack with
    | nil =>
      rw [traverseLoop_nil] at h
      obtain ⟨rfl, rfl⟩ : g = g' ∧ paths = paths' := by
        cases h
        exact ⟨rfl, rfl⟩
      simp
    | cons e rest =>
      obtain ⟨n, p⟩ := e
      rw [traverseLoop_succ] at h
      have hsk := skel_addDepsAlong g (p ++ [n]) n
      have hadj : (g.addDepsAlong (p ++ [n]) n).outsOf = g.outsOf :=
        funext (outsOf_congr hsk)
      have hnames2 : (g.addDepsAlong (p ++ [n]) n).names = g.names :=
        addDepsAlong_names g (p ++ [n]) n
      have hpsub : ∀ z ∈ p, z ∈ g.names := hstk (n, p) (List.mem_cons_self _ _)
      -- the dependency contribution of popping this entry
      have hpop : ∀ x y : String,
          y ∈ (g.addDepsAlong (p ++ [n]) n).depsOf x ↔
            y ∈ g.depsOf x ∨ (x ∈ p ∧ x ≠ n ∧ y = n) := by
        intro x y
        rw [depsOf_addDepsAlong]
        constructor
        · rintro (hy | ⟨hx1, hx2, hx3, hx4⟩)
          · exact Or.inl hy
          · rcases List.mem_append.mp hx1 with hx1 | hx1
            · exact Or.inr ⟨hx1, hx2, hx3⟩
            · rcases List.mem_singleton.mp hx1 with rfl
              exact absurd rfl hx2
        · rintro (hy | ⟨hx1, hx2, hx3⟩)
          · exact Or.inl hy
          · exact Or.inr ⟨List.mem_append.mpr (Or.inl hx1), hx2, hx3, hpsub x hx1⟩
      have hrestinv : ∀ e ∈ rest, ∀ z ∈ e.2, z ∈ (g.addDepsAlong (p ++ [n]) n).names := by
        intro e he
        rw [hnames2]
        exact hstk e (List.mem_cons_of_mem _ he)
      by_cases hout : (g.addDepsAlong (p ++ [n]) n).outsOf n = []
      · rw [if_pos hout] at h
        rw [if_neg (by simp)] at h
        have houtg : g.outsOf n = [] := by
          rw [← hadj]
          exact hout
        have := ih _ rest _ _ _ h hrestinv x y
        rw [hadj] at this
        rw [this, hpop]
        constructor
        · rintro ((hy | ⟨hx1, hx2, hx3⟩) | ⟨e, he, n', p', hr, hx, hxn, hy⟩)
          · exact Or.inl hy
          · exact Or.inr ⟨(n, p), List.mem_cons_self _ _, n, p, .refl _, hx1, hx2, hx3⟩
          · exact Or.inr ⟨e, List.mem_cons_of_mem _ he, n', p', hr, hx, hxn, hy⟩
        · rintro (hy | ⟨e, he, n', p', hr, hx, hxn, hy⟩)
          · exact Or.inl (Or.inl hy)
          · rcases List.mem_cons.mp he with rfl | he
            · cases hr with
              | refl => exact Or.inl (Or.inr ⟨hx, hxn, hy⟩)
              | push ht hnp h' =>
                rw [houtg] at ht
                exact absurd ht (List.not_mem_nil _)
            · exact Or.inr ⟨e, he, n', p', hr, hx, hxn, hy⟩
      · rw [if_neg hout] at h
        cases hpt : pushTargets (p ++ [n]) ((g.addDepsAlong (p ++ [n]) n).outsOf n) with
        | none =>
          rw [hpt] at h
          exact absurd h (by simp)
        | some entries =>
          rw [hpt] at h
          obtain ⟨hent, hnm⟩ := pushTargets_some hpt
          rw [hadj] at hent hnm
          have houtg : g.outsOf n ≠ [] := by
            rw [← hadj]
            exact hout
          have hn_mem : n ∈ g.names := by
            rw [← hnames2]
            exact outsOf_ne_nil_mem hout
          have hstk2 : ∀ e ∈ entries.reverse ++ rest, ∀ z ∈ e.2,
              z ∈ (g.addDepsAlong (p ++ [n]) n).names := by
            intro e he
            rcases List.mem_append.mp he with he | he
            · rw [List.mem_reverse] at he
              rw [hent] at he
              obtain ⟨t, _, rfl⟩ := List.mem_map.mp he
              intro z hz
              rw [hnames2]
              rcases List.mem_append.mp hz with hz | hz
              · exact hpsub z hz
              · rcases List.mem_singleton.mp hz with rfl
                exact hn_mem
            · exact hrestinv e he
          have := ih _ _ _ _ _ h hstk2 x y
          rw [hadj] at this
          rw [this, hpop]
          constructor
          · rintro ((hy | ⟨hx1, hx2, hx3⟩) | ⟨e, he, n', p', hr, hx, hxn, hy⟩)
            · exact Or.inl hy
            · exact Or.inr ⟨(n, p), List.mem_cons_self _ _, n, p, .refl _, hx1, hx2, hx3⟩
            · rcases List.mem_append.mp he with he | he
              · rw [List.mem_reverse] at he
                rw [hent] at he
                obtain ⟨t, ht, rfl⟩ := List.mem_map.mp he
                refine Or.inr ⟨(n, p), List.mem_cons_self _ _, n', p', ?_, hx, hxn, hy⟩
                exact EntryReach.trans (.push ht (hnm t ht) (.refl _)) hr
              · exact Or.inr ⟨e, List.mem_cons_of_mem _ he, n', p', hr, hx, hxn, hy⟩
          · rintro (hy | ⟨e, he, n', p', hr, hx, hxn, hy⟩)
            · exact Or.inl (Or.inl hy)
            · rcases List.mem_cons.mp he with rfl | he
              · cases hr with
                | refl => exact Or.inl (Or.inr ⟨hx, hxn, hy⟩)
                | push ht hnp h' =>
                  rename_i t
                  refine Or.inr ⟨(t, p ++ [n]), List.mem_append.mpr (Or.inl ?_),
                    n', p', h', hx, hxn, hy⟩
                  rw [List.mem_reverse, hent]
                  exact List.mem_map.mpr ⟨t, ht, rfl⟩
              · exact Or.inr ⟨e, List.mem_append.mpr (Or.inr he), n', p', hr, hx, hxn, hy⟩

/-- A successful run never saw a target already on a visited path: no entry
of any search tree has a successor pointing back into its own path. -/
theorem traverseLoop_safe : ∀ (fuel : Nat) (g : DirectedGraph)
    (stack : List (String × List String)) (paths : List (List String))
    (g' : DirectedGraph) (paths' : List (List String)),
    traverseLoop g fuel stack paths = .ok g' paths' →
    ∀ e ∈ stack, ∀ n' p', EntryReach g.outsOf e (n', p') →
      ∀ t ∈ g.outsOf n', t ∉ p' ++ [n'] := by
  intro fuel
  induction fuel with
  | zero =>
    intro g stack paths g' paths' h e he
    cases stack with
    | nil => exact absurd he (List.not_mem_nil e)
    | cons e0 rest =>
      obtain ⟨n, p⟩ := e0
      rw [traverseLoop_zero] at h
      exact absurd h (by simp)
  | succ fuel ih =>
    intro g stack paths g' paths' h e he n' p' hr t ht htmem
    cases stack with
    | nil => exact absurd he (List.not_mem_nil e)
    | cons e0 rest =>
      obtain ⟨n, p⟩ := e0
      rw [traverseLoop_succ] at h
      have hsk := skel_addDepsAlong g (p ++ [n]) n
      have hadj : (g.addDepsAlong (p ++ [n]) n).outsOf = g.outsOf :=
        funext (outsOf_congr hsk)
      by_cases hout : (g.addDepsAlong (p ++ [n]) n).outsOf n = []
      · rw [if_pos hout] at h
        rw [if_neg (by simp)] at h
        have houtg : g.outsOf n = [] := by
          rw [← hadj]
          exact hout
        rcases List.mem_cons.mp he with rfl | he
        · cases hr with
          | refl =>
            rw [houtg] at ht
            exact absurd ht (List.not_mem_nil _)
          | push ht0 hnp h' =>
            rw [houtg] at ht0
            exact absurd ht0 (List.not_mem_nil _)
        · refine ih _ rest _ _ _ h e he n' p' ?_ t ?_ htmem
          · rw [hadj]
            exact hr
          · rw [hadj]
            exact ht
      · rw [if_neg hout] at h
        cases hpt : pushTargets (p ++ [n]) ((g.addDepsAlong (p ++ [n]) n).outsOf n) with
        | none =>
          rw [hpt] at h
          exact absurd h (by simp)
        | some entries =>
          rw [hpt] at h
          obtain ⟨hent, hnm⟩ := pushTargets_some hpt
          rw [hadj] at hent hnm
          rcases List.mem_cons.mp he with rfl | he
          · cases hr with
            | refl => exact hnm t ht htmem
            | push ht0 hnp h' =>
              rename_i t0
              refine ih _ _ _ _ _ h (t0, p ++ [n]) (List.mem_append.mpr (Or.inl ?_))
                n' p' ?_ t ?_ htmem
              · rw [List.mem_reverse, hent]
                exact List.mem_map.mpr ⟨t0, ht0, rfl⟩
              · rw [hadj]
                exact h'
              · rw [hadj]
                exact ht
          · refine ih _ _ _ _ _ h e (List.mem_append.mpr (Or.inr he)) n' p' ?_ t ?_ htmem
            · rw [hadj]
              exact hr
            · rw [hadj]
              exact ht

end DepGraph

namespace DepGraph

/-! ## Lifting to `traverseRoots` -/

theorem traverseRoots_state : ∀ (roots : List String) (g : DirectedGraph)
    (paths : List (List String)) (g' : DirectedGraph),
    (traverseRoots g roots paths).stateOf = some g' →
    skel g' = skel g ∧ g'.paths = g.paths ∧ g'.cache_dirty = g.cache_dirty := by
  intro roots
  induction roots with
  | nil =>
    intro g paths g' h
    have h' : some g = some g' := h
    obtain rfl := Option.some_inj.mp h'
    exact ⟨rfl, rfl, rfl⟩
  | cons r rest ih =>
    intro g paths g' h
    unfold traverseRoots at h
    cases hres : traverseLoop g g.traversalFuel [(r, [])] paths with
    | ok g1 paths1 =>
      rw [hres] at h
      obtain ⟨h1, h2, h3⟩ := ih g1 paths1 g' h
      obtain ⟨h4, h5, h6⟩ := traverseLoop_state _ _ _ _ g1 (by rw [hres]; rfl)
      exact ⟨h1.trans h4, h2.trans h5, h3.trans h6⟩
    | cycleHit g1 =>
      rw [hres] at h
      have h' : some g1 = some g' := h
      obtain rfl := Option.some_inj.mp h'
      exact traverseLoop_state _ _ _ _ g1 (by rw [hres]; rfl)
    | outOfFuel =>
      rw [hres] at h
      exact absurd h (by simp [LoopResult.stateOf])

theorem traverseRoots_paths : ∀ (roots : List String) (g : DirectedGraph)
    (paths : List (List String)) (g' : DirectedGraph) (paths' : List (List String)),
    traverseRoots g roots paths = .ok g' paths' →
    ∀ q, q ∈ paths' ↔ q ∈ paths ∨ ∃ r ∈ roots, ∃ n' p',
      EntryReach g.outsOf (r, []) (n', p') ∧ g.outsOf n' = [] ∧ q = p' ++ [n'] := by
  intro roots
  induction roots with
  | nil =>
    intro g paths g' paths' h q
    unfold traverseRoots at h
    obtain ⟨rfl, rfl⟩ : g = g' ∧ paths = paths' := by
      cases h
      exact ⟨rfl, rfl⟩
    simp
  | cons r rest ih =>
    intro g paths g' paths' h q
    unfold traverseRoots at h
    cases hres : traverseLoop g g.traversalFuel [(r, [])] paths with
    | ok g1 paths1 =>
      rw [hres] at h
      have hadj : g1.outsOf = g.outsOf :=
        funext (outsOf_congr (traverseLoop_state _ _ _ _ g1 (by rw [hres]; rfl)).1)
      have hloop := traverseLoop_paths _ _ _ _ _ _ hres
      have hrest := ih g1 paths1 g' paths' h q
      rw [hadj] at hrest
      rw [hrest]
      constructor
      · rintro (hq | ⟨r', hr', n', p', hreach, hterm, hq⟩)
        · rw [hloop q] at hq
          rcases hq with hq | ⟨e, he, n', p', hreach, hterm, hq⟩
          · exact Or.inl hq
          · rcases List.mem_singleton.mp he with rfl
            exact Or.inr ⟨r, List.mem_cons_self _ _, n', p', hreach, hterm, hq⟩
        · exact Or.inr ⟨r', List.mem_cons_of_mem _ hr', n', p', hreach, hterm, hq⟩
      · rintro (hq | ⟨r', hr', n', p', hreach, hterm, hq⟩)
        · exact Or.inl ((hloop q).mpr (Or.inl hq))
        · rcases List.mem_cons.mp hr' with rfl | hr'
          · exact Or.inl ((hloop q).mpr (Or.inr
              ⟨(r', []), List.mem_singleton.mpr rfl, n', p', hreach, hterm, hq⟩))
          · exact Or.inr ⟨r', hr', n', p', hreach, hterm, hq⟩
    | cycleHit g1 =>
      rw [hres] at h
      exact absurd h (by simp)
    | outOfFuel =>
      rw [hres] at h
      exact absurd h (by simp)

theorem traverseRoots_deps : ∀ (roots : List String) (g : DirectedGraph)
    (paths : List (List String)) (g' : DirectedGraph) (paths' : List (List String)),
    traverseRoots g roots paths = .ok g' paths' →
    ∀ x y, y ∈ g'.depsOf x ↔ y ∈ g.depsOf x ∨ ∃ r ∈ roots, ∃ n' p',
      EntryReach g.outsOf (r, []) (n', p') ∧ x ∈ p' ∧ x ≠ n' ∧ y = n' := by
  intro roots
  induction roots with
  | nil =>
    intro g paths g' paths' h x y
    unfold traverseRoots at h
    obtain ⟨rfl, rfl⟩ : g = g' ∧ paths = paths' := by
      cases h
      exact ⟨rfl, rfl⟩
    simp
  | cons r rest ih =>
    intro g paths g' paths' h x y
    unfold traverseRoots at h
    cases hres : traverseLoop g g.traversalFuel [(r, [])] paths with
    | ok g1 paths1 =>
      rw [hres] at h
      have hadj : g1.outsOf = g.outsOf :=
        funext (outsOf_congr (traverseLoop_state _ _ _ _ g1 (by rw [hres]; rfl)).1)
      have hloop := traverseLoop_deps _ _ _ _ _ _ hres (by
        intro e he z hz
        rcases List.mem_singleton.mp he with rfl
        exact absurd hz (List.not_mem_nil z))
      have hrest := ih g1 paths1 g' paths' h x y
      rw [hadj] at hrest
      rw [hrest]
      constructor
      · rintro (hy | ⟨r', hr', n', p', hreach, hx, hxn, hy⟩)
        · rw [hloop x y] at hy
          rcases hy with hy | ⟨e, he, n', p', hreach, hx, hxn, hy⟩
          · exact Or.inl hy
          · rcases List.mem_singleton.mp he with rfl
            exact Or.inr ⟨r, List.mem_cons_self _ _, n', p', hreach, hx, hxn, hy⟩
        · exact Or.inr ⟨r', List.mem_cons_of_mem _ hr', n', p', hreach, hx, hxn, hy⟩
      · rintro (hy | ⟨r', hr', n', p', hreach, hx, hxn, hy⟩)
        · exact Or.inl ((hloop x y).mpr (Or.inl hy))
        · rcases List.mem_cons.mp hr' with rfl | hr'
          · exact Or.inl ((hloop x y).mpr (Or.inr
              ⟨(r', []), List.mem_singleton.mpr rfl, n', p', hreach, hx, hxn, hy⟩))
          · exact Or.inr ⟨r', hr', n', p', hreach, hx, hxn, hy⟩
    | cycleHit g1 =>
      rw [hres] at h
      exact absurd h (by simp)
    | outOfFuel =>
      rw [hres] at h
      exact absurd h (by simp)

theorem traverseRoots_safe : ∀ (roots : List String) (g : DirectedGraph)
    (paths : List (List String)) (g' : DirectedGraph) (paths' : List (List String)),
    traverseRoots g roots paths = .ok g' paths' →
    ∀ r ∈ roots, ∀ n' p', EntryReach g.outsOf (r, []) (n', p') →
      ∀ t ∈ g.outsOf n', t ∉ p' ++ [n'] := by
  intro roots
  induction roots with
  | nil =>
    intro g paths g' paths' h r hr
    exact absurd hr (List.not_mem_nil r)
  | cons r0 rest ih =>
    intro g paths g' paths' h r hr n' p' hreach t ht htmem
    unfold traverseRoots at h
    cases hres : traverseLoop g g.traversalFuel [(r0, [])] paths with
    | ok g1 paths1 =>
      rw [hres] at h
      have hadj : g1.outsOf = g.outsOf :=
        funext (outsOf_congr (traverseLoop_state _ _ _ _ g1 (by rw [hres]; rfl)).1)
      rcases List.mem_cons.mp hr with rfl | hr
      · exact traverseLoop_safe _ _ _ _ _ _ hres (r, []) (List.mem_singleton.mpr rfl)
          n' p' hreach t ht htmem
      · refine ih g1 paths1 g' paths' h r hr n' p' ?_ t ?_ htmem
        · rw [hadj]
          exact hreach
        · rw [hadj]
          exact ht
    | cycleHit g1 =>
      rw [hres] at h
      exact absurd h (by simp)
    | outOfFuel =>
      rw [hres] at h
      exact absurd h (by simp)

/-- On an acyclic graph, `traverseRoots` always completes normally. -/
theorem traverseRoots_success : ∀ (roots : List String) (g : DirectedGraph)
    (paths : List (List String)),
    (∀ x, ¬ Relation.TransGen (edgeRel g) x x) →
    ∃ g' paths', traverseRoots g roots paths = .ok g' paths' := by
  intro roots
  induction roots with
  | nil =>
    intro g paths _
    exact ⟨g, paths, rfl⟩
  | cons r rest ih =>
    intro g paths hacyc
    unfold traverseRoots
    cases hres : traverseLoop g g.traversalFuel [(r, [])] paths with
    | ok g1 paths1 =>
      have hrel : edgeRel g1 = edgeRel g := by
        funext u v
        unfold edgeRel
        rw [outsOf_congr (traverseLoop_state _ _ _ _ g1 (by rw [hres]; rfl)).1]
      refine ih g1 paths1 ?_
      rw [hrel]
      exact hacyc
    | cycleHit g1 =>
      exfalso
      refine traverseLoop_no_cycle g.traversalFuel g [(r, [])] paths ?_ hacyc g1 hres
      intro e he
      rcases List.mem_singleton.mp he with rfl
      exact List.chain'_singleton r
    | outOfFuel =>
      exfalso
      refine traverseLoop_no_fuel g.traversalFuel g [(r, [])] paths ?_ ?_ hres
      · intro e he
        rcases List.mem_singleton.mp he with rfl
        exact ⟨List.nodup_singleton r, fun z hz => absurd hz (List.not_mem_nil z)⟩
      · unfold stackMeasure entryMeasure
        rw [List.map_cons, List.map_nil, List.sum_cons, List.sum_nil]
        simp only [List.length_nil, Nat.sub_zero, Nat.add_zero]
        have h2 : (g.maxOut + 1) ^ g.names.length ≤ (g.maxOut + 1) ^ (g.names.length + 1) :=
          Nat.pow_le_pow_right (by omega) (by omega)
        unfold DirectedGraph.traversalFuel
        have hnn : g.names.length = g.nodes.length := by
          unfold DirectedGraph.names
          rw [List.length_map]
        rw [← hnn]
        exact h2

end DepGraph

namespace DepGraph

/-! ## Structure of `find_paths` results -/

theorem find_paths_eq (g : DirectedGraph) : g.find_paths = find_paths_rec (999 + 1) g := rfl

theorem find_paths_rec_succ (depth : Nat) (g : DirectedGraph) :
    find_paths_rec (depth + 1) g =
      if g.cache_dirty = false then .ok (g, g.paths)
      else
        match g.collectRoots with
        | .error err => .error err
        | .ok root_nodes =>
          match traverseRoots g root_nodes [] with
          | .ok g' paths => .ok ({ g' with paths := paths }, paths)
          | .cycleHit g' =>
            match dump_rec depth g' with
            | .ok _ => .error .cycleDetected
            | .error err => .error err
          | .outOfFuel => .error .fuelExhausted := by
  conv_lhs => unfold find_paths_rec

theorem dump_rec_eq (depth : Nat) (g : DirectedGraph) :
    dump_rec depth g =
      match find_paths_rec depth g with
      | .ok (g', _) => .ok g'
      | .error err => .error err := by
  conv_lhs => unfold dump_rec

/-- Decomposition of a successful `find_paths` on a well-formed graph with a
dirty memo: the traversal ran from the roots and completed normally. -/
theorem find_paths_ok_inv {g gf : DirectedGraph} {ps : List (List String)}
    (hwf : WF g) (hdirty : g.cache_dirty = true)
    (h : g.find_paths = .ok (gf, ps)) :
    ∃ gt, traverseRoots g (rootsSimple g) [] = .ok gt ps ∧ gf = { gt with paths := ps } := by
  rw [find_paths_eq, find_paths_rec_succ] at h
  rw [if_neg (by rw [hdirty]; exact fun hc => Bool.noConfusion hc)] at h
  rw [collectRoots_ok hwf] at h
  have h' : (match traverseRoots g (rootsSimple g) [] with
      | LoopResult.ok g' paths => (Except.ok ({ g' with paths := paths }, paths) :
          Except GraphFailure (DirectedGraph × List (List String)))
      | LoopResult.cycleHit g' =>
        match dump_rec 999 g' with
        | .ok _ => .error .cycleDetected
        | .error err => .error err
      | LoopResult.outOfFuel => .error .fuelExhausted) = .ok (gf, ps) := h
  clear h
  cases hres : traverseRoots g (rootsSimple g) [] with
  | ok gt pt =>
    rw [hres] at h'
    have h2 : ({ gt with paths := pt } : DirectedGraph) = gf ∧ pt = ps := by
      have := h'
      injection this with h1
      injection h1 with h2 h3
      exact ⟨h2, h3⟩
    obtain ⟨h1, rfl⟩ := h2
    exact ⟨gt, rfl, h1.symm⟩
  | cycleHit gt =>
    rw [hres] at h'
    have h2 : (match dump_rec 999 gt with
        | Except.ok _ => (Except.error GraphFailure.cycleDetected :
            Except GraphFailure (DirectedGraph × List (List String)))
        | Except.error err => Except.error err) = .ok (gf, ps) := h'
    exfalso
    cases hdump : dump_rec 999 gt with
    | ok gd =>
      rw [hdump] at h2
      exact Except.noConfusion h2
    | error e =>
      rw [hdump] at h2
      exact Except.noConfusion h2
  | outOfFuel =>
    rw [hres] at h'
    exact Except.noConfusion h'

/-- On a well-formed, acyclic graph with a dirty memo, `find_paths`
succeeds, returning the traversal's result. -/
theorem find_paths_success {g : DirectedGraph} (hwf : WF g) (hdirty : g.cache_dirty = true)
    (hacyc : Acyclic g) :
    ∃ gt ps, traverseRoots g (rootsSimple g) [] = .ok gt ps ∧
      g.find_paths = .ok ({ gt with paths := ps }, ps) := by
  obtain ⟨gt, ps, hres⟩ := traverseRoots_success (rootsSimple g) g [] hacyc
  refine ⟨gt, ps, hres, ?_⟩
  rw [find_paths_eq, find_paths_rec_succ]
  rw [if_neg (by rw [hdirty]; exact fun hc => Bool.noConfusion hc)]
  rw [collectRoots_ok hwf]
  show (match traverseRoots g (rootsSimple g) [] with
      | LoopResult.ok g' paths => (Except.ok ({ g' with paths := paths }, paths) :
          Except GraphFailure (DirectedGraph × List (List String)))
      | LoopResult.cycleHit g' =>
        match dump_rec 999 g' with
        | .ok _ => .error .cycleDetected
        | .error err => .error err
      | LoopResult.outOfFuel => .error .fuelExhausted) = _
  rw [hres]

end DepGraph

namespace DepGraph

/-! ## Bridging search-tree entries and chains of the graph -/

theorem head?_concat_concat (p : List String) (n t : String) :
    ((p ++ [n]) ++ [t]).head? = (p ++ [n]).head? := by
  cases p <;> rfl

theorem EntryReach.headInv {adj : String → List String}
    {e e' : String × List String} (h : EntryReach adj e e') :
    (e'.2 ++ [e'.1]).head? = (e.2 ++ [e.1]).head? := by
  induction h with
  | refl e => rfl
  | push ht hnp _ ih =>
    rw [ih]
    exact head?_concat_concat _ _ _

/-- Every duplicate-free chain starting at `r` is realized by an entry of the
search tree rooted at `r`. -/
theorem entryReach_of_chain {g : DirectedGraph} :
    ∀ (p : List String) (n r : String),
    List.Chain' (edgeRel g) (p ++ [n]) → (p ++ [n]).Nodup →
    (p ++ [n]).head? = some r →
    EntryReach g.outsOf (r, []) (n, p) := by
  intro p
  induction p using List.reverseRecOn with
  | nil =>
    intro n r _ _ hh
    have hnr : n = r := by simpa using hh
    subst hnr
    exact .refl _
  | append_singleton p m ih =>
    intro n r hc hnd hh
    have hc1 : List.Chain' (edgeRel g) (p ++ [m]) := List.Chain'.left_of_append hc
    have hnd1 : (p ++ [m]).Nodup := (List.nodup_append.mp hnd).1
    have hh1 : (p ++ [m]).head? = some r := by
      rw [List.head?_append] at hh
      cases hhead : (p ++ [m]).head? with
      | none => exact absurd hhead (by simp)
      | some a =>
        rw [hhead] at hh
        simpa using hh
    have hbase := ih m r hc1 hnd1 hh1
    obtain ⟨_, _, hlast⟩ := List.chain'_append.mp hc
    have hedge : n ∈ g.outsOf m :=
      hlast m (Option.mem_def.mpr (List.getLast?_concat p)) n (Option.mem_def.mpr rfl)
    have hnotmem : n ∉ p ++ [m] := by
      obtain ⟨_, _, hdisj⟩ := List.nodup_append.mp hnd
      intro hmem
      exact hdisj hmem (List.mem_singleton.mpr rfl)
    exact hbase.push_back hedge hnotmem

/-! ## First repetition of a walk -/

/-- Scan a walk keeping the duplicate-free portion seen so far; stop at the
first element repeating an earlier one. -/
def findRep (seen : List String) : List String → Option (List String × String)
  | [] => none
  | x :: rest => if x ∈ seen then some (seen, x) else findRep (seen ++ [x]) rest

theorem findRep_none : ∀ (l seen : List String), findRep seen l = none →
    seen.Nodup → (seen ++ l).Nodup := by
  intro l
  induction l with
  | nil =>
    intro seen _ hs
    simpa using hs
  | cons y rest ih =>
    intro seen h hs
    unfold findRep at h
    by_cases hy : y ∈ seen
    · rw [if_pos hy] at h
      exact absurd h (by simp)
    · rw [if_neg hy] at h
      have := ih (seen ++ [y]) h (by
        rw [List.nodup_append]
        exact ⟨hs, List.nodup_singleton y, by
          intro z hz hz'
          rcases List.mem_singleton.mp hz' with rfl
          exact hy hz⟩)
      rw [List.append_assoc] at this
      simpa using this

theorem findRep_some : ∀ (l seen a : List String) (x : String),
    findRep seen l = some (a, x) → seen.Nodup →
    (∃ b, seen ++ l = a ++ x :: b) ∧ a.Nodup ∧ x ∈ a := by
  intro l
  induction l with
  | nil =>
    intro seen a x h _
    exact absurd h (by simp [findRep])
  | cons y rest ih =>
    intro seen a x h hs
    unfold findRep at h
    by_cases hy : y ∈ seen
    · rw [if_pos hy] at h
      have h1 : seen = a ∧ y = x := by
        have := h
        injection this with h2
        injection h2 with h3 h4
        exact ⟨h3, h4⟩
      obtain ⟨rfl, rfl⟩ := h1
      exact ⟨⟨rest, rfl⟩, hs, hy⟩
    · rw [if_neg hy] at h
      have hns : (seen ++ [y]).Nodup := by
        rw [List.nodup_append]
        exact ⟨hs, List.nodup_singleton y, by
          intro z hz hz'
          rcases List.mem_singleton.mp hz' with rfl
          exact hy hz⟩
      obtain ⟨⟨b, hb⟩, hnd, hx⟩ := ih (seen ++ [y]) a x h hns
      refine ⟨⟨b, ?_⟩, hnd, hx⟩
      rw [List.append_cons seen y rest, hb]

theorem not_nodup_decomp {c : List String} (h : ¬ c.Nodup) :
    ∃ a x b, c = a ++ x :: b ∧ a.Nodup ∧ x ∈ a := by
  cases hfr : findRep [] c with
  | none =>
    exfalso
    have := findRep_none c [] hfr List.nodup_nil
    rw [List.nil_append] at this
    exact h this
  | some ax =>
    obtain ⟨a, x⟩ := ax
    obtain ⟨⟨b, hb⟩, hnd, hx⟩ := findRep_some c [] a x hfr List.nodup_nil
    rw [List.nil_append] at hb
    exact ⟨a, x, b, hb, hnd, hx⟩

/-! ## Consequences of a successful traversal -/

/-- After a successful traversal, every chain beginning at a root is
duplicate-free: a first repetition would have been a pushed target already on
the current path, which `traverseLoop_safe` excludes. -/
theorem success_chain_nodup {g gt : DirectedGraph} {ps : List (List String)}
    (hres : traverseRoots g (rootsSimple g) [] = .ok gt ps) :
    ∀ r ∈ rootsSimple g, ∀ c, List.Chain' (edgeRel g) c → c.head? = some r → c.Nodup := by
  intro r hr c hc hh
  by_contra hnd
  obtain ⟨a, x, b, rfl, hand, hxa⟩ := not_nodup_decomp hnd
  have hane : a ≠ [] := by
    intro h0
    rw [h0] at hxa
    exact absurd hxa (List.not_mem_nil x)
  have hcx : List.Chain' (edgeRel g) (a ++ [x]) := by
    rw [List.append_cons] at hc
    exact List.Chain'.left_of_append hc
  have hha : a.head? = some r := by
    rw [List.head?_append] at hh
    cases hhead : a.head? with
    | none =>
      rw [List.head?_eq_none_iff] at hhead
      exact absurd hhead hane
    | some z =>
      rw [hhead] at hh
      simpa using hh
  obtain ⟨p, n, rfl⟩ : ∃ p n, a = p ++ [n] :=
    ⟨a.dropLast, a.getLast hane, (List.dropLast_concat_getLast hane).symm⟩
  obtain ⟨-, -, hlast⟩ := List.chain'_append.mp hcx
  have hedge : x ∈ g.outsOf n :=
    hlast n (Option.mem_def.mpr (List.getLast?_concat p)) x (Option.mem_def.mpr rfl)
  have hreach : EntryReach g.outsOf (r, []) (n, p) :=
    entryReach_of_chain p n r (List.Chain'.left_of_append hcx) hand hha
  exact traverseRoots_safe _ _ _ _ _ hres r hr n p hreach x hedge hxa

/-- After a successful traversal, no node reachable from a root lies on a
directed cycle. -/
theorem success_no_root_cycle {g gt : DirectedGraph} {ps : List (List String)}
    (hres : traverseRoots g (rootsSimple g) [] = .ok gt ps) :
    ∀ r ∈ rootsSimple g, ∀ v, Reaches g r v → ¬ ReachesPlus g v v := by
  intro r hr v hrv hvv
  obtain ⟨l₁, hc₁, hl₁⟩ := List.exists_chain_of_relationReflTransGen hrv
  obtain ⟨w, hvw, hwv⟩ := Relation.TransGen.head'_iff.mp hvv
  obtain ⟨l₂, hc₂, hl₂⟩ := List.exists_chain_of_relationReflTransGen hwv
  have hcc : List.Chain' (edgeRel g) ((r :: l₁) ++ (w :: l₂)) := by
    refine List.Chain'.append hc₁ hc₂ ?_
    intro u hu y hy
    have hu' : u = v := by
      rw [List.getLast?_eq_getLast _ (by simp)] at hu
      rw [← hl₁]
      exact (Option.some_inj.mp (Option.mem_def.mp hu)).symm
    have hy' : y = w := (Option.some_inj.mp (Option.mem_def.mp hy)).symm
    rw [hu', hy']
    exact hvw
  have hnodup := success_chain_nodup hres r hr _ hcc rfl
  rw [List.nodup_append] at hnodup
  obtain ⟨-, -, hdisj⟩ := hnodup
  have hv1 : v ∈ r :: l₁ := by
    rw [← hl₁]
    exact List.getLast_mem _
  have hv2 : v ∈ w :: l₂ := by
    rw [← hl₂]
    exact List.getLast_mem _
  exact hdisj hv1 hv2

end DepGraph

namespace DepGraph

/-! ## Exactness of the dependency sets and the recorded paths -/

theorem depsOf_sound {g : DirectedGraph} (hsound : DepsSound g) {n m : String}
    (h : m ∈ g.depsOf n) : ReachesPlus g n m := by
  unfold DirectedGraph.depsOf at h
  cases hf : g.findNode n with
  | none =>
    rw [hf] at h
    exact absurd h (List.not_mem_nil m)
  | some nd =>
    rw [hf] at h
    obtain ⟨hname, hmem⟩ := findNode_some hf
    have := hsound nd hmem m h
    rw [hname] at this
    exact this

/-- Core of claim C3: after a successful `find_paths`, the dependency set of
every root-reachable node is exactly its forward transitive closure. -/
theorem find_paths_deps_exact {g gf : DirectedGraph} {ps : List (List String)}
    (hwf : WF g) (hdirty : g.cache_dirty = true) (hsound : DepsSound g)
    (h : g.find_paths = .ok (gf, ps)) {n : String} (hroot : RootReachable g n) :
    ∀ m, m ∈ gf.depsOf n ↔ ReachesPlus g n m := by
  obtain ⟨gt, hres, rfl⟩ := find_paths_ok_inv hwf hdirty h
  have hchar := traverseRoots_deps _ _ _ _ _ hres
  intro m
  show m ∈ gt.depsOf n ↔ _
  rw [hchar n m]
  constructor
  · rintro (hm | ⟨r, hr, n', p', hreach, hx, hxn, rfl⟩)
    · exact depsOf_sound hsound hm
    · have hchain := hreach.chainInv (List.chain'_singleton r)
      exact chain_mem_transGen p' n _ hx hchain
  · intro hm
    obtain ⟨r, hroot_r, hrn⟩ := hroot
    have hroot_r' : r ∈ rootsSimple g := hroot_r
    have hnm : n ≠ m := by
      rintro rfl
      exact success_no_root_cycle hres r hroot_r' n hrn hm
    obtain ⟨l₁, hc₁, hl₁⟩ := List.exists_chain_of_relationReflTransGen hrn
    obtain ⟨w, hnw, hwm⟩ := Relation.TransGen.head'_iff.mp hm
    obtain ⟨l₂, hc₂, hl₂⟩ := List.exists_chain_of_relationReflTransGen hwm
    have hcc : List.Chain' (edgeRel g) ((r :: l₁) ++ (w :: l₂)) := by
      refine List.Chain'.append hc₁ hc₂ ?_
      intro u hu y hy
      have hu' : u = n := by
        rw [List.getLast?_eq_getLast _ (by simp)] at hu
        rw [← hl₁]
        exact (Option.some_inj.mp (Option.mem_def.mp hu)).symm
      have hy' : y = w := (Option.some_inj.mp (Option.mem_def.mp hy)).symm
      rw [hu', hy']
      exact hnw
    have hnodup := success_chain_nodup hres r hroot_r' _ hcc rfl
    have hcne : (r :: l₁) ++ (w :: l₂) ≠ [] := by simp
    have hlastc : ((r :: l₁) ++ (w :: l₂)).getLast hcne = m := by
      rw [List.getLast_append' (r :: l₁) (w :: l₂) (by simp)]
      rw [← hl₂]
    have hdecomp := List.dropLast_concat_getLast hcne
    rw [hlastc] at hdecomp
    have hchain2 : List.Chain' (edgeRel g) (((r :: l₁) ++ (w :: l₂)).dropLast ++ [m]) := by
      rw [hdecomp]
      exact hcc
    have hnodup2 : (((r :: l₁) ++ (w :: l₂)).dropLast ++ [m]).Nodup := by
      rw [hdecomp]
      exact hnodup
    have hhead2 : (((r :: l₁) ++ (w :: l₂)).dropLast ++ [m]).head? = some r := by
      rw [hdecomp]
      rfl
    have hreach := entryReach_of_chain _ m r hchain2 hnodup2 hhead2
    have hn_mem_c : n ∈ (r :: l₁) ++ (w :: l₂) := by
      refine List.mem_append.mpr (Or.inl ?_)
      rw [← hl₁]
      exact List.getLast_mem _
    have hn_dl : n ∈ ((r :: l₁) ++ (w :: l₂)).dropLast := by
      rw [← hdecomp] at hn_mem_c
      rcases List.mem_append.mp hn_mem_c with h1 | h1
      · exact h1
      · rcases List.mem_singleton.mp h1 with rfl
        exact absurd rfl hnm
    exact Or.inr ⟨r, hroot_r', m, _, hreach, hn_dl, hnm, rfl⟩

/-- A maximal path (§4.3 / glossary): a nonempty sequence following outgoing
edges, starting at a root and ending at a node with no outgoing edges. -/
def IsMaxPath (g : DirectedGraph) (q : List String) : Prop :=
  q ≠ [] ∧ List.Chain' (edgeRel g) q ∧
    (∃ r, q.head? = some r ∧ IsRoot g r) ∧
    (∀ z, q.getLast? = some z → g.outsOf z = [])

/-- Core of claim C4, first half: the recorded paths are exactly the maximal
paths of the graph. -/
theorem find_paths_paths_exact {g gf : DirectedGraph} {ps : List (List String)}
    (hwf : WF g) (hdirty : g.cache_dirty = true)
    (h : g.find_paths = .ok (gf, ps)) :
    ∀ q, q ∈ ps ↔ IsMaxPath g q := by
  obtain ⟨gt, hres, rfl⟩ := find_paths_ok_inv hwf hdirty h
  have hchar := traverseRoots_paths _ _ _ _ _ hres
  intro q
  rw [hchar q]
  constructor
  · rintro (hq | ⟨r, hr, n', p', hreach, hterm, rfl⟩)
    · exact absurd hq (List.not_mem_nil q)
    · refine ⟨by simp, hreach.chainInv (List.chain'_singleton r), ⟨r, ?_, hr⟩, ?_⟩
      · rw [hreach.headInv]
        rfl
      · intro z hz
        rw [List.getLast?_concat] at hz
        obtain rfl := Option.some_inj.mp hz
        exact hterm
  · rintro ⟨hne, hchain, ⟨r, hhead, hr⟩, hterm⟩
    have hnodup := success_chain_nodup hres r hr q hchain hhead
    have hdecomp := List.dropLast_concat_getLast hne
    refine Or.inr ⟨r, hr, q.getLast hne, q.dropLast, ?_, ?_, hdecomp.symm⟩
    · refine entryReach_of_chain _ _ r ?_ ?_ ?_
      · rw [hdecomp]
        exact hchain
      · rw [hdecomp]
        exact hnodup
      · rw [hdecomp]
        exact hhead
    · exact hterm _ (List.getLast?_eq_getLast q hne)

/-- Every root's search tree contains a terminal entry (greedy extension of a
duplicate-free path terminates). -/
theorem exists_terminal_descendant {g gt : DirectedGraph} {ps : List (List String)}
    (hres : traverseRoots g (rootsSimple g) [] = .ok gt ps)
    (r : String) (hr : r ∈ rootsSimple g) :
    ∃ n' p', EntryReach g.outsOf (r, []) (n', p') ∧ g.outsOf n' = [] := by
  have main : ∀ (k : Nat) (n : String) (p : List String),
      EntryReach g.outsOf (r, []) (n, p) →
      g.names.length - p.length ≤ k →
      ∃ n' p', EntryReach g.outsOf (r, []) (n', p') ∧ g.outsOf n' = [] := by
    intro k
    induction k with
    | zero =>
      intro n p hreach hk
      by_cases hout : g.outsOf n = []
      · exact ⟨n, p, hreach, hout⟩
      · exfalso
        have hnodup : (p ++ [n]).Nodup := hreach.nodupInv (List.nodup_singleton r)
        have hsub : ∀ z ∈ p ++ [n], z ∈ g.names := by
          intro z hz
          rcases List.mem_append.mp hz with hz | hz
          · exact hreach.namesInv (fun z hz => absurd hz (List.not_mem_nil z)) z hz
          · rcases List.mem_singleton.mp hz with rfl
            exact outsOf_ne_nil_mem hout
        have := nodup_subset_length hnodup hsub
        rw [List.length_append, List.length_singleton] at this
        omega
    | succ k ih =>
      intro n p hreach hk
      by_cases hout : g.outsOf n = []
      · exact ⟨n, p, hreach, hout⟩
      · obtain ⟨t, ht⟩ := List.exists_mem_of_ne_nil _ hout
        have htnot : t ∉ p ++ [n] :=
          traverseRoots_safe _ _ _ _ _ hres r hr n p hreach t ht
        have hreach2 : EntryReach g.outsOf (r, []) (t, p ++ [n]) :=
          hreach.push_back ht htnot
        refine ih t (p ++ [n]) hreach2 ?_
        rw [List.length_append, List.length_singleton]
        omega
  exact main (g.names.length + 1) r [] (.refl _) (by omega)

/-- Core of claim C4, second half: the result is empty exactly when the
graph has no root nodes. -/
theorem find_paths_empty_iff {g gf : DirectedGraph} {ps : List (List String)}
    (hwf : WF g) (hdirty : g.cache_dirty = true)
    (h : g.find_paths = .ok (gf, ps)) :
    ps = [] ↔ rootsSimple g = [] := by
  obtain ⟨gt, hres, rfl⟩ := find_paths_ok_inv hwf hdirty h
  constructor
  · intro hps
    by_contra hroots
    obtain ⟨r, hr⟩ := List.exists_mem_of_ne_nil _ hroots
    obtain ⟨n', p', hreach, hterm⟩ := exists_terminal_descendant hres r hr
    have := (traverseRoots_paths _ _ _ _ _ hres (p' ++ [n'])).mpr
      (Or.inr ⟨r, hr, n', p', hreach, hterm, rfl⟩)
    rw [hps] at this
    exact absurd this (List.not_mem_nil _)
  · intro hroots
    rw [hroots] at hres
    unfold traverseRoots at hres
    obtain ⟨rfl, rfl⟩ : g = gt ∧ ([] : List (List String)) = ps := by
      cases hres
      exact ⟨rfl, rfl⟩
    rfl

end DepGraph

namespace DepGraph

/-! ## In an acyclic graph every node is reachable from a root -/

theorem edgeRel_src_mem {g : DirectedGraph} {u v : String} (h : edgeRel g u v) :
    u ∈ g.names :=
  outsOf_ne_nil_mem (List.ne_nil_of_mem h)

theorem findNode_isSome {g : DirectedGraph} {x : String} (h : x ∈ g.names) :
    ∃ nd, g.findNode x = some nd := by
  cases hf : g.findNode x with
  | none => exact absurd (findNode_none_iff.mp hf) (by simpa using h)
  | some nd => exact ⟨nd, rfl⟩

theorem length_filter_le_of_imp {α : Type} (l : List α) (p q : α → Bool)
    (himp : ∀ x ∈ l, p x = true → q x = true) :
    (l.filter p).length ≤ (l.filter q).length := by
  induction l with
  | nil => exact le_refl _
  | cons a l ih =>
    have ih' := ih (fun x hx h => himp x (List.mem_cons_of_mem _ hx) h)
    by_cases hpa : p a = true
    · rw [List.filter_cons_of_pos hpa,
        List.filter_cons_of_pos (himp a (List.mem_cons_self a l) hpa)]
      simpa using ih'
    · rw [List.filter_cons_of_neg (by simpa using hpa)]
      refine le_trans ih' ?_
      by_cases hqa : q a = true
      · rw [List.filter_cons_of_pos hqa]
        simp
      · rw [List.filter_cons_of_neg (by simpa using hqa)]

theorem length_filter_lt {α : Type} (l : List α) (p q : α → Bool)
    (himp : ∀ x ∈ l, p x = true → q x = true)
    (x₀ : α) (hx₀ : x₀ ∈ l) (hq : q x₀ = true) (hp : p x₀ = false) :
    (l.filter p).length < (l.filter q).length := by
  induction l with
  | nil => exact absurd hx₀ (List.not_mem_nil x₀)
  | cons a l ih =>
    have himp' : ∀ x ∈ l, p x = true → q x = true :=
      fun x hx h => himp x (List.mem_cons_of_mem _ hx) h
    rcases List.mem_cons.mp hx₀ with rfl | hx₀
    · rw [List.filter_cons_of_neg (by simp [hp]), List.filter_cons_of_pos hq]
      rw [List.length_cons]
      have := length_filter_le_of_imp l p q himp'
      omega
    · have hrec := ih himp' hx₀
      by_cases hpa : p a = true
      · rw [List.filter_cons_of_pos hpa,
          List.filter_cons_of_pos (himp a (List.mem_cons_self a l) hpa)]
        simp only [List.length_cons]
        omega
      · rw [List.filter_cons_of_neg (by simpa using hpa)]
        by_cases hqa : q a = true
        · rw [List.filter_cons_of_pos hqa]
          simp only [List.length_cons]
          omega
        · rw [List.filter_cons_of_neg (by simpa using hqa)]
          exact hrec

/-- A non-root stored node has a stored predecessor. -/
theorem exists_pred_of_not_root {g : DirectedGraph} (hwf : WF g) {n : String}
    (hn : n ∈ g.names) (hnr : ¬ IsRoot g n) : ∃ m, edgeRel g m n := by
  obtain ⟨nd, hmem, hname⟩ : ∃ nd, nd ∈ g.nodes ∧ nd.name = n := by
    unfold DirectedGraph.names at hn
    obtain ⟨nd, hmem, hname⟩ := List.mem_map.mp hn
    exact ⟨nd, hmem, hname⟩
  have hfail : ¬ (!(nd.edges.any (fun e => e.to_node == nd.name))) = true := by
    intro hpred
    refine hnr ?_
    unfold IsRoot rootsSimple
    refine List.mem_map.mpr ⟨nd, List.mem_filter.mpr ⟨hmem, hpred⟩, hname⟩
  have hany : nd.edges.any (fun e => e.to_node == nd.name) = true := by
    by_contra hc
    rw [Bool.not_eq_true] at hc
    exact hfail (by rw [hc]; rfl)
  obtain ⟨e, he, hto⟩ := List.any_eq_true.mp hany
  have hto' : e.to_node = nd.name := by simpa using hto
  have hfrom_mem : e.from_node ∈ g.names := hwf.edges_mem_from nd hmem e he
  obtain ⟨md, hfind⟩ := findNode_isSome hfrom_mem
  obtain ⟨hmdname, hmdmem⟩ := findNode_some hfind
  have hemem : e ∈ md.edges :=
    hwf.edges_sym nd hmem e he md hmdmem (Or.inl hmdname)
  refine ⟨e.from_node, ?_⟩
  unfold edgeRel DirectedGraph.outsOf
  rw [hfind]
  have : e ∈ md.outgoing_edges := by
    rw [hwf.out_filter md hmdmem]
    refine List.mem_filter.mpr ⟨hemem, by simp [hmdname]⟩
  show n ∈ md.outgoing_edges.map Edge.to_node
  refine List.mem_map.mpr ⟨e, this, ?_⟩
  rw [hto', hname]

/-- On an acyclic well-formed graph, every stored node is reachable from
some root (walk incoming edges backwards; the ancestor count strictly
drops). -/
theorem acyclic_rootReachable {g : DirectedGraph} (hwf : WF g) (hacyc : Acyclic g) :
    ∀ n ∈ g.names, RootReachable g n := by
  classical
  have main : ∀ (k : Nat) (n : String), n ∈ g.names →
      (g.names.filter (fun m => decide (Reaches g m n))).length ≤ k →
      RootReachable g n := by
    intro k
    induction k with
    | zero =>
      intro n hn hcard
      exfalso
      have hmem : n ∈ g.names.filter (fun m => decide (Reaches g m n)) :=
        List.mem_filter.mpr ⟨hn, by
          rw [decide_eq_true_eq]
          exact Relation.ReflTransGen.refl⟩
      have := List.length_pos_of_mem hmem
      omega
    | succ k ih =>
      intro n hn hcard
      by_cases hroot : IsRoot g n
      · exact ⟨n, hroot, Relation.ReflTransGen.refl⟩
      · obtain ⟨m, hedge⟩ := exists_pred_of_not_root hwf hn hroot
        have hm_mem : m ∈ g.names := edgeRel_src_mem hedge
        have hlt : (g.names.filter (fun z => decide (Reaches g z m))).length <
            (g.names.filter (fun z => decide (Reaches g z n))).length := by
          refine length_filter_lt g.names _ _ ?_ n hn ?_ ?_
          · intro x _ hx
            rw [decide_eq_true_eq] at hx ⊢
            exact Relation.ReflTransGen.tail hx hedge
          · rw [decide_eq_true_eq]
            exact Relation.ReflTransGen.refl
          · rw [decide_eq_false_iff_not]
            intro hreach
            exact hacyc n (Relation.TransGen.tail' hreach hedge)
        obtain ⟨r, hr, hrm⟩ := ih m hm_mem (by omega)
        exact ⟨r, hr, Relation.ReflTransGen.tail hrm hedge⟩
  intro n hn
  exact main (g.names.filter (fun m => decide (Reaches g m n))).length n hn (le_refl _)

end DepGraph

namespace DepGraph

/-! ## Characterizing the `create_plan` scan -/

theorem nodeLt_iff {g : DirectedGraph} {a b : String} :
    nodeLt g a b = true ↔ a ≠ b ∧ b ∈ g.depsOf a := by
  unfold nodeLt DirectedGraph.depsOf
  by_cases hab : a = b
  · subst hab
    rw [if_pos (by simp)]
    simp
  · rw [if_neg (by simpa using hab)]
    cases hf : g.findNode a with
    | none => simp [hab]
    | some nd =>
      unfold Node.depends_on
      constructor
      · intro hc
        exact ⟨hab, List.mem_of_elem_eq_true hc⟩
      · rintro ⟨-, hmem⟩
        exact List.elem_eq_true_of_mem hmem

theorem scanNodes_fst : ∀ (l : List String) (g : DirectedGraph) (node : String)
    (i : Nat) (idx0 : Int) (hi0 : Nat), l.Nodup →
    (scanNodes g node l i (idx0, hi0)).1 =
      if node ∈ l then ((i + List.indexOf node l : Nat) : Int) else idx0 := by
  intro l
  induction l with
  | nil =>
    intro g node i idx0 hi0 _
    simp [scanNodes]
  | cons m rest ih =>
    intro g node i idx0 hi0 hnd
    unfold scanNodes
    by_cases hm : node = m
    · subst hm
      rw [if_pos (by simp)]
      have hnr : node ∉ rest := (List.nodup_cons.mp hnd).1
      rw [ih g node (i + 1) (i : Int) _ (List.nodup_cons.mp hnd).2]
      rw [if_neg hnr, if_pos (List.mem_cons_self _ _), List.indexOf_cons_self]
      simp
    · rw [if_neg (by simpa using hm)]
      rw [ih g node (i + 1) idx0 _ (List.nodup_cons.mp hnd).2]
      by_cases hmem : node ∈ rest
      · rw [if_pos hmem, if_pos (List.mem_cons_of_mem _ hmem)]
        rw [List.indexOf_cons_ne _ (Ne.symm hm)]
        congr 1
        omega
      · rw [if_neg hmem, if_neg (by
          intro hc
          rcases List.mem_cons.mp hc with hc | hc
          · exact hm hc
          · exact hmem hc)]

theorem scanNodes_snd : ∀ (l : List String) (g : DirectedGraph) (node : String)
    (i : Nat) (idx0 : Int) (hi0 : Nat), l.Nodup →
    hi0 ≤ (scanNodes g node l i (idx0, hi0)).2 ∧
    (∀ z ∈ l, nodeLt g node z = true →
      i + List.indexOf z l ≤ (scanNodes g node l i (idx0, hi0)).2) ∧
    ((scanNodes g node l i (idx0, hi0)).2 = hi0 ∨
      ∃ z ∈ l, nodeLt g node z = true ∧
        (scanNodes g node l i (idx0, hi0)).2 = i + List.indexOf z l) := by
  intro l
  induction l with
  | nil =>
    intro g node i idx0 hi0 _
    refine ⟨le_refl _, ?_, Or.inl rfl⟩
    intro z hz
    exact absurd hz (List.not_mem_nil z)
  | cons m rest ih =>
    intro g node i idx0 hi0 hnd
    unfold scanNodes
    obtain ⟨ih1, ih2, ih3⟩ := ih g node (i + 1)
      (if node == m then (i : Int) else idx0)
      (if nodeLt g node m then (if i > hi0 then i else hi0) else hi0)
      (List.nodup_cons.mp hnd).2
    have hstep : hi0 ≤ (if nodeLt g node m then (if i > hi0 then i else hi0) else hi0) := by
      split
      · split <;> omega
      · exact le_refl _
    refine ⟨le_trans hstep ih1, ?_, ?_⟩
    · intro z hz hlt
      rcases List.mem_cons.mp hz with rfl | hz
      · rw [List.indexOf_cons_self]
        have : i ≤ (if nodeLt g node z = true then (if i > hi0 then i else hi0) else hi0) := by
          rw [if_pos hlt]
          split <;> omega
        calc i + 0 = i := by omega
          _ ≤ _ := le_trans this ih1
      · have hzm : m ≠ z := by
          intro hc
          exact (List.nodup_cons.mp hnd).1 (hc ▸ hz)
        rw [List.indexOf_cons_ne _ hzm]
        have := ih2 z hz hlt
        omega
    · rcases ih3 with hr | ⟨z, hz, hlt, hr⟩
      · rw [hr]
        by_cases hltm : nodeLt g node m = true
        · by_cases hib : i > hi0
          · refine Or.inr ⟨m, List.mem_cons_self _ _, hltm, ?_⟩
            rw [List.indexOf_cons_self, if_pos hltm, if_pos hib]
            omega
          · rw [if_pos hltm, if_neg hib]
            exact Or.inl rfl
        · rw [if_neg hltm]
          exact Or.inl rfl
      · have hzm : m ≠ z := by
          intro hc
          exact (List.nodup_cons.mp hnd).1 (hc ▸ hz)
        refine Or.inr ⟨z, List.mem_cons_of_mem _ hz, hlt, ?_⟩
        rw [hr, List.indexOf_cons_ne _ hzm]
        omega

/-- `insertIdx` as a take/drop splice. -/
theorem insertIdx_eq_take_drop :
    ∀ (n : Nat) (x : String) (l : List String), n ≤ l.length →
    l.insertIdx n x = l.take n ++ x :: l.drop n := by
  intro n
  induction n with
  | zero =>
    intro x l _
    simp [List.insertIdx_zero]
  | succ n ih =>
    intro x l h
    cases l with
    | nil => simp at h
    | cons a l =>
      rw [List.insertIdx_succ_cons]
      rw [ih x l (by simpa using h)]
      rfl

theorem planFold_nil (g : DirectedGraph) (nodes : List String) (idx0 : Int) :
    planFold g [] nodes idx0 = nodes := rfl

theorem planFold_cons (g : DirectedGraph) (node : String) (todo nodes : List String)
    (idx0 : Int) :
    planFold g (node :: todo) nodes idx0 =
      (match scanNodes g node nodes 0 (idx0, 0) with
       | (index_of_node, highest_idx) =>
         if ((highest_idx : Int) + 1 > index_of_node) then
           planFold g todo ((listInsertPy nodes (highest_idx + 1) node).erase node) index_of_node
         else planFold g todo nodes index_of_node) := by
  conv_lhs => unfold planFold

end DepGraph

namespace DepGraph

/-- Effect of one relocation of `create_plan` (insert right after index `hi`,
then remove the old first occurrence): the node lands at index `hi`, entries
strictly between its old and new slots shift down one, and everything else
keeps its index. -/
theorem relocate_facts (l : List String) (hnd : l.Nodup) (node : String) (hm : node ∈ l)
    (hi : Nat) (hlow : List.indexOf node l ≤ hi) (hhigh : hi < l.length) :
    ((listInsertPy l (hi + 1) node).erase node).Perm l ∧
    List.indexOf node ((listInsertPy l (hi + 1) node).erase node) = hi ∧
    (∀ z ∈ l, z ≠ node →
      List.indexOf z ((listInsertPy l (hi + 1) node).erase node) =
        if List.indexOf z l < List.indexOf node l then List.indexOf z l
        else if List.indexOf z l ≤ hi then List.indexOf z l - 1
        else List.indexOf z l) := by
  have hidxlt : List.indexOf node l < l.length := List.indexOf_lt_length.mpr hm
  have hgetN : l[List.indexOf node l] = node := List.getElem_indexOf hidxlt
  have hdecompL : l = l.take (List.indexOf node l) ++ node :: l.drop (List.indexOf node l + 1) := by
    conv_lhs => rw [← List.take_append_drop (List.indexOf node l) l]
    rw [List.drop_eq_getElem_cons hidxlt, hgetN]
  set idxN := List.indexOf node l with hidxN
  set A := l.take idxN with hA
  set B := l.drop (idxN + 1) with hB
  have hlenA : A.length = idxN := by
    rw [hA, List.length_take]
    omega
  have hlenB : B.length = l.length - idxN - 1 := by
    rw [hB, List.length_drop]
    omega
  have hndL := hnd
  rw [hdecompL, List.nodup_append] at hndL
  obtain ⟨hndA, hndNB, hdisjA⟩ := hndL
  have hnodeA : node ∉ A := fun hc => hdisjA hc (List.mem_cons_self _ _)
  have hnodeB : node ∉ B := (List.nodup_cons.mp hndNB).1
  have hndB : B.Nodup := (List.nodup_cons.mp hndNB).2
  set M := B.take (hi - idxN) with hM
  set C := B.drop (hi - idxN) with hC
  have hMC : B = M ++ C := (List.take_append_drop _ B).symm
  have hlenM : M.length = hi - idxN := by
    rw [hM, List.length_take]
    omega
  have hMsubB : ∀ z ∈ M, z ∈ B := fun z hz => List.take_subset _ _ hz
  have hCsubB : ∀ z ∈ C, z ∈ B := fun z hz => List.drop_subset _ _ hz
  have hnodeM : node ∉ M := fun hc => hnodeB (hMsubB node hc)
  have hnodeC : node ∉ C := fun hc => hnodeB (hCsubB node hc)
  have hdisjMC : ∀ z ∈ C, z ∉ M := by
    have := hndB
    rw [hMC, List.nodup_append] at this
    intro z hz hzM
    exact this.2.2 hzM hz
  -- the spliced list
  have hins : listInsertPy l (hi + 1) node = l.take (hi + 1) ++ node :: l.drop (hi + 1) := by
    unfold listInsertPy
    rw [if_neg (by omega)]
    exact insertIdx_eq_take_drop _ _ _ (by omega)
  have htake : l.take (hi + 1) = A ++ node :: M := by
    conv_lhs => rw [hdecompL]
    rw [List.take_append_eq_append_take]
    rw [List.take_of_length_le (by omega)]
    congr 1
    have hexp : hi + 1 - A.length = (hi - idxN) + 1 := by omega
    rw [hexp, List.take_succ_cons, ← hM]
  have hdrop : l.drop (hi + 1) = C := by
    conv_lhs => rw [hdecompL]
    rw [List.drop_append_eq_append_drop]
    rw [List.drop_eq_nil_of_le (by omega)]
    have hexp : hi + 1 - A.length = (hi - idxN) + 1 := by omega
    rw [hexp, List.drop_succ_cons, ← hC]
    exact List.nil_append C
  have hl2 : (listInsertPy l (hi + 1) node).erase node = (A ++ M) ++ node :: C := by
    rw [hins, htake, hdrop]
    rw [List.erase_append_left _ (by
      refine List.mem_append.mpr (Or.inr ?_)
      exact List.mem_cons_self _ _)]
    rw [List.erase_append_right _ hnodeA, List.erase_cons_head]
  -- permutation
  have hperm : ((listInsertPy l (hi + 1) node).erase node).Perm l := by
    rw [hl2]
    conv_rhs => rw [hdecompL]
    rw [List.append_assoc]
    refine List.Perm.append_left A ?_
    rw [hMC]
    exact List.perm_middle
  refine ⟨hperm, ?_, ?_⟩
  · rw [hl2]
    rw [List.indexOf_append_of_not_mem (by
      intro hc
      rcases List.mem_append.mp hc with hc | hc
      · exact hnodeA hc
      · exact hnodeM hc)]
    rw [List.indexOf_cons_self]
    rw [List.length_append, hlenA, hlenM]
    omega
  · intro z hzl hzn
    have hzl' := hzl
    rw [hdecompL] at hzl'
    have hnz : node ≠ z := Ne.symm hzn
    rcases List.mem_append.mp hzl' with hzA | hzNB
    · -- z in the untouched front
      have hidxA : List.indexOf z l = List.indexOf z A := by
        conv_lhs => rw [hdecompL]
        exact List.indexOf_append_of_mem hzA
      have hlt : List.indexOf z A < A.length := List.indexOf_lt_length.mpr hzA
      rw [hl2]
      rw [List.indexOf_append_of_mem (List.mem_append.mpr (Or.inl hzA))]
      rw [List.indexOf_append_of_mem hzA]
      rw [if_pos (by omega)]
      exact hidxA.symm
    · rcases List.mem_cons.mp hzNB with hzn' | hzB
      · exact absurd hzn' hzn
      · have hzA : z ∉ A := fun hc => hdisjA hc hzNB
        have hidxB : List.indexOf z l = idxN + 1 + List.indexOf z B := by
          conv_lhs => rw [hdecompL]
          rw [List.indexOf_append_of_not_mem hzA, hlenA]
          rw [List.indexOf_cons_ne _ hnz]
          omega
        rw [hMC] at hzB
        rcases List.mem_append.mp hzB with hzM | hzC
        · -- z shifts down one
          have hidxM : List.indexOf z B = List.indexOf z M := by
            rw [hMC]
            exact List.indexOf_append_of_mem hzM
          have hltM : List.indexOf z M < M.length := List.indexOf_lt_length.mpr hzM
          rw [hl2]
          rw [List.indexOf_append_of_mem (List.mem_append.mpr (Or.inr hzM))]
          rw [List.indexOf_append_of_not_mem hzA, hlenA]
          rw [if_neg (by omega), if_pos (by omega)]
          omega
        · -- z beyond the insertion point
          have hzM : z ∉ M := hdisjMC z hzC
          have hidxC : List.indexOf z B = M.length + List.indexOf z C := by
            rw [hMC]
            exact List.indexOf_append_of_not_mem hzM
          rw [hl2]
          rw [List.indexOf_append_of_not_mem (by
            intro hc
            rcases List.mem_append.mp hc with hc | hc
            · exact hzA hc
            · exact hzM hc)]
          rw [List.indexOf_cons_ne _ hnz]
          rw [List.length_append, hlenA, hlenM]
          rw [if_neg (by omega), if_neg (by omega)]
          omega

end DepGraph

namespace DepGraph

/-! ## The relocation loop of `create_plan` -/

/-- Ordering invariant of the relocation pass: every processed node sits
strictly after everything it depends on in the working list. -/
def PlanInv (gf : DirectedGraph) (l : List String) (done : List String) : Prop :=
  ∀ y ∈ done, ∀ d, nodeLt gf y d = true → List.indexOf d l < List.indexOf y l

/-- One iteration of the relocation loop preserves permutation with the
snapshot and extends the ordering invariant to the node just processed,
provided the dependency sets are transitive and irreflexive. -/
theorem planStep_inv (gf : DirectedGraph) (names0 : List String)
    (htrans : ∀ x y z, y ∈ gf.depsOf x → z ∈ gf.depsOf y → z ∈ gf.depsOf x)
    (hirr : ∀ x, x ∉ gf.depsOf x)
    (hdmem : ∀ x y, y ∈ gf.depsOf x → y ∈ names0)
    (hnd0 : names0.Nodup)
    (l : List String) (hperm : l.Perm names0)
    (node : String) (hnode : node ∈ names0)
    (done : List String) (hdone_node : node ∉ done) (hdone_mem : ∀ y ∈ done, y ∈ names0)
    (hinv : PlanInv gf l done)
    (idx0 idxI : Int) (hi : Nat)
    (hscan : scanNodes gf node l 0 (idx0, 0) = (idxI, hi)) :
    (if ((hi : Int) + 1 > idxI)
      then (listInsertPy l (hi + 1) node).erase node else l).Perm names0 ∧
    PlanInv gf
      (if ((hi : Int) + 1 > idxI)
        then (listInsertPy l (hi + 1) node).erase node else l)
      (done ++ [node]) := by
  have hnd : l.Nodup := hperm.symm.nodup hnd0
  have hnl : node ∈ l := hperm.mem_iff.mpr hnode
  have hmem_l : ∀ z, z ∈ names0 → z ∈ l := fun z hz => hperm.mem_iff.mpr hz
  have hfst := scanNodes_fst l gf node 0 idx0 0 hnd
  rw [hscan] at hfst
  have hfst2 : idxI = if node ∈ l then ((0 + List.indexOf node l : Nat) : Int) else idx0 :=
    hfst
  rw [if_pos hnl] at hfst2
  have hidxI : idxI = (List.indexOf node l : Int) := by omega
  have hsnd := scanNodes_snd l gf node 0 idx0 0 hnd
  rw [hscan] at hsnd
  obtain ⟨-, hH2, hH3⟩ := hsnd
  have hH2' : ∀ z ∈ l, nodeLt gf node z = true → List.indexOf z l ≤ hi := by
    intro z hz hlt
    have h : 0 + List.indexOf z l ≤ hi := hH2 z hz hlt
    omega
  have hH3' : hi = 0 ∨ ∃ z ∈ l, nodeLt gf node z = true ∧ hi = 0 + List.indexOf z l := hH3
  have hlt_mem : ∀ d, nodeLt gf node d = true → d ∈ l := by
    intro d hlt
    exact hmem_l d (hdmem node d (nodeLt_iff.mp hlt).2)
  have hlt_ne : ∀ d, nodeLt gf node d = true → d ≠ node := by
    intro d hlt hc
    subst hc
    exact hirr d (nodeLt_iff.mp hlt).2
  by_cases hcond : ((hi : Int) + 1 > idxI)
  · have hlow : List.indexOf node l ≤ hi := by
      rw [hidxI] at hcond
      omega
    have hhigh : hi < l.length := by
      rcases hH3' with h0 | ⟨z, hz, -, hzi⟩
      · have : 0 < l.length := List.length_pos_of_mem hnl
        omega
      · have : List.indexOf z l < l.length := List.indexOf_lt_length.mpr hz
        omega
    obtain ⟨hperm2, hidx2, hshift⟩ := relocate_facts l hnd node hnl hi hlow hhigh
    rw [if_pos hcond]
    have hnd2 : ((listInsertPy l (hi + 1) node).erase node).Nodup := hperm2.symm.nodup hnd
    refine ⟨hperm2.trans hperm, ?_⟩
    intro y hy d hlt
    have hd_deps : d ∈ gf.depsOf y := (nodeLt_iff.mp hlt).2
    have hd_l : d ∈ l := hmem_l d (hdmem y d hd_deps)
    rcases List.mem_append.mp hy with hy | hy
    · -- previously processed node: its deps keep sitting in front of it
      have hy_ne : y ≠ node := fun hc => hdone_node (hc ▸ hy)
      have hy_l : y ∈ l := hmem_l y (hdone_mem y hy)
      have hold : List.indexOf d l < List.indexOf y l := hinv y hy d hlt
      have hy_ne_idx : List.indexOf y l ≠ List.indexOf node l :=
        fun hc => hy_ne ((List.indexOf_inj hy_l hnl).mp hc)
      by_cases hdn : d = node
      · -- the relocated node itself is one of y's dependencies
        rw [hdn] at hlt hd_deps ⊢
        rw [hidx2]
        rcases hH3' with h0 | ⟨d0, hd0l, hlt0, hd0i⟩
        · -- highest index 0: the relocated node lands at the very front
          rcases Nat.eq_zero_or_pos (List.indexOf y
              ((listInsertPy l (hi + 1) node).erase node)) with hz0 | hpos
          · exfalso
            apply hy_ne
            refine (List.indexOf_inj (hperm2.mem_iff.mpr hy_l)
              (hperm2.mem_iff.mpr hnl)).mp ?_
            rw [hz0, hidx2, h0]
          · omega
        · -- highest index is that of a dependency d0 of the relocated node
          have hd0_deps : d0 ∈ gf.depsOf node := (nodeLt_iff.mp hlt0).2
          have hd0y : d0 ∈ gf.depsOf y := htrans y node d0 hd_deps hd0_deps
          have hd0_ne_y : d0 ≠ y := by
            intro hc
            rw [hc] at hd0_deps
            exact hirr y (htrans y node y hd_deps hd0_deps)
          have hlt_y_d0 : nodeLt gf y d0 = true :=
            nodeLt_iff.mpr ⟨fun hc => hd0_ne_y hc.symm, hd0y⟩
          have hold0 : List.indexOf d0 l < List.indexOf y l := hinv y hy d0 hlt_y_d0
          have hnew_y := hshift y hy_l hy_ne
          rw [if_neg (by omega), if_neg (by omega)] at hnew_y
          rw [hnew_y]
          omega
      · have hnew_d := hshift d hd_l hdn
        have hnew_y := hshift y hy_l hy_ne
        have hd_ne_idx : List.indexOf d l ≠ List.indexOf node l :=
          fun hc => hdn ((List.indexOf_inj hd_l hnl).mp hc)
        rw [hnew_d, hnew_y]
        split_ifs <;> omega
    · -- the node just processed: all its deps are at or below hi, it sits at hi
      have hy_eq : y = node := List.mem_singleton.mp hy
      rw [hy_eq] at hlt ⊢
      have hdn : d ≠ node := hlt_ne d hlt
      have hd_l' : d ∈ l := hlt_mem d hlt
      have hle : List.indexOf d l ≤ hi := hH2' d hd_l' hlt
      have hd_ne_idx : List.indexOf d l ≠ List.indexOf node l :=
        fun hc => hdn ((List.indexOf_inj hd_l' hnl).mp hc)
      have hnew_d := hshift d hd_l' hdn
      rw [hidx2, hnew_d]
      split_ifs <;> omega
  · -- no relocation: the node already sits beyond every dependency
    rw [if_neg hcond]
    refine ⟨hperm, ?_⟩
    intro y hy d hlt
    rcases List.mem_append.mp hy with hy | hy
    · exact hinv y hy d hlt
    · have hy_eq : y = node := List.mem_singleton.mp hy
      rw [hy_eq] at hlt ⊢
      have hd_l' : d ∈ l := hlt_mem d hlt
      have hle : List.indexOf d l ≤ hi := hH2' d hd_l' hlt
      have : hi < List.indexOf node l := by
        rw [hidxI] at hcond
        omega
      omega

end DepGraph

namespace DepGraph

/-- The whole relocation loop: starting from any permutation of the snapshot
that satisfies the invariant for the already-processed nodes, it returns a
permutation of the snapshot satisfying the invariant for all nodes. -/
theorem planFold_invariant (gf : DirectedGraph) (names0 : List String)
    (htrans : ∀ x y z, y ∈ gf.depsOf x → z ∈ gf.depsOf y → z ∈ gf.depsOf x)
    (hirr : ∀ x, x ∉ gf.depsOf x)
    (hdmem : ∀ x y, y ∈ gf.depsOf x → y ∈ names0)
    (hnd0 : names0.Nodup) :
    ∀ (todo done l : List String) (idx0 : Int),
      l.Perm names0 → (∀ y ∈ done, y ∈ names0) → (∀ y ∈ todo, y ∈ names0) →
      (done ++ todo).Nodup → PlanInv gf l done →
      (planFold gf todo l idx0).Perm names0 ∧
      PlanInv gf (planFold gf todo l idx0) (done ++ todo) := by
  intro todo
  induction todo with
  | nil =>
    intro done l idx0 hperm hdm _ _ hinv
    rw [planFold_nil]
    refine ⟨hperm, ?_⟩
    simpa using hinv
  | cons node todo ih =>
    intro done l idx0 hperm hdm htm hnd hinv
    rcases hscan : scanNodes gf node l 0 (idx0, 0) with ⟨idxI, hi⟩
    have hgoal : planFold gf (node :: todo) l idx0 =
        (if ((hi : Int) + 1 > idxI)
          then planFold gf todo ((listInsertPy l (hi + 1) node).erase node) idxI
          else planFold gf todo l idxI) := by
      rw [planFold_cons, hscan]
    rw [hgoal]
    have hnode0 : node ∈ names0 := htm node (List.mem_cons_self _ _)
    have hdisj : done.Disjoint (node :: todo) := (List.nodup_append.mp hnd).2.2
    have hnotdone : node ∉ done := fun hc => hdisj hc (List.mem_cons_self _ _)
    have hstep := planStep_inv gf names0 htrans hirr hdmem hnd0 l hperm node hnode0
      done hnotdone hdm hinv idx0 idxI hi hscan
    have hdm' : ∀ y ∈ done ++ [node], y ∈ names0 := by
      intro y hy
      rcases List.mem_append.mp hy with hy | hy
      · exact hdm y hy
      · rw [List.mem_singleton.mp hy]
        exact hnode0
    have htm' : ∀ y ∈ todo, y ∈ names0 := fun y hy => htm y (List.mem_cons_of_mem _ hy)
    have hnd' : ((done ++ [node]) ++ todo).Nodup := by
      rw [List.append_assoc]
      exact hnd
    have happ : (done ++ [node]) ++ todo = done ++ node :: todo := by
      rw [List.append_assoc]
      rfl
    by_cases hcond : ((hi : Int) + 1 > idxI)
    · rw [if_pos hcond] at hstep ⊢
      have := ih (done ++ [node]) ((listInsertPy l (hi + 1) node).erase node) idxI
        hstep.1 hdm' htm' hnd' hstep.2
      rw [happ] at this
      exact this
    · rw [if_neg hcond] at hstep ⊢
      have := ih (done ++ [node]) l idxI hstep.1 hdm' htm' hnd' hstep.2
      rw [happ] at this
      exact this

end DepGraph

namespace DepGraph

/-! ## `create_plan` on well-formed acyclic graphs -/

theorem edgeRel_tgt_mem {g : DirectedGraph} (hwf : WF g) {u v : String}
    (h : edgeRel g u v) : v ∈ g.names := by
  unfold edgeRel DirectedGraph.outsOf at h
  cases hf : g.findNode u with
  | none =>
    rw [hf] at h
    exact absurd h (List.not_mem_nil v)
  | some nd =>
    rw [hf] at h
    obtain ⟨e, he, hev⟩ := List.mem_map.mp h
    obtain ⟨hname, hmem⟩ := findNode_some hf
    have hout := hwf.out_filter nd hmem
    rw [hout] at he
    have he' : e ∈ nd.edges := List.mem_of_mem_filter he
    rw [← hev]
    exact hwf.edges_mem_to nd hmem e he'

theorem edgeRel_ne {g : DirectedGraph} (hwf : WF g) {u v : String}
    (h : edgeRel g u v) : u ≠ v := by
  unfold edgeRel DirectedGraph.outsOf at h
  cases hf : g.findNode u with
  | none =>
    rw [hf] at h
    exact absurd h (List.not_mem_nil v)
  | some nd =>
    rw [hf] at h
    obtain ⟨e, he, hev⟩ := List.mem_map.mp h
    obtain ⟨hname, hmem⟩ := findNode_some hf
    have hout := hwf.out_filter nd hmem
    rw [hout] at he
    have he' : e ∈ nd.edges := List.mem_of_mem_filter he
    have hfrom : e.from_node = nd.name := by
      have := List.of_mem_filter he
      exact beq_iff_eq.mp this
    have := hwf.edges_no_self nd hmem e he'
    rw [hfrom, hname] at this
    rw [← hev]
    exact this

theorem reachesPlus_tgt_mem {g : DirectedGraph} (hwf : WF g) {n m : String}
    (h : ReachesPlus g n m) : m ∈ g.names := by
  obtain ⟨b, -, hbm⟩ := Relation.TransGen.tail'_iff.mp h
  exact edgeRel_tgt_mem hwf hbm

/-- Core of claims C1 and C5: on a well-formed acyclic graph with a dirty
memo and sound recorded dependencies, `create_plan` succeeds, its result is
a permutation of the node names, and every edge's target sits strictly
before the edge's source. -/
theorem create_plan_main {g : DirectedGraph} (hwf : WF g) (hdirty : g.cache_dirty = true)
    (hsound : DepsSound g) (hacyc : Acyclic g) :
    ∃ plan, g.create_plan = .ok plan ∧ plan.Perm g.names ∧
      ∀ u v, edgeRel g u v → List.indexOf v plan < List.indexOf u plan := by
  obtain ⟨gt, ps, hres, hfp⟩ := find_paths_success hwf hdirty hacyc
  have hstate := traverseRoots_state (rootsSimple g) g [] gt (by rw [hres]; rfl)
  have hnames : ({ gt with paths := ps } : DirectedGraph).names = g.names :=
    names_congr hstate.1
  have hdeps : ∀ x m, m ∈ ({ gt with paths := ps } : DirectedGraph).depsOf x ↔
      (x ∈ g.names ∧ ReachesPlus g x m) := by
    intro x m
    by_cases hx : x ∈ g.names
    · have hroot : RootReachable g x := acyclic_rootReachable hwf hacyc x hx
      rw [find_paths_deps_exact hwf hdirty hsound hfp hroot m]
      simp [hx]
    · have hnone : ({ gt with paths := ps } : DirectedGraph).findNode x = none :=
        findNode_none_iff.mpr (by rw [hnames]; exact hx)
      unfold DirectedGraph.depsOf
      rw [hnone]
      simp [hx]
  have htrans' : ∀ x y z, y ∈ ({ gt with paths := ps } : DirectedGraph).depsOf x →
      z ∈ ({ gt with paths := ps } : DirectedGraph).depsOf y →
      z ∈ ({ gt with paths := ps } : DirectedGraph).depsOf x := by
    intro x y z hxy hyz
    obtain ⟨hx, hreach1⟩ := (hdeps x y).mp hxy
    obtain ⟨hy, hreach2⟩ := (hdeps y z).mp hyz
    exact (hdeps x z).mpr ⟨hx, hreach1.trans hreach2⟩
  have hirr' : ∀ x, x ∉ ({ gt with paths := ps } : DirectedGraph).depsOf x := by
    intro x hc
    exact hacyc x ((hdeps x x).mp hc).2
  have hdmem' : ∀ x y, y ∈ ({ gt with paths := ps } : DirectedGraph).depsOf x →
      y ∈ g.names := by
    intro x y hxy
    exact reachesPlus_tgt_mem hwf ((hdeps x y).mp hxy).2
  have hplan : g.create_plan = .ok (planFold ({ gt with paths := ps })
      ({ gt with paths := ps } : DirectedGraph).names
      ({ gt with paths := ps } : DirectedGraph).names (-1)) := by
    unfold DirectedGraph.create_plan
    rw [hfp]
  obtain ⟨hperm, hinv⟩ := planFold_invariant ({ gt with paths := ps }) g.names
    htrans' hirr' hdmem' hwf.names_nodup
    ({ gt with paths := ps } : DirectedGraph).names []
    ({ gt with paths := ps } : DirectedGraph).names (-1)
    (by rw [hnames]) (by intro y hy; exact absurd hy (List.not_mem_nil y))
    (by rw [hnames]; exact fun y hy => hy)
    (by rw [List.nil_append, hnames]; exact hwf.names_nodup)
    (by intro y hy; exact absurd hy (List.not_mem_nil y))
  refine ⟨_, hplan, hperm, ?_⟩
  intro u v hedge
  have hu : u ∈ g.names := edgeRel_src_mem hedge
  have hv_dep : v ∈ ({ gt with paths := ps } : DirectedGraph).depsOf u :=
    (hdeps u v).mpr ⟨hu, Relation.TransGen.single hedge⟩
  have hne : u ≠ v := edgeRel_ne hwf hedge
  have hlt : nodeLt ({ gt with paths := ps }) u v = true := nodeLt_iff.mpr ⟨hne, hv_dep⟩
  refine hinv u ?_ v hlt
  rw [List.nil_append, hnames]
  exact hu

end DepGraph

namespace DepGraph

/-! ## The well-formedness invariant across the public interface -/

theorem skelNode_fields {nd nd' : Node} (h : skelNode nd = skelNode nd') :
    nd.name = nd'.name ∧ nd.edges = nd'.edges ∧
    nd.outgoing_edges = nd'.outgoing_edges ∧ nd.incoming_edges = nd'.incoming_edges := by
  refine ⟨?_, ?_, ?_, ?_⟩
  · have := congrArg Node.name h
    exact this
  · have := congrArg Node.edges h
    exact this
  · have := congrArg Node.outgoing_edges h
    exact this
  · have := congrArg Node.incoming_edges h
    exact this

theorem skel_nodes_corr {g g' : DirectedGraph} (hs : skel g = skel g') :
    ∀ nd' ∈ g'.nodes, ∃ nd ∈ g.nodes, skelNode nd = skelNode nd' := by
  intro nd' hmem
  have hm : skelNode nd' ∈ skel g' := List.mem_map_of_mem _ hmem
  rw [← hs] at hm
  obtain ⟨nd, hnd, he⟩ := List.mem_map.mp hm
  exact ⟨nd, hnd, he⟩

/-- Well-formedness only looks at the structural skeleton: it transports
along any mutation that touches only dependency sets. -/
theorem WF_of_skel {g g' : DirectedGraph} (hs : skel g = skel g') (hwf : WF g) : WF g' := by
  have hnames : g.names = g'.names := names_congr hs
  have hcorr := skel_nodes_corr hs
  refine ⟨?_, ?_, ?_, ?_, ?_, ?_, ?_, ?_⟩
  · rw [← hnames]
    exact hwf.names_nodup
  · intro nd' h' e he
    obtain ⟨nd, hnd, hsk⟩ := hcorr nd' h'
    obtain ⟨hn, hedg, -, -⟩ := skelNode_fields hsk
    rw [← hn]
    exact hwf.edges_conn nd hnd e (by rw [hedg]; exact he)
  · intro nd' h' e he
    obtain ⟨nd, hnd, hsk⟩ := hcorr nd' h'
    obtain ⟨-, hedg, -, -⟩ := skelNode_fields hsk
    exact hwf.edges_no_self nd hnd e (by rw [hedg]; exact he)
  · intro nd' h' e he
    obtain ⟨nd, hnd, hsk⟩ := hcorr nd' h'
    obtain ⟨-, hedg, -, -⟩ := skelNode_fields hsk
    rw [← hnames]
    exact hwf.edges_mem_from nd hnd e (by rw [hedg]; exact he)
  · intro nd' h' e he
    obtain ⟨nd, hnd, hsk⟩ := hcorr nd' h'
    obtain ⟨-, hedg, -, -⟩ := skelNode_fields hsk
    rw [← hnames]
    exact hwf.edges_mem_to nd hnd e (by rw [hedg]; exact he)
  · intro nd' h' e he md' hmd' hside
    obtain ⟨nd, hnd, hsk⟩ := hcorr nd' h'
    obtain ⟨-, hedg, -, -⟩ := skelNode_fields hsk
    obtain ⟨md, hmd, hskm⟩ := hcorr md' hmd'
    obtain ⟨hmn, hmedg, -, -⟩ := skelNode_fields hskm
    rw [← hmedg]
    exact hwf.edges_sym nd hnd e (by rw [hedg]; exact he) md hmd (by rw [hmn]; exact hside)
  · intro nd' h'
    obtain ⟨nd, hnd, hsk⟩ := hcorr nd' h'
    obtain ⟨hn, hedg, hout, -⟩ := skelNode_fields hsk
    rw [← hout, ← hedg, ← hn]
    exact hwf.out_filter nd hnd
  · intro nd' h'
    obtain ⟨nd, hnd, hsk⟩ := hcorr nd' h'
    obtain ⟨hn, hedg, -, hin⟩ := skelNode_fields hsk
    rw [← hin, ← hedg, ← hn]
    exact hwf.in_filter nd hnd

theorem WF_empty : WF DirectedGraph.empty := by
  refine ⟨?_, ?_, ?_, ?_, ?_, ?_, ?_, ?_⟩
  · exact List.nodup_nil
  all_goals intro nd hnd
  all_goals exact absurd hnd (List.not_mem_nil nd)

theorem add_node_ok_inv {g g' : DirectedGraph} {nd0 : Node}
    (h : g.add_node nd0 = .ok g') :
    g.names.contains nd0.name = false ∧ g' = { g with nodes := g.nodes ++ [nd0] } := by
  unfold DirectedGraph.add_node at h
  by_cases hc : g.names.contains nd0.name = true
  · rw [if_pos hc] at h
    exact absurd h (fun hx => Except.noConfusion hx)
  · rw [if_neg hc] at h
    refine ⟨by simpa using hc, ?_⟩
    injection h with h'
    exact h'.symm

theorem add_node_fresh_wf {g g' : DirectedGraph} {nm : String} (hwf : WF g)
    (h : g.add_node (Node.fresh nm) = .ok g') :
    WF g' ∧ g'.cache_dirty = g.cache_dirty := by
  obtain ⟨hc, rfl⟩ := add_node_ok_inv h
  have hnm : nm ∉ g.names := by simpa using hc
  have hnames' : DirectedGraph.names { g with nodes := g.nodes ++ [Node.fresh nm] } =
      g.names ++ [nm] := by
    unfold DirectedGraph.names
    rw [List.map_append]
    rfl
  refine ⟨⟨?_, ?_, ?_, ?_, ?_, ?_, ?_, ?_⟩, rfl⟩
  · rw [hnames']
    exact List.nodup_append.mpr ⟨hwf.names_nodup, List.nodup_singleton nm,
      fun x hx hx' => hnm (by rw [← List.mem_singleton.mp hx']; exact hx)⟩
  · intro nd hnd e he
    rcases List.mem_append.mp hnd with hnd | hnd
    · exact hwf.edges_conn nd hnd e he
    · rw [List.mem_singleton.mp hnd] at he
      exact absurd he (List.not_mem_nil e)
  · intro nd hnd e he
    rcases List.mem_append.mp hnd with hnd | hnd
    · exact hwf.edges_no_self nd hnd e he
    · rw [List.mem_singleton.mp hnd] at he
      exact absurd he (List.not_mem_nil e)
  · intro nd hnd e he
    rcases List.mem_append.mp hnd with hnd | hnd
    · rw [hnames']
      exact List.mem_append_left _ (hwf.edges_mem_from nd hnd e he)
    · rw [List.mem_singleton.mp hnd] at he
      exact absurd he (List.not_mem_nil e)
  · intro nd hnd e he
    rcases List.mem_append.mp hnd with hnd | hnd
    · rw [hnames']
      exact List.mem_append_left _ (hwf.edges_mem_to nd hnd e he)
    · rw [List.mem_singleton.mp hnd] at he
      exact absurd he (List.not_mem_nil e)
  · intro nd hnd e he md hmd hside
    rcases List.mem_append.mp hnd with hnd | hnd
    · rcases List.mem_append.mp hmd with hmd | hmd
      · exact hwf.edges_sym nd hnd e he md hmd hside
      · exfalso
        rw [List.mem_singleton.mp hmd] at hside
        rcases hside with hside | hside
        · have h1 : nm = e.from_node := hside
          exact hnm (by rw [h1]; exact hwf.edges_mem_from nd hnd e he)
        · have h1 : nm = e.to_node := hside
          exact hnm (by rw [h1]; exact hwf.edges_mem_to nd hnd e he)
    · rw [List.mem_singleton.mp hnd] at he
      exact absurd he (List.not_mem_nil e)
  · intro nd hnd
    rcases List.mem_append.mp hnd with hnd | hnd
    · exact hwf.out_filter nd hnd
    · rw [List.mem_singleton.mp hnd]
      rfl
  · intro nd hnd
    rcases List.mem_append.mp hnd with hnd | hnd
    · exact hwf.in_filter nd hnd
    · rw [List.mem_singleton.mp hnd]
      rfl

end DepGraph

namespace DepGraph

/-- Decomposition of a successful `add_edge`: distinct keys, both nodes
present, neither endpoint already holding an (undirected-)equal relation,
and the result graph updating exactly the two endpoint nodes. -/
theorem add_edge_ok_inv {g g' : DirectedGraph} {a b : String}
    (h : g.add_edge a b = .ok g') :
    ∃ from_nd to_nd : Node, (a == b) = false ∧
      g.findNode a = some from_nd ∧ g.findNode b = some to_nd ∧
      from_nd.has_edge ⟨a, b⟩ = false ∧ to_nd.has_edge ⟨a, b⟩ = false ∧
      g' = (g.replaceNode a
          { from_nd with
            edges := from_nd.edges ++ [⟨a, b⟩],
            outgoing_edges := from_nd.outgoing_edges ++ [⟨a, b⟩] }).replaceNode b
          { to_nd with
            edges := to_nd.edges ++ [⟨a, b⟩],
            incoming_edges := to_nd.incoming_edges ++ [⟨a, b⟩] } := by
  unfold DirectedGraph.add_edge at h
  by_cases hab : (a == b) = true
  · rw [if_pos hab] at h
    exact absurd h (fun hx => Except.noConfusion hx)
  · rw [if_neg hab] at h
    have hab' : (a == b) = false := by simpa using hab
    cases hfa : g.findNode a with
    | none =>
      rw [hfa] at h
      exact absurd h (fun hx => Except.noConfusion hx)
    | some from_nd =>
      rw [hfa] at h
      cases hfb : g.findNode b with
      | none =>
        rw [hfb] at h
        exact absurd h (fun hx => Except.noConfusion hx)
      | some to_nd =>
        rw [hfb] at h
        have hfrom_name : from_nd.name = a := (findNode_some hfa).1
        have hto_name : to_nd.name = b := (findNode_some hfb).1
        have h2 : (match from_nd.add_edge ⟨a, b⟩ with
            | .error err => (Except.error (err, g) :
                Except (GraphFailure × DirectedGraph) DirectedGraph)
            | .ok from_nd2 =>
              match to_nd.add_edge ⟨a, b⟩ with
              | .error err => .error (err, g.replaceNode a from_nd2)
              | .ok to_nd2 => .ok ((g.replaceNode a from_nd2).replaceNode b to_nd2)) =
            .ok g' := h
        clear h
        cases hadd1 : from_nd.add_edge ⟨a, b⟩ with
        | error err =>
          rw [hadd1] at h2
          exact absurd h2 (fun hx => Except.noConfusion hx)
        | ok from_nd2 =>
          rw [hadd1] at h2
          cases hadd2 : to_nd.add_edge ⟨a, b⟩ with
          | error err =>
            rw [hadd2] at h2
            exact absurd h2 (fun hx => Except.noConfusion hx)
          | ok to_nd2 =>
            rw [hadd2] at h2
            injection h2 with h3
            unfold Node.add_edge at hadd1 hadd2
            by_cases hhe1 : from_nd.has_edge ⟨a, b⟩ = true
            · rw [if_pos hhe1] at hadd1
              exact absurd hadd1 (fun hx => Except.noConfusion hx)
            · rw [if_neg hhe1] at hadd1
              rw [if_pos (show ((⟨a, b⟩ : Edge).from_node == from_nd.name) = true by
                simp [hfrom_name])] at hadd1
              injection hadd1 with h4
              by_cases hhe2 : to_nd.has_edge ⟨a, b⟩ = true
              · rw [if_pos hhe2] at hadd2
                exact absurd hadd2 (fun hx => Except.noConfusion hx)
              · rw [if_neg hhe2] at hadd2
                rw [if_neg (show ¬(((⟨a, b⟩ : Edge).from_node == to_nd.name) = true) by
                  simp [hto_name]
                  intro hc
                  rw [hc] at hab'
                  simp at hab')] at hadd2
                injection hadd2 with h5
                refine ⟨from_nd, to_nd, hab', rfl, rfl,
                  (by simpa using hhe1), (by simpa using hhe2), ?_⟩
                rw [← h3, ← h4, ← h5]

end DepGraph

namespace DepGraph

/-- A successful `add_edge` preserves well-formedness, the memo flag and the
node-name set. -/
theorem add_edge_ok_wf {g g' : DirectedGraph} {a b : String} (hwf : WF g)
    (h : g.add_edge a b = .ok g') :
    WF g' ∧ g'.cache_dirty = g.cache_dirty ∧ g'.names = g.names := by
  obtain ⟨from_nd, to_nd, hab, hfa, hfb, hhe1, hhe2, hg'⟩ := add_edge_ok_inv h
  have hab' : a ≠ b := by
    intro hc
    rw [hc] at hab
    simp at hab
  obtain ⟨hfrom_name, hfrom_mem⟩ := findNode_some hfa
  obtain ⟨hto_name, hto_mem⟩ := findNode_some hfb
  have ha_names : a ∈ g.names := mem_names_of_findNode_some hfa
  have hb_names : b ∈ g.names := mem_names_of_findNode_some hfb
  generalize hF : ({ from_nd with
      edges := from_nd.edges ++ [⟨a, b⟩],
      outgoing_edges := from_nd.outgoing_edges ++ [⟨a, b⟩] } : Node) = F at hg'
  generalize hT : ({ to_nd with
      edges := to_nd.edges ++ [⟨a, b⟩],
      incoming_edges := to_nd.incoming_edges ++ [⟨a, b⟩] } : Node) = T at hg'
  have hFname : F.name = a := by
    rw [← hF]
    exact hfrom_name
  have hFedges : F.edges = from_nd.edges ++ [⟨a, b⟩] := by rw [← hF]
  have hFout : F.outgoing_edges = from_nd.outgoing_edges ++ [⟨a, b⟩] := by rw [← hF]
  have hFin : F.incoming_edges = from_nd.incoming_edges := by rw [← hF]
  have hTname : T.name = b := by
    rw [← hT]
    exact hto_name
  have hTedges : T.edges = to_nd.edges ++ [⟨a, b⟩] := by rw [← hT]
  have hTout : T.outgoing_edges = to_nd.outgoing_edges := by rw [← hT]
  have hTin : T.incoming_edges = to_nd.incoming_edges ++ [⟨a, b⟩] := by rw [← hT]
  have hnodes' : g'.nodes = g.nodes.map
      (fun x => if x.name = a then F else if x.name = b then T else x) := by
    rw [hg']
    show ((g.nodes.map (fun x => if x.name == a then F else x)).map
        (fun x => if x.name == b then T else x)) = _
    rw [List.map_map]
    have hfun : ((fun x : Node => if x.name == b then T else x) ∘
        (fun x : Node => if x.name == a then F else x)) =
        (fun x : Node => if x.name = a then F else if x.name = b then T else x) := by
      funext x
      simp only [Function.comp]
      by_cases hx : x.name = a
      · rw [if_pos (show (x.name == a) = true by simp [hx]), if_pos hx]
        rw [if_neg (show ¬((F.name == b) = true) by
          rw [hFname]
          simpa using hab')]
      · rw [if_neg (show ¬((x.name == a) = true) by simpa using hx), if_neg hx]
        by_cases hxb : x.name = b
        · rw [if_pos (show (x.name == b) = true by simp [hxb]), if_pos hxb]
        · rw [if_neg (show ¬((x.name == b) = true) by simpa using hxb), if_neg hxb]
    rw [hfun]
  have hnames' : g'.names = g.names := by
    rw [hg']
    have h1 : (g.replaceNode a F).names = g.names :=
      names_map g (fun x => if x.name == a then F else x) (by
        intro nd
        show (if (nd.name == a) = true then F else nd).name = nd.name
        by_cases hx : nd.name = a
        · rw [if_pos (show (nd.name == a) = true by simp [hx]), hFname]
          exact hx.symm
        · rw [if_neg (show ¬((nd.name == a) = true) by simpa using hx)])
    have h2 : ((g.replaceNode a F).replaceNode b T).names = (g.replaceNode a F).names :=
      names_map (g.replaceNode a F) (fun x => if x.name == b then T else x) (by
        intro nd
        show (if (nd.name == b) = true then T else nd).name = nd.name
        by_cases hx : nd.name = b
        · rw [if_pos (show (nd.name == b) = true by simp [hx]), hTname]
          exact hx.symm
        · rw [if_neg (show ¬((nd.name == b) = true) by simpa using hx)])
    rw [h2, h1]
  have hmem' : ∀ nd' ∈ g'.nodes, nd' = F ∨ nd' = T ∨
      (nd' ∈ g.nodes ∧ nd'.name ≠ a ∧ nd'.name ≠ b) := by
    intro nd' hnd'
    rw [hnodes'] at hnd'
    obtain ⟨x, hx, hxe⟩ := List.mem_map.mp hnd'
    by_cases hxa : x.name = a
    · rw [if_pos hxa] at hxe
      exact Or.inl hxe.symm
    · rw [if_neg hxa] at hxe
      by_cases hxb : x.name = b
      · rw [if_pos hxb] at hxe
        exact Or.inr (Or.inl hxe.symm)
      · rw [if_neg hxb] at hxe
        exact Or.inr (Or.inr ⟨hxe ▸ hx, hxe ▸ hxa, hxe ▸ hxb⟩)
  refine ⟨⟨?_, ?_, ?_, ?_, ?_, ?_, ?_, ?_⟩, ?_, hnames'⟩
  · rw [hnames']
    exact hwf.names_nodup
  · -- edges_conn
    intro nd' hnd' e he
    rcases hmem' nd' hnd' with rfl | rfl | ⟨hm, -, -⟩
    · rw [hFedges] at he
      rw [hFname]
      rcases List.mem_append.mp he with he | he
      · have := hwf.edges_conn from_nd hfrom_mem e he
        rw [hfrom_name] at this
        exact this
      · rw [List.mem_singleton.mp he]
        exact Or.inl rfl
    · rw [hTedges] at he
      rw [hTname]
      rcases List.mem_append.mp he with he | he
      · have := hwf.edges_conn to_nd hto_mem e he
        rw [hto_name] at this
        exact this
      · rw [List.mem_singleton.mp he]
        exact Or.inr rfl
    · exact hwf.edges_conn nd' hm e he
  · -- edges_no_self
    intro nd' hnd' e he
    rcases hmem' nd' hnd' with rfl | rfl | ⟨hm, -, -⟩
    · rw [hFedges] at he
      rcases List.mem_append.mp he with he | he
      · exact hwf.edges_no_self from_nd hfrom_mem e he
      · rw [List.mem_singleton.mp he]
        exact hab'
    · rw [hTedges] at he
      rcases List.mem_append.mp he with he | he
      · exact hwf.edges_no_self to_nd hto_mem e he
      · rw [List.mem_singleton.mp he]
        exact hab'
    · exact hwf.edges_no_self nd' hm e he
  · -- edges_mem_from
    intro nd' hnd' e he
    rw [hnames']
    rcases hmem' nd' hnd' with rfl | rfl | ⟨hm, -, -⟩
    · rw [hFedges] at he
      rcases List.mem_append.mp he with he | he
      · exact hwf.edges_mem_from from_nd hfrom_mem e he
      · rw [List.mem_singleton.mp he]
        exact ha_names
    · rw [hTedges] at he
      rcases List.mem_append.mp he with he | he
      · exact hwf.edges_mem_from to_nd hto_mem e he
      · rw [List.mem_singleton.mp he]
        exact ha_names
    · exact hwf.edges_mem_from nd' hm e he
  · -- edges_mem_to
    intro nd' hnd' e he
    rw [hnames']
    rcases hmem' nd' hnd' with rfl | rfl | ⟨hm, -, -⟩
    · rw [hFedges] at he
      rcases List.mem_append.mp he with he | he
      · exact hwf.edges_mem_to from_nd hfrom_mem e he
      · rw [List.mem_singleton.mp he]
        exact hb_names
    · rw [hTedges] at he
      rcases List.mem_append.mp he with he | he
      · exact hwf.edges_mem_to to_nd hto_mem e he
      · rw [List.mem_singleton.mp he]
        exact hb_names
    · exact hwf.edges_mem_to nd' hm e he
  · -- edges_sym
    have hnew_edge : ∀ md' ∈ g'.nodes, (md'.name = a ∨ md'.name = b) →
        (⟨a, b⟩ : Edge) ∈ md'.edges := by
      intro md' hmd' hside
      rcases hmem' md' hmd' with rfl | rfl | ⟨hm, hna, hnb⟩
      · rw [hFedges]
        exact List.mem_append_right _ (List.mem_singleton.mpr rfl)
      · rw [hTedges]
        exact List.mem_append_right _ (List.mem_singleton.mpr rfl)
      · rcases hside with hside | hside
        · exact absurd hside hna
        · exact absurd hside hnb
    have hold_edge : ∀ e' : Edge, (∃ x ∈ g.nodes, e' ∈ x.edges) →
        ∀ md' ∈ g'.nodes, (md'.name = e'.from_node ∨ md'.name = e'.to_node) →
        e' ∈ md'.edges := by
      rintro e' ⟨x, hx, hex⟩ md' hmd' hside
      rcases hmem' md' hmd' with rfl | rfl | ⟨hm, hna, hnb⟩
      · have hside' : from_nd.name = e'.from_node ∨ from_nd.name = e'.to_node := by
          rcases hside with hs | hs
          · refine Or.inl ?_
            rw [hfrom_name, ← hFname]
            exact hs
          · refine Or.inr ?_
            rw [hfrom_name, ← hFname]
            exact hs
        rw [hFedges]
        exact List.mem_append_left _ (hwf.edges_sym x hx e' hex from_nd hfrom_mem hside')
      · have hside' : to_nd.name = e'.from_node ∨ to_nd.name = e'.to_node := by
          rcases hside with hs | hs
          · refine Or.inl ?_
            rw [hto_name, ← hTname]
            exact hs
          · refine Or.inr ?_
            rw [hto_name, ← hTname]
            exact hs
        rw [hTedges]
        exact List.mem_append_left _ (hwf.edges_sym x hx e' hex to_nd hto_mem hside')
      · exact hwf.edges_sym x hx e' hex md' hm hside
    intro nd' hnd' e he md' hmd' hside
    rcases hmem' nd' hnd' with rfl | rfl | ⟨hm, -, -⟩
    · rw [hFedges] at he
      rcases List.mem_append.mp he with he | he
      · exact hold_edge e ⟨from_nd, hfrom_mem, he⟩ md' hmd' hside
      · rw [List.mem_singleton.mp he] at hside ⊢
        exact hnew_edge md' hmd' hside
    · rw [hTedges] at he
      rcases List.mem_append.mp he with he | he
      · exact hold_edge e ⟨to_nd, hto_mem, he⟩ md' hmd' hside
      · rw [List.mem_singleton.mp he] at hside ⊢
        exact hnew_edge md' hmd' hside
    · exact hold_edge e ⟨nd', hm, he⟩ md' hmd' hside
  · -- out_filter
    intro nd' hnd'
    rcases hmem' nd' hnd' with rfl | rfl | ⟨hm, -, -⟩
    · have hof := hwf.out_filter from_nd hfrom_mem
      rw [hfrom_name] at hof
      rw [hFout, hFedges, hFname, List.filter_append, ← hof]
      congr 1
      simp
    · have hof := hwf.out_filter to_nd hto_mem
      rw [hto_name] at hof
      rw [hTout, hTedges, hTname, List.filter_append, ← hof]
      have hnil : List.filter (fun e : Edge => e.from_node == b) [(⟨a, b⟩ : Edge)] = [] := by
        simp [hab']
      rw [hnil, List.append_nil]
    · exact hwf.out_filter nd' hm
  · -- in_filter
    intro nd' hnd'
    rcases hmem' nd' hnd' with rfl | rfl | ⟨hm, -, -⟩
    · have hif := hwf.in_filter from_nd hfrom_mem
      rw [hfrom_name] at hif
      rw [hFin, hFedges, hFname, List.filter_append, ← hif]
      have hnil : List.filter (fun e : Edge => !(e.from_node == a)) [(⟨a, b⟩ : Edge)] = [] := by
        simp
      rw [hnil, List.append_nil]
    · have hif := hwf.in_filter to_nd hto_mem
      rw [hto_name] at hif
      rw [hTin, hTedges, hTname, List.filter_append, ← hif]
      congr 1
      simp [hab']
    · exact hwf.in_filter nd' hm
  · rw [hg']
    rfl

end DepGraph

namespace DepGraph

/-- On a well-formed graph, a failing `add_edge` leaves the graph untouched:
the only branch that could mutate before raising — a duplicate detected at
the second endpoint only — cannot happen, because edges are recorded on both
endpoints. -/
theorem add_edge_err_state {g g₂ : DirectedGraph} {a b : String} {err : GraphFailure}
    (hwf : WF g) (h : g.add_edge a b = .error (err, g₂)) : g₂ = g := by
  unfold DirectedGraph.add_edge at h
  by_cases hab : (a == b) = true
  · rw [if_pos hab] at h
    injection h with h'
    injection h' with h1 h2
    exact h2.symm
  · rw [if_neg hab] at h
    cases hfa : g.findNode a with
    | none =>
      rw [hfa] at h
      injection h with h'
      injection h' with h1 h2
      exact h2.symm
    | some from_nd =>
      rw [hfa] at h
      cases hfb : g.findNode b with
      | none =>
        rw [hfb] at h
        injection h with h'
        injection h' with h1 h2
        exact h2.symm
      | some to_nd =>
        rw [hfb] at h
        have h2 : (match from_nd.add_edge ⟨a, b⟩ with
            | .error e1 => (Except.error (e1, g) :
                Except (GraphFailure × DirectedGraph) DirectedGraph)
            | .ok from_nd2 =>
              match to_nd.add_edge ⟨a, b⟩ with
              | .error e2 => .error (e2, g.replaceNode a from_nd2)
              | .ok to_nd2 => .ok ((g.replaceNode a from_nd2).replaceNode b to_nd2)) =
            .error (err, g₂) := h
        clear h
        cases hadd1 : from_nd.add_edge ⟨a, b⟩ with
        | error e1 =>
          rw [hadd1] at h2
          injection h2 with h'
          injection h' with h1 h2'
          exact h2'.symm
        | ok from_nd2 =>
          rw [hadd1] at h2
          cases hadd2 : to_nd.add_edge ⟨a, b⟩ with
          | ok to_nd2 =>
            rw [hadd2] at h2
            exact absurd h2 (fun hc => Except.noConfusion hc)
          | error e2 =>
            exfalso
            have hhe2 : to_nd.has_edge ⟨a, b⟩ = true := by
              unfold Node.add_edge at hadd2
              by_cases hh : to_nd.has_edge ⟨a, b⟩ = true
              · exact hh
              · rw [if_neg hh] at hadd2
                split at hadd2 <;> exact Except.noConfusion hadd2
            have hhe1 : from_nd.has_edge ⟨a, b⟩ = false := by
              unfold Node.add_edge at hadd1
              by_cases hh : from_nd.has_edge ⟨a, b⟩ = true
              · rw [if_pos hh] at hadd1
                exact absurd hadd1 (fun hc => Except.noConfusion hc)
              · simpa using hh
            obtain ⟨hfrom_name, hfrom_mem⟩ := findNode_some hfa
            obtain ⟨hto_name, hto_mem⟩ := findNode_some hfb
            unfold Node.has_edge at hhe1 hhe2
            obtain ⟨e', he', heq⟩ := List.any_eq_true.mp hhe2
            have hside : from_nd.name = e'.from_node ∨ from_nd.name = e'.to_node := by
              have heq' := heq
              unfold Edge.eqUndirected at heq'
              simp only [Bool.or_eq_true, Bool.and_eq_true, beq_iff_eq] at heq'
              rcases heq' with ⟨h1, -⟩ | ⟨h1, -⟩
              · exact Or.inl (hfrom_name.trans h1)
              · exact Or.inr (hfrom_name.trans h1)
            have hmem1 : e' ∈ from_nd.edges :=
              hwf.edges_sym to_nd hto_mem e' he' from_nd hfrom_mem hside
            have htrue : from_nd.edges.any
                (fun edge => Edge.eqUndirected ⟨a, b⟩ edge) = true :=
              List.any_eq_true.mpr ⟨e', hmem1, heq⟩
            exact Bool.noConfusion (hhe1.symm.trans htrue)

end DepGraph

namespace DepGraph

/-- After a successful `add_edge a b`, re-adding the relation in either
direction fails with `DuplicateRelation`, leaving the graph unchanged: the
duplicate is caught at the first endpoint, before any mutation. -/
theorem add_edge_dup_both {g g' : DirectedGraph} {a b : String}
    (h : g.add_edge a b = .ok g') :
    g'.add_edge a b = .error (.duplicateRelation, g') ∧
    g'.add_edge b a = .error (.duplicateRelation, g') := by
  obtain ⟨from_nd, to_nd, hab, hfa, hfb, hhe1, hhe2, hg'⟩ := add_edge_ok_inv h
  have hab' : a ≠ b := by
    intro hc
    rw [hc] at hab
    simp at hab
  obtain ⟨hfrom_name, hfrom_mem⟩ := findNode_some hfa
  obtain ⟨hto_name, hto_mem⟩ := findNode_some hfb
  generalize hF : ({ from_nd with
      edges := from_nd.edges ++ [⟨a, b⟩],
      outgoing_edges := from_nd.outgoing_edges ++ [⟨a, b⟩] } : Node) = F at hg'
  generalize hT : ({ to_nd with
      edges := to_nd.edges ++ [⟨a, b⟩],
      incoming_edges := to_nd.incoming_edges ++ [⟨a, b⟩] } : Node) = T at hg'
  have hFname : F.name = a := by
    rw [← hF]
    exact hfrom_name
  have hFedges : F.edges = from_nd.edges ++ [⟨a, b⟩] := by rw [← hF]
  have hTname : T.name = b := by
    rw [← hT]
    exact hto_name
  have hTedges : T.edges = to_nd.edges ++ [⟨a, b⟩] := by rw [← hT]
  have hpres1 : ∀ nd : Node, ((fun x : Node => if x.name == a then F else x) nd).name =
      nd.name := by
    intro nd
    show (if (nd.name == a) = true then F else nd).name = nd.name
    by_cases hx : nd.name = a
    · rw [if_pos (show (nd.name == a) = true by simp [hx]), hFname]
      exact hx.symm
    · rw [if_neg (show ¬((nd.name == a) = true) by simpa using hx)]
  have hpres2 : ∀ nd : Node, ((fun x : Node => if x.name == b then T else x) nd).name =
      nd.name := by
    intro nd
    show (if (nd.name == b) = true then T else nd).name = nd.name
    by_cases hx : nd.name = b
    · rw [if_pos (show (nd.name == b) = true by simp [hx]), hTname]
      exact hx.symm
    · rw [if_neg (show ¬((nd.name == b) = true) by simpa using hx)]
  have h1a : (g.replaceNode a F).findNode a =
      Option.map (fun x : Node => if x.name == a then F else x) (g.findNode a) :=
    findNode_map g _ hpres1 a
  have h1b : (g.replaceNode a F).findNode b =
      Option.map (fun x : Node => if x.name == a then F else x) (g.findNode b) :=
    findNode_map g _ hpres1 b
  have h2a : ((g.replaceNode a F).replaceNode b T).findNode a =
      Option.map (fun x : Node => if x.name == b then T else x)
        ((g.replaceNode a F).findNode a) :=
    findNode_map (g.replaceNode a F) _ hpres2 a
  have h2b : ((g.replaceNode a F).replaceNode b T).findNode b =
      Option.map (fun x : Node => if x.name == b then T else x)
        ((g.replaceNode a F).findNode b) :=
    findNode_map (g.replaceNode a F) _ hpres2 b
  have hfind_a : g'.findNode a = some F := by
    rw [hg', h2a, h1a, hfa]
    show some (if ((if (from_nd.name == a) = true then F else from_nd).name == b) = true
        then T else (if (from_nd.name == a) = true then F else from_nd)) = some F
    rw [if_pos (show (from_nd.name == a) = true by simp [hfrom_name])]
    rw [if_neg (show ¬((F.name == b) = true) by rw [hFname]; simpa using hab')]
  have hfind_b : g'.findNode b = some T := by
    rw [hg', h2b, h1b, hfb]
    show some (if ((if (to_nd.name == a) = true then F else to_nd).name == b) = true
        then T else (if (to_nd.name == a) = true then F else to_nd)) = some T
    rw [if_neg (show ¬((to_nd.name == a) = true) by
      rw [hto_name]
      simpa using Ne.symm hab')]
    rw [if_pos (show (to_nd.name == b) = true by simp [hto_name])]
  have hFhas : F.has_edge ⟨a, b⟩ = true := by
    unfold Node.has_edge
    refine List.any_eq_true.mpr ⟨⟨a, b⟩, ?_, ?_⟩
    · rw [hFedges]
      exact List.mem_append_right _ (List.mem_singleton.mpr rfl)
    · unfold Edge.eqUndirected
      simp
  have hThas : T.has_edge ⟨b, a⟩ = true := by
    unfold Node.has_edge
    refine List.any_eq_true.mpr ⟨⟨a, b⟩, ?_, ?_⟩
    · rw [hTedges]
      exact List.mem_append_right _ (List.mem_singleton.mpr rfl)
    · unfold Edge.eqUndirected
      simp
  have hFadd : F.add_edge ⟨a, b⟩ = .error .duplicateRelation := by
    unfold Node.add_edge
    rw [if_pos hFhas]
  have hTadd : T.add_edge ⟨b, a⟩ = .error .duplicateRelation := by
    unfold Node.add_edge
    rw [if_pos hThas]
  constructor
  · unfold DirectedGraph.add_edge
    rw [if_neg (show ¬((a == b) = true) by simpa using hab')]
    rw [hfind_a, hfind_b]
    show (match F.add_edge ⟨a, b⟩ with
        | .error err => (Except.error (err, g') :
            Except (GraphFailure × DirectedGraph) DirectedGraph)
        | .ok from_nd2 =>
          match T.add_edge ⟨a, b⟩ with
          | .error err => .error (err, g'.replaceNode a from_nd2)
          | .ok to_nd2 => .ok ((g'.replaceNode a from_nd2).replaceNode b to_nd2)) =
        .error (.duplicateRelation, g')
    rw [hFadd]
  · unfold DirectedGraph.add_edge
    rw [if_neg (show ¬((b == a) = true) by simpa using Ne.symm hab')]
    rw [hfind_b, hfind_a]
    show (match T.add_edge ⟨b, a⟩ with
        | .error err => (Except.error (err, g') :
            Except (GraphFailure × DirectedGraph) DirectedGraph)
        | .ok from_nd2 =>
          match F.add_edge ⟨b, a⟩ with
          | .error err => .error (err, g'.replaceNode b from_nd2)
          | .ok to_nd2 => .ok ((g'.replaceNode b from_nd2).replaceNode a to_nd2)) =
        .error (.duplicateRelation, g')
    rw [hTadd]

end DepGraph

namespace DepGraph

/-- Every graph state reachable through the public interface is well-formed
and has its memo flag set (the flag is `True` from construction and no
operation ever clears it). -/
theorem reachable_wf {g : DirectedGraph} (h : ReachableState g) :
    WF g ∧ g.cache_dirty = true := by
  induction h with
  | init => exact ⟨WF_empty, rfl⟩
  | addNodeOk hr hok ih =>
    obtain ⟨hwf, hd⟩ := ih
    obtain ⟨hwf', hd'⟩ := add_node_fresh_wf hwf hok
    exact ⟨hwf', hd'.trans hd⟩
  | addEdgeOk hr hok ih =>
    obtain ⟨hwf, hd⟩ := ih
    obtain ⟨hwf', hd', -⟩ := add_edge_ok_wf hwf hok
    exact ⟨hwf', hd'.trans hd⟩
  | addEdgeErr hr herr ih =>
    obtain ⟨hwf, hd⟩ := ih
    obtain rfl := add_edge_err_state hwf herr
    exact ⟨hwf, hd⟩
  | findPathsOk hr hok ih =>
    obtain ⟨hwf, hd⟩ := ih
    obtain ⟨gt, hres, rfl⟩ := find_paths_ok_inv hwf hd hok
    have hstate := traverseRoots_state _ _ _ gt (by rw [hres]; rfl)
    refine ⟨WF_of_skel hstate.1.symm hwf, ?_⟩
    show gt.cache_dirty = true
    rw [hstate.2.2]
    exact hd
  | findPathsCycleHit hr hroots hcyc ih =>
    obtain ⟨hwf, hd⟩ := ih
    have hstate := traverseRoots_state _ _ _ _ (by rw [hcyc]; rfl)
    refine ⟨WF_of_skel hstate.1.symm hwf, ?_⟩
    rw [hstate.2.2]
    exact hd

end DepGraph

namespace DepGraph

/-- If the traversal hits a cycle and the hit state hits the same cycle again
(as happens on any root-reachable cycle: the dependency insertions are
idempotent the second time around), then `find_paths` exhausts every
recursion budget: line 179's `self.dump()` re-enters `find_paths()` before
the `Cycle detected!` exception can be raised. -/
theorem find_paths_rec_zero (g : DirectedGraph) :
    find_paths_rec 0 g = .error .recursionLimit := by
  conv_lhs => unfold find_paths_rec

theorem find_paths_rec_diverges {g g' : DirectedGraph} {roots roots' : List String}
    (hd : g.cache_dirty = true)
    (hroots : g.collectRoots = .ok roots)
    (hcyc : traverseRoots g roots [] = .cycleHit g')
    (hd' : g'.cache_dirty = true)
    (hroots' : g'.collectRoots = .ok roots')
    (hcyc' : traverseRoots g' roots' [] = .cycleHit g') :
    ∀ d, find_paths_rec d g = .error .recursionLimit := by
  have main : ∀ d, find_paths_rec d g' = .error .recursionLimit := by
    intro d
    induction d with
    | zero => exact find_paths_rec_zero g'
    | succ d ih =>
      rw [find_paths_rec_succ]
      rw [if_neg (by rw [hd']; exact fun hc => Bool.noConfusion hc)]
      rw [hroots']
      show (match traverseRoots g' roots' [] with
          | LoopResult.ok gg paths => (Except.ok ({ gg with paths := paths }, paths) :
              Except GraphFailure (DirectedGraph × List (List String)))
          | LoopResult.cycleHit gg =>
            match dump_rec d gg with
            | .ok _ => .error .cycleDetected
            | .error err => .error err
          | LoopResult.outOfFuel => .error .fuelExhausted) = _
      rw [hcyc']
      show (match dump_rec d g' with
          | Except.ok _ => (Except.error GraphFailure.cycleDetected :
              Except GraphFailure (DirectedGraph × List (List String)))
          | Except.error err => Except.error err) = _
      rw [dump_rec_eq, ih]
  intro d
  cases d with
  | zero => exact find_paths_rec_zero g
  | succ d =>
    rw [find_paths_rec_succ]
    rw [if_neg (by rw [hd]; exact fun hc => Bool.noConfusion hc)]
    rw [hroots]
    show (match traverseRoots g roots [] with
        | LoopResult.ok gg paths => (Except.ok ({ gg with paths := paths }, paths) :
            Except GraphFailure (DirectedGraph × List (List String)))
        | LoopResult.cycleHit gg =>
          match dump_rec d gg with
          | .ok _ => .error .cycleDetected
          | .error err => .error err
        | LoopResult.outOfFuel => .error .fuelExhausted) = _
    rw [hcyc]
    show (match dump_rec d g' with
        | Except.ok _ => (Except.error GraphFailure.cycleDetected :
            Except GraphFailure (DirectedGraph × List (List String)))
        | Except.error err => Except.error err) = _
    rw [dump_rec_eq, main d]

end DepGraph

namespace DepGraph

/-! ## Soundness of recorded dependencies across the public interface -/

theorem find_name_nodup : ∀ (l : List Node), (l.map Node.name).Nodup →
    ∀ nd ∈ l, l.find? (fun x => x.name == nd.name) = some nd := by
  intro l
  induction l with
  | nil =>
    intro _ nd h
    exact absurd h (List.not_mem_nil nd)
  | cons a rest ih =>
    intro hnodup nd hmem
    rw [List.map_cons, List.nodup_cons] at hnodup
    rcases List.mem_cons.mp hmem with rfl | hmem'
    · rw [List.find?_cons_of_pos _ (by simp)]
    · by_cases ha : (a.name == nd.name) = true
      · exfalso
        apply hnodup.1
        rw [beq_iff_eq] at ha
        rw [ha]
        exact List.mem_map_of_mem Node.name hmem'
      · rw [List.find?_cons_of_neg _ (by simpa using ha)]
        exact ih hnodup.2 nd hmem'

/-- With unique names, looking a stored node up by its own name returns it. -/
theorem findNode_of_mem {g : DirectedGraph} (hnodup : g.names.Nodup) {nd : Node}
    (h : nd ∈ g.nodes) : g.findNode nd.name = some nd :=
  find_name_nodup g.nodes hnodup nd h

theorem edgeRel_congr {g h : DirectedGraph} (hs : skel g = skel h) {u v : String} :
    edgeRel g u v → edgeRel h u v := by
  intro he
  unfold edgeRel at he ⊢
  rw [← outsOf_congr hs]
  exact he

theorem reachesPlus_congr {g h : DirectedGraph} (hs : skel g = skel h) {u v : String} :
    ReachesPlus g u v → ReachesPlus h u v :=
  Relation.TransGen.mono (fun _ _ he => edgeRel_congr hs he)

/-- Recording the dependencies along a traversal path keeps every recorded
dependency sound: each added pair is a path-ancestor depending on the
current node, which the path's edge chain justifies. -/
theorem depsSound_addDepsAlong {g : DirectedGraph} (hnodup : g.names.Nodup)
    (hsound : DepsSound g) {p : List String} {n : String}
    (hchain : List.Chain' (edgeRel g) (p ++ [n])) :
    DepsSound (g.addDepsAlong (p ++ [n]) n) := by
  intro nd hnd d hd
  have hskel : skel (g.addDepsAlong (p ++ [n]) n) = skel g := skel_addDepsAlong g (p ++ [n]) n
  have hnames : (g.addDepsAlong (p ++ [n]) n).names = g.names := addDepsAlong_names g (p ++ [n]) n
  have hfind : (g.addDepsAlong (p ++ [n]) n).findNode nd.name = some nd :=
    findNode_of_mem (by rw [hnames]; exact hnodup) hnd
  have hdeps : d ∈ (g.addDepsAlong (p ++ [n]) n).depsOf nd.name := by
    unfold DirectedGraph.depsOf
    rw [hfind]
    exact hd
  rw [depsOf_addDepsAlong] at hdeps
  refine reachesPlus_congr hskel.symm ?_
  rcases hdeps with hdeps | ⟨hmem, hne, hdn, -⟩
  · exact depsOf_sound hsound hdeps
  · rw [hdn]
    rcases List.mem_append.mp hmem with hmem | hmem
    · exact chain_mem_transGen p nd.name n hmem hchain
    · exact absurd (List.mem_singleton.mp hmem) hne

end DepGraph

namespace DepGraph

theorem traverseLoop_depsSound : ∀ (fuel : Nat) (g : DirectedGraph)
    (stack : List (String × List String)) (paths : List (List String))
    (g' : DirectedGraph),
    (traverseLoop g fuel stack paths).stateOf = some g' →
    g.names.Nodup → DepsSound g →
    (∀ e ∈ stack, List.Chain' (edgeRel g) (e.2 ++ [e.1])) →
    DepsSound g' := by
  intro fuel
  induction fuel with
  | zero =>
    intro g stack paths g' h hnodup hsound hchains
    cases stack with
    | nil =>
      rw [traverseLoop_nil] at h
      have h' : some g = some g' := h
      obtain rfl := Option.some_inj.mp h'
      exact hsound
    | cons e rest =>
      obtain ⟨n, p⟩ := e
      rw [traverseLoop_zero] at h
      exact absurd h (by simp [LoopResult.stateOf])
  | succ fuel ih =>
    intro g stack paths g' h hnodup hsound hchains
    cases stack with
    | nil =>
      rw [traverseLoop_nil] at h
      have h' : some g = some g' := h
      obtain rfl := Option.some_inj.mp h'
      exact hsound
    | cons e rest =>
      obtain ⟨n, p⟩ := e
      rw [traverseLoop_succ] at h
      have hchain0 : List.Chain' (edgeRel g) (p ++ [n]) :=
        hchains (n, p) (List.mem_cons_self _ _)
      have hsk : skel (g.addDepsAlong (p ++ [n]) n) = skel g := skel_addDepsAlong g (p ++ [n]) n
      have hnames2 : (g.addDepsAlong (p ++ [n]) n).names = g.names :=
        addDepsAlong_names g (p ++ [n]) n
      have hnodup2 : (g.addDepsAlong (p ++ [n]) n).names.Nodup := by
        rw [hnames2]
        exact hnodup
      have hsound2 : DepsSound (g.addDepsAlong (p ++ [n]) n) :=
        depsSound_addDepsAlong hnodup hsound hchain0
      have hrest2 : ∀ e ∈ rest,
          List.Chain' (edgeRel (g.addDepsAlong (p ++ [n]) n)) (e.2 ++ [e.1]) := by
        intro e he
        exact (hchains e (List.mem_cons_of_mem _ he)).imp
          (fun a b hab => edgeRel_congr hsk.symm hab)
      by_cases hout : (g.addDepsAlong (p ++ [n]) n).outsOf n = []
      · rw [if_pos hout] at h
        exact ih _ rest _ g' h hnodup2 hsound2 hrest2
      · rw [if_neg hout] at h
        cases hpt : pushTargets (p ++ [n]) ((g.addDepsAlong (p ++ [n]) n).outsOf n) with
        | none =>
          rw [hpt] at h
          have h' : some (g.addDepsAlong (p ++ [n]) n) = some g' := h
          obtain rfl := Option.some_inj.mp h'
          exact hsound2
        | some entries =>
          rw [hpt] at h
          have h' : (traverseLoop (g.addDepsAlong (p ++ [n]) n) fuel
              (entries.reverse ++ rest) paths).stateOf = some g' := h
          refine ih _ _ _ g' h' hnodup2 hsound2 ?_
          intro e he
          rcases List.mem_append.mp he with he | he
          · rw [List.mem_reverse] at he
            obtain ⟨hent, -⟩ := pushTargets_some hpt
            rw [hent] at he
            obtain ⟨t, ht, rfl⟩ := List.mem_map.mp he
            show List.Chain' (edgeRel (g.addDepsAlong (p ++ [n]) n)) ((p ++ [n]) ++ [t])
            refine List.Chain'.append
              (hchain0.imp (fun a b hab => edgeRel_congr hsk.symm hab))
              (List.chain'_singleton t) ?_
            intro x hx y hy
            rw [List.getLast?_concat] at hx
            have hx' : x = n := by
              have := Option.mem_def.mp hx
              exact (Option.some_inj.mp this).symm
            have hy' : y = t := by
              have := Option.mem_def.mp hy
              exact (Option.some_inj.mp this).symm
            rw [hx', hy']
            exact ht
          · exact hrest2 e he

theorem traverseRoots_depsSound : ∀ (roots : List String) (g : DirectedGraph)
    (paths : List (List String)) (g' : DirectedGraph),
    (traverseRoots g roots paths).stateOf = some g' →
    g.names.Nodup → DepsSound g →
    DepsSound g' := by
  intro roots
  induction roots with
  | nil =>
    intro g paths g' h hnodup hsound
    have h' : some g = some g' := h
    obtain rfl := Option.some_inj.mp h'
    exact hsound
  | cons r rest ih =>
    intro g paths g' h hnodup hsound
    have h2 : (match traverseLoop g g.traversalFuel [(r, [])] paths with
        | .ok g2 paths' => traverseRoots g2 rest paths'
        | other => other).stateOf = some g' := h
    cases hloop : traverseLoop g g.traversalFuel [(r, [])] paths with
    | ok g2 paths2 =>
      rw [hloop] at h2
      have hstate := traverseLoop_state _ _ _ _ g2 (by rw [hloop]; rfl)
      have hsound2 : DepsSound g2 :=
        traverseLoop_depsSound _ _ _ _ g2 (by rw [hloop]; rfl) hnodup hsound
          (by
            intro e he
            rw [List.mem_singleton.mp he]
            exact List.chain'_singleton r)
      refine ih g2 paths2 g' h2 ?_ hsound2
      rw [names_congr hstate.1]
      exact hnodup
    | cycleHit g2 =>
      rw [hloop] at h2
      have h' : some g2 = some g' := h2
      obtain rfl := Option.some_inj.mp h'
      exact traverseLoop_depsSound _ _ _ _ g2 (by rw [hloop]; rfl) hnodup hsound
        (by
          intro e he
          rw [List.mem_singleton.mp he]
          exact List.chain'_singleton r)
    | outOfFuel =>
      rw [hloop] at h2
      exact absurd h2 (by simp [LoopResult.stateOf])

end DepGraph

namespace DepGraph

theorem depsSound_of_depsOf {g : DirectedGraph} (hnodup : g.names.Nodup)
    (h : ∀ x d, d ∈ g.depsOf x → ReachesPlus g x d) : DepsSound g := by
  intro nd hnd d hd
  apply h nd.name d
  unfold DirectedGraph.depsOf
  rw [findNode_of_mem hnodup hnd]
  exact hd

theorem find?_append_nodes : ∀ (l₁ l₂ : List Node) (p : Node → Bool),
    (l₁ ++ l₂).find? p =
      match l₁.find? p with
      | some nd => some nd
      | none => l₂.find? p := by
  intro l₁ l₂ p
  induction l₁ with
  | nil => rfl
  | cons x l ih =>
    rw [List.cons_append]
    by_cases hx : p x = true
    · rw [List.find?_cons_of_pos _ hx, List.find?_cons_of_pos _ hx]
    · rw [List.find?_cons_of_neg _ (by simpa using hx),
        List.find?_cons_of_neg _ (by simpa using hx), ih]

theorem find_singleton (p : Node → Bool) (nd0 : Node) :
    List.find? p [nd0] = if p nd0 = true then some nd0 else none := by
  by_cases h : p nd0 = true
  · rw [if_pos h]
    exact List.find?_cons_of_pos _ h
  · rw [if_neg h]
    exact List.find?_cons_of_neg _ (by simpa using h)

theorem add_node_findNode {g : DirectedGraph} {nd0 : Node} (x : String) :
    DirectedGraph.findNode { g with nodes := g.nodes ++ [nd0] } x =
      match g.findNode x with
      | some nd => some nd
      | none => if (nd0.name == x) = true then some nd0 else none := by
  unfold DirectedGraph.findNode
  rw [find?_append_nodes]
  cases hf : g.nodes.find? (fun nd => nd.name == x) with
  | some nd => rfl
  | none =>
    show List.find? (fun nd => nd.name == x) [nd0] = _
    rw [find_singleton]

theorem add_node_fresh_depsSound {g g' : DirectedGraph} {nm : String} (hwf : WF g)
    (hsound : DepsSound g) (h : g.add_node (Node.fresh nm) = .ok g') : DepsSound g' := by
  obtain ⟨hwf', -⟩ := add_node_fresh_wf hwf h
  obtain ⟨hc, rfl⟩ := add_node_ok_inv h
  have houts : ∀ x, DirectedGraph.outsOf { g with nodes := g.nodes ++ [Node.fresh nm] } x =
      g.outsOf x := by
    intro x
    unfold DirectedGraph.outsOf
    rw [add_node_findNode]
    cases hf : g.findNode x with
    | some nd => rfl
    | none =>
      by_cases hx : ((Node.fresh nm).name == x) = true
      · rw [if_pos hx]
        rfl
      · rw [if_neg hx]
  have hmono : ∀ u v, edgeRel g u v →
      edgeRel { g with nodes := g.nodes ++ [Node.fresh nm] } u v := by
    intro u v huv
    unfold edgeRel
    rw [houts]
    exact huv
  refine depsSound_of_depsOf hwf'.names_nodup ?_
  intro x d hd
  unfold DirectedGraph.depsOf at hd
  rw [add_node_findNode] at hd
  cases hf : g.findNode x with
  | some nd =>
    rw [hf] at hd
    have hdg : d ∈ g.depsOf x := by
      unfold DirectedGraph.depsOf
      rw [hf]
      exact hd
    exact Relation.TransGen.mono hmono (depsOf_sound hsound hdg)
  | none =>
    rw [hf] at hd
    by_cases hx : ((Node.fresh nm).name == x) = true
    · rw [if_pos hx] at hd
      exact absurd hd (List.not_mem_nil d)
    · rw [if_neg hx] at hd
      exact absurd hd (List.not_mem_nil d)

theorem replace_pres {F : Node} {a : String} (hFname : F.name = a) :
    ∀ nd : Node, ((fun x : Node => if x.name == a then F else x) nd).name = nd.name := by
  intro nd
  show (if (nd.name == a) = true then F else nd).name = nd.name
  by_cases hx : nd.name = a
  · rw [if_pos (show (nd.name == a) = true by simp [hx]), hFname]
    exact hx.symm
  · rw [if_neg (show ¬((nd.name == a) = true) by simpa using hx)]

/-- Where each key resolves after a successful `add_edge`: the two endpoint
nodes pick up the new edge, every other key resolves as before. -/
theorem add_edge_ok_find {g g' : DirectedGraph} {a b : String}
    (h : g.add_edge a b = .ok g') :
    ∃ from_nd to_nd : Node,
      g.findNode a = some from_nd ∧ g.findNode b = some to_nd ∧
      g'.findNode a = some { from_nd with
        edges := from_nd.edges ++ [⟨a, b⟩],
        outgoing_edges := from_nd.outgoing_edges ++ [⟨a, b⟩] } ∧
      g'.findNode b = some { to_nd with
        edges := to_nd.edges ++ [⟨a, b⟩],
        incoming_edges := to_nd.incoming_edges ++ [⟨a, b⟩] } ∧
      (∀ x, x ≠ a → x ≠ b → g'.findNode x = g.findNode x) := by
  obtain ⟨from_nd, to_nd, hab, hfa, hfb, hhe1, hhe2, hg'⟩ := add_edge_ok_inv h
  have hab' : a ≠ b := by
    intro hc
    rw [hc] at hab
    simp at hab
  obtain ⟨hfrom_name, hfrom_mem⟩ := findNode_some hfa
  obtain ⟨hto_name, hto_mem⟩ := findNode_some hfb
  refine ⟨from_nd, to_nd, hfa, hfb, ?_, ?_, ?_⟩
  all_goals generalize hF : ({ from_nd with
      edges := from_nd.edges ++ [⟨a, b⟩],
      outgoing_edges := from_nd.outgoing_edges ++ [⟨a, b⟩] } : Node) = F at hg'
  all_goals generalize hT : ({ to_nd with
      edges := to_nd.edges ++ [⟨a, b⟩],
      incoming_edges := to_nd.incoming_edges ++ [⟨a, b⟩] } : Node) = T at hg'
  all_goals have hFname : F.name = a := by rw [← hF]; exact hfrom_name
  all_goals have hTname : T.name = b := by rw [← hT]; exact hto_name
  all_goals have hpres1 := replace_pres hFname
  all_goals have hpres2 := replace_pres hTname
  · -- findNode g' a = some F
    have h1a : (g.replaceNode a F).findNode a =
        Option.map (fun x : Node => if x.name == a then F else x) (g.findNode a) :=
      findNode_map g _ hpres1 a
    have h2a : ((g.replaceNode a F).replaceNode b T).findNode a =
        Option.map (fun x : Node => if x.name == b then T else x)
          ((g.replaceNode a F).findNode a) :=
      findNode_map (g.replaceNode a F) _ hpres2 a
    rw [hg', h2a, h1a, hfa]
    show some (if ((if (from_nd.name == a) = true then F else from_nd).name == b) = true
        then T else (if (from_nd.name == a) = true then F else from_nd)) = some F
    rw [if_pos (show (from_nd.name == a) = true by simp [hfrom_name])]
    rw [if_neg (show ¬((F.name == b) = true) by rw [hFname]; simpa using hab')]
  · -- findNode g' b = some T
    have h1b : (g.replaceNode a F).findNode b =
        Option.map (fun x : Node => if x.name == a then F else x) (g.findNode b) :=
      findNode_map g _ hpres1 b
    have h2b : ((g.replaceNode a F).replaceNode b T).findNode b =
        Option.map (fun x : Node => if x.name == b then T else x)
          ((g.replaceNode a F).findNode b) :=
      findNode_map (g.replaceNode a F) _ hpres2 b
    rw [hg', h2b, h1b, hfb]
    show some (if ((if (to_nd.name == a) = true then F else to_nd).name == b) = true
        then T else (if (to_nd.name == a) = true then F else to_nd)) = some T
    rw [if_neg (show ¬((to_nd.name == a) = true) by
      rw [hto_name]
      simpa using Ne.symm hab')]
    rw [if_pos (show (to_nd.name == b) = true by simp [hto_name])]
  · -- other keys unchanged
    intro x hxa hxb
    have h1x : (g.replaceNode a F).findNode x =
        Option.map (fun nd : Node => if nd.name == a then F else nd) (g.findNode x) :=
      findNode_map g _ hpres1 x
    have h2x : ((g.replaceNode a F).replaceNode b T).findNode x =
        Option.map (fun nd : Node => if nd.name == b then T else nd)
          ((g.replaceNode a F).findNode x) :=
      findNode_map (g.replaceNode a F) _ hpres2 x
    rw [hg', h2x, h1x]
    cases hfx : g.findNode x with
    | none => rfl
    | some nd =>
      have hname : nd.name = x := (findNode_some hfx).1
      show some (if ((if (nd.name == a) = true then F else nd).name == b) = true
          then T else (if (nd.name == a) = true then F else nd)) = some nd
      rw [if_neg (show ¬((nd.name == a) = true) by rw [hname]; simpa using hxa)]
      rw [if_neg (show ¬((nd.name == b) = true) by rw [hname]; simpa using hxb)]

theorem add_edge_ok_depsSound {g g' : DirectedGraph} {a b : String} (hwf : WF g)
    (hsound : DepsSound g) (h : g.add_edge a b = .ok g') : DepsSound g' := by
  obtain ⟨hwf', -, -⟩ := add_edge_ok_wf hwf h
  obtain ⟨from_nd, to_nd, hfa, hfb, hfind_a, hfind_b, hfind_other⟩ := add_edge_ok_find h
  have hmono : ∀ u v, edgeRel g u v → edgeRel g' u v := by
    intro u v huv
    unfold edgeRel DirectedGraph.outsOf at huv ⊢
    by_cases hua : u = a
    · rw [hua] at huv ⊢
      rw [hfa] at huv
      rw [hfind_a]
      show v ∈ (from_nd.outgoing_edges ++ [(⟨a, b⟩ : Edge)]).map Edge.to_node
      rw [List.map_append]
      exact List.mem_append_left _ huv
    · by_cases hub : u = b
      · rw [hub] at huv ⊢
        rw [hfb] at huv
        rw [hfind_b]
        exact huv
      · rw [hfind_other u hua hub]
        exact huv
  refine depsSound_of_depsOf hwf'.names_nodup ?_
  intro x d hd
  unfold DirectedGraph.depsOf at hd
  have hgdep : d ∈ g.depsOf x := by
    unfold DirectedGraph.depsOf
    by_cases hxa : x = a
    · rw [hxa] at hd ⊢
      rw [hfind_a] at hd
      rw [hfa]
      exact hd
    · by_cases hxb : x = b
      · rw [hxb] at hd ⊢
        rw [hfind_b] at hd
        rw [hfb]
        exact hd
      · rw [hfind_other x hxa hxb] at hd
        exact hd
  exact Relation.TransGen.mono hmono (depsOf_sound hsound hgdep)

/-- In every reachable graph state the recorded dependency sets are sound:
they only relate nodes along actual directed paths. -/
theorem reachable_sound {g : DirectedGraph} (h : ReachableState g) : DepsSound g := by
  induction h with
  | init =>
    intro nd hnd
    exact absurd hnd (List.not_mem_nil nd)
  | addNodeOk hr hok ih => exact add_node_fresh_depsSound (reachable_wf hr).1 ih hok
  | addEdgeOk hr hok ih => exact add_edge_ok_depsSound (reachable_wf hr).1 ih hok
  | addEdgeErr hr herr ih =>
    obtain rfl := add_edge_err_state (reachable_wf hr).1 herr
    exact ih
  | findPathsOk hr hok ih =>
    obtain ⟨hwf, hd⟩ := reachable_wf hr
    obtain ⟨gt, hres, rfl⟩ := find_paths_ok_inv hwf hd hok
    have hsound_gt : DepsSound gt :=
      traverseRoots_depsSound _ _ _ gt (by rw [hres]; rfl) hwf.names_nodup ih
    intro nd hnd d hd
    exact reachesPlus_congr (rfl : skel gt = skel { gt with paths := _ })
      (hsound_gt nd hnd d hd)
  | findPathsCycleHit hr hroots hcyc ih =>
    obtain ⟨hwf, -⟩ := reachable_wf hr
    exact traverseRoots_depsSound _ _ _ _ (by rw [hcyc]; rfl) hwf.names_nodup ih

end DepGraph

namespace DepGraph

/-! ## Concrete graphs used as witnesses and counterexamples -/

/-- `graph.add_node(Node(nm, {}))`, keeping the old state if it raises. -/
def stepNode (g : DirectedGraph) (nm : String) : DirectedGraph :=
  match g.add_node (Node.fresh nm) with
  | .ok g' => g'
  | .error _ => g

/-- `graph.add_edge(a, b)`, keeping the state at the raise if it raises. -/
def stepEdge (g : DirectedGraph) (a b : String) : DirectedGraph :=
  match g.add_edge a b with
  | .ok g' => g'
  | .error p => p.2

/-- A graph built through the public interface: all nodes, then all edges. -/
def mkGraph (ns : List String) (es : List (String × String)) : DirectedGraph :=
  es.foldl (fun g e => stepEdge g e.1 e.2) (ns.foldl stepNode DirectedGraph.empty)

theorem reachable_stepNode {g : DirectedGraph} (h : ReachableState g) (nm : String) :
    ReachableState (stepNode g nm) := by
  unfold stepNode
  cases hok : g.add_node (Node.fresh nm) with
  | ok g' => exact ReachableState.addNodeOk h hok
  | error e => exact h

theorem reachable_stepEdge {g : DirectedGraph} (h : ReachableState g) (a b : String) :
    ReachableState (stepEdge g a b) := by
  unfold stepEdge
  cases hok : g.add_edge a b with
  | ok g' => exact ReachableState.addEdgeOk h hok
  | error p =>
    cases p with
    | mk err g2 => exact ReachableState.addEdgeErr h hok

theorem reachable_mkGraph (ns : List String) (es : List (String × String)) :
    ReachableState (mkGraph ns es) := by
  unfold mkGraph
  have base : ∀ (l : List String) (g : DirectedGraph), ReachableState g →
      ReachableState (l.foldl stepNode g) := by
    intro l
    induction l with
    | nil =>
      intro g hg
      exact hg
    | cons n rest ih =>
      intro g hg
      exact ih _ (reachable_stepNode hg n)
  have edges : ∀ (l : List (String × String)) (g : DirectedGraph), ReachableState g →
      ReachableState (l.foldl (fun g e => stepEdge g e.1 e.2) g) := by
    intro l
    induction l with
    | nil =>
      intro g hg
      exact hg
    | cons e rest ih =>
      intro g hg
      exact ih _ (reachable_stepEdge hg e.1 e.2)
  exact edges es _ (base ns _ ReachableState.init)

/-- A rank function that strictly drops along edges certifies acyclicity. -/
theorem acyclic_of_rank {g : DirectedGraph} (rank : String → Nat)
    (h : ∀ u v, edgeRel g u v → rank v < rank u) : Acyclic g := by
  have key : ∀ u v, Relation.TransGen (edgeRel g) u v → rank v < rank u := by
    intro u v huv
    induction huv with
    | single h1 => exact h _ _ h1
    | tail h1 h2 ih => exact lt_trans (h _ _ h2) ih
  intro x hx
  exact absurd (key x x hx) (lt_irrefl _)

/-- Direct evaluation rule for `find_paths` on a dirty graph whose traversal
completes. -/
theorem find_paths_eval {g : DirectedGraph} {roots : List String} {gt : DirectedGraph}
    {ps : List (List String)}
    (hd : g.cache_dirty = true) (hroots : g.collectRoots = .ok roots)
    (hres : traverseRoots g roots [] = .ok gt ps) :
    g.find_paths = .ok ({ gt with paths := ps }, ps) := by
  rw [find_paths_eq, find_paths_rec_succ]
  rw [if_neg (by rw [hd]; exact fun hc => Bool.noConfusion hc)]
  rw [hroots]
  show (match traverseRoots g roots [] with
      | LoopResult.ok g' paths => (Except.ok ({ g' with paths := paths }, paths) :
          Except GraphFailure (DirectedGraph × List (List String)))
      | LoopResult.cycleHit g' =>
        match dump_rec 999 g' with
        | .ok _ => .error .cycleDetected
        | .error err => .error err
      | LoopResult.outOfFuel => .error .fuelExhausted) = _
  rw [hres]

/-- Two nodes, one edge a→b. -/
def gAB : DirectedGraph := mkGraph ["a", "b"] [("a", "b")]

/-- The traversal state after `find_paths` on `gAB`. -/
def gABt : DirectedGraph :=
  match traverseRoots gAB ["a"] [] with
  | .ok g' _ => g'
  | .cycleHit g' => g'
  | .outOfFuel => gAB

/-- The graph `find_paths` returns on `gAB`. -/
def gABf : DirectedGraph := { gABt with paths := [["a", "b"]] }

/-- A rootless three-cycle a→b→c→a. -/
def g3 : DirectedGraph := mkGraph ["a", "b", "c"] [("a", "b"), ("b", "c"), ("c", "a")]

/-- The graph `find_paths` returns on `g3`. -/
def g3f : DirectedGraph := { g3 with paths := [] }

/-- A cycle reachable from the root r: r→a, a→b, b→c, c→a. -/
def gR : DirectedGraph := mkGraph ["r", "a", "b", "c"]
  [("r", "a"), ("a", "b"), ("b", "c"), ("c", "a")]

/-- The state at which the traversal of `gR` first reports the cycle. -/
def gR1 : DirectedGraph :=
  match traverseRoots gR ["r"] [] with
  | .cycleHit g' => g'
  | .ok g' _ => g'
  | .outOfFuel => gR

theorem gAB_edge_iff : ∀ u v, edgeRel gAB u v ↔ (u = "a" ∧ v = "b") := by
  intro u v
  constructor
  · intro h
    have hu := edgeRel_src_mem h
    have hnames : gAB.names = ["a", "b"] := rfl
    rw [hnames] at hu
    rcases List.mem_cons.mp hu with rfl | hu
    · refine ⟨rfl, ?_⟩
      have houts : gAB.outsOf "a" = ["b"] := rfl
      unfold edgeRel at h
      rw [houts] at h
      exact List.mem_singleton.mp h
    · rcases List.mem_cons.mp hu with rfl | hu
      · exfalso
        have houts : gAB.outsOf "b" = [] := rfl
        unfold edgeRel at h
        rw [houts] at h
        exact List.not_mem_nil v h
      · exact absurd hu (List.not_mem_nil u)
  · rintro ⟨rfl, rfl⟩
    show ("b" : String) ∈ gAB.outsOf "a"
    decide

theorem gAB_acyclic : Acyclic gAB := by
  refine acyclic_of_rank (fun s => if s = "a" then 1 else 0) ?_
  intro u v huv
  obtain ⟨rfl, rfl⟩ := (gAB_edge_iff u v).mp huv
  decide

theorem gAB_find_paths : gAB.find_paths = .ok (gABf, [["a", "b"]]) :=
  find_paths_eval rfl rfl (by decide)

theorem gAB_create_plan : gAB.create_plan = .ok ["b", "a"] := by
  unfold DirectedGraph.create_plan
  rw [gAB_find_paths]
  show Except.ok (planFold gABf gABf.names gABf.names (-1)) = .ok ["b", "a"]
  exact congrArg Except.ok (by decide)

theorem g3_cycle : ReachesPlus g3 "a" "a" := by
  have h1 : edgeRel g3 "a" "b" := by
    unfold edgeRel
    decide
  have h2 : edgeRel g3 "b" "c" := by
    unfold edgeRel
    decide
  have h3 : edgeRel g3 "c" "a" := by
    unfold edgeRel
    decide
  exact Relation.TransGen.head h1 (Relation.TransGen.head h2 (Relation.TransGen.single h3))

theorem g3_find_paths : g3.find_paths = .ok (g3f, []) :=
  find_paths_eval rfl rfl (by decide)

theorem g3_create_plan : g3.create_plan = .ok ["a", "b", "c"] := by
  unfold DirectedGraph.create_plan
  rw [g3_find_paths]
  show Except.ok (planFold g3f g3f.names g3f.names (-1)) = .ok ["a", "b", "c"]
  exact congrArg Except.ok (by decide)

theorem gR_root_reach : RootReachable gR "a" := by
  refine ⟨"r", ?_, Relation.ReflTransGen.single ?_⟩
  · show "r" ∈ rootsSimple gR
    decide
  · show ("a" : String) ∈ gR.outsOf "r"
    decide

theorem gR_cycle : ReachesPlus gR "a" "a" := by
  have h1 : edgeRel gR "a" "b" := by
    unfold edgeRel
    decide
  have h2 : edgeRel gR "b" "c" := by
    unfold edgeRel
    decide
  have h3 : edgeRel gR "c" "a" := by
    unfold edgeRel
    decide
  exact Relation.TransGen.head h1 (Relation.TransGen.head h2 (Relation.TransGen.single h3))

theorem gR_diverges : ∀ d, find_paths_rec d gR = .error .recursionLimit :=
  find_paths_rec_diverges rfl
    (show gR.collectRoots = .ok ["r"] from rfl)
    (show traverseRoots gR ["r"] [] = .cycleHit gR1 by decide)
    rfl
    (show gR1.collectRoots = .ok ["r"] from rfl)
    (show traverseRoots gR1 ["r"] [] = .cycleHit gR1 by decide)

end DepGraph

namespace DepGraph

/-! ## The claims -/

/-- C1 (amended): for every acyclic graph state reachable through the public
interface, `create_plan()` succeeds, and for every edge (u, v) the result
places v strictly BEFORE u — the reverse of the claimed order: the
relocation loop moves each node after the highest-indexed node it depends
on, producing a reverse topological order. -/
theorem claim_C1 {g : DirectedGraph} (hr : ReachableState g) (hacyc : Acyclic g) :
    ∃ plan, g.create_plan = .ok plan ∧
      ∀ u v, edgeRel g u v → List.indexOf v plan < List.indexOf u plan := by
  obtain ⟨hwf, hd⟩ := reachable_wf hr
  obtain ⟨plan, h1, -, h3⟩ := create_plan_main hwf hd (reachable_sound hr) hacyc
  exact ⟨plan, h1, h3⟩

/-- Witness for C1 at the two-node graph a→b. -/
theorem claim_C1_witness : ∃ plan, gAB.create_plan = .ok plan ∧
    ∀ u v, edgeRel gAB u v → List.indexOf v plan < List.indexOf u plan :=
  claim_C1 (reachable_mkGraph ["a", "b"] [("a", "b")]) gAB_acyclic

/-- Counterexample to C1 as stated: on the acyclic graph a→b the plan is
[b, a], so the edge's source a does not precede its target b. -/
theorem claim_C1_counterexample : Acyclic gAB ∧ edgeRel gAB "a" "b" ∧
    gAB.create_plan = .ok ["b", "a"] ∧
    ¬ List.indexOf "a" ["b", "a"] < List.indexOf "b" ["b", "a"] :=
  ⟨gAB_acyclic, (gAB_edge_iff "a" "b").mpr ⟨rfl, rfl⟩, gAB_create_plan, by decide⟩

/-- C2: refuted by the rootless three-cycle a→b→c→a, a state reachable
through the public interface: it contains a directed cycle, yet
`find_paths()` succeeds (finding no roots, it returns no paths without ever
inspecting the cycle) and `create_plan()` silently returns an ordering. -/
theorem claim_C2 : ReachableState g3 ∧ ReachesPlus g3 "a" "a" ∧
    g3.find_paths = .ok (g3f, []) ∧ g3.create_plan = .ok ["a", "b", "c"] :=
  ⟨reachable_mkGraph _ _, g3_cycle, g3_find_paths, g3_create_plan⟩

/-- C3 (amended): after `find_paths()` succeeds on a reachable graph state,
the dependency set of every ROOT-REACHABLE node is exactly the set of nodes
reachable from it along directed edges; nodes not reachable from any root
(possible only in cyclic graphs) are never visited and keep their previous
dependency sets. -/
theorem claim_C3 {g gf : DirectedGraph} {ps : List (List String)}
    (hr : ReachableState g) (h : g.find_paths = .ok (gf, ps))
    {n : String} (hroot : RootReachable g n) :
    ∀ m, m ∈ gf.depsOf n ↔ ReachesPlus g n m := by
  obtain ⟨hwf, hd⟩ := reachable_wf hr
  exact find_paths_deps_exact hwf hd (reachable_sound hr) h hroot

/-- Witness for C3 at the two-node graph a→b, node a. -/
theorem claim_C3_witness :
    gAB.find_paths = .ok (gABf, [["a", "b"]]) ∧
    (∀ m, m ∈ gABf.depsOf "a" ↔ ReachesPlus gAB "a" m) :=
  ⟨gAB_find_paths,
    claim_C3 (reachable_mkGraph ["a", "b"] [("a", "b")]) gAB_find_paths
      ⟨"a", show "a" ∈ rootsSimple gAB by decide, Relation.ReflTransGen.refl⟩⟩

/-- Counterexample to C3 as stated (over all nodes): on the rootless
three-cycle `find_paths()` runs to completion without detecting the cycle,
node a reaches node b, yet a's dependency set stays empty. -/
theorem claim_C3_counterexample : g3.find_paths = .ok (g3f, []) ∧
    ReachesPlus g3 "a" "b" ∧ "b" ∉ g3f.depsOf "a" :=
  ⟨g3_find_paths,
    Relation.TransGen.single (show ("b" : String) ∈ g3.outsOf "a" by decide),
    by decide⟩

/-- C4 (amended): on a reachable graph state a successful `find_paths()`
returns exactly the maximal root-to-terminal paths, and the result is empty
exactly when the graph has no ROOT nodes — which can happen on non-empty
(rootless cyclic) graphs, not only on empty ones. -/
theorem claim_C4 {g gf : DirectedGraph} {ps : List (List String)}
    (hr : ReachableState g) (h : g.find_paths = .ok (gf, ps)) :
    (∀ q, q ∈ ps ↔ IsMaxPath g q) ∧ (ps = [] ↔ rootsSimple g = []) := by
  obtain ⟨hwf, hd⟩ := reachable_wf hr
  exact ⟨find_paths_paths_exact hwf hd h, find_paths_empty_iff hwf hd h⟩

/-- Witness for C4 at the two-node graph a→b. -/
theorem claim_C4_witness : gAB.find_paths = .ok (gABf, [["a", "b"]]) ∧
    (∀ q, q ∈ [["a", "b"]] ↔ IsMaxPath gAB q) ∧
    ([["a", "b"]] = ([] : List (List String)) ↔ rootsSimple gAB = []) :=
  ⟨gAB_find_paths,
    (claim_C4 (reachable_mkGraph ["a", "b"] [("a", "b")]) gAB_find_paths).1,
    (claim_C4 (reachable_mkGraph ["a", "b"] [("a", "b")]) gAB_find_paths).2⟩

/-- Counterexample to the emptiness direction of C4 as stated: the rootless
three-cycle has nodes but `find_paths()` returns no paths. -/
theorem claim_C4_counterexample : g3.names ≠ [] ∧ g3.find_paths = .ok (g3f, []) :=
  ⟨by decide, g3_find_paths⟩

/-- C5: on every acyclic graph state reachable through the public interface,
`create_plan()` returns a permutation of exactly the graph's node-name set:
every node appears exactly once. -/
theorem claim_C5 {g : DirectedGraph} (hr : ReachableState g) (hacyc : Acyclic g) :
    ∃ plan, g.create_plan = .ok plan ∧ plan.Perm g.names := by
  obtain ⟨hwf, hd⟩ := reachable_wf hr
  obtain ⟨plan, h1, h2, -⟩ := create_plan_main hwf hd (reachable_sound hr) hacyc
  exact ⟨plan, h1, h2⟩

/-- Witness for C5 at the two-node graph a→b. -/
theorem claim_C5_witness : ∃ plan, gAB.create_plan = .ok plan ∧ plan.Perm gAB.names :=
  claim_C5 (reachable_mkGraph ["a", "b"] [("a", "b")]) gAB_acyclic

/-- C6: refuted — on the reachable graph r→a→b→c→a, whose cycle is reachable
from the root r, `find_paths()` neither completes nor fails with
CycleDetected: the diagnostic dump at line 179 re-enters `find_paths()`
before the exception can be raised, and the mutual recursion exhausts every
recursion budget (Python's RecursionError). -/
theorem claim_C6 : ReachableState gR ∧ RootReachable gR "a" ∧ ReachesPlus gR "a" "a" ∧
    (∀ d, find_paths_rec d gR = .error .recursionLimit) ∧
    gR.find_paths = .error .recursionLimit ∧
    gR.find_paths ≠ .error .cycleDetected :=
  ⟨reachable_mkGraph _ _, gR_root_reach, gR_cycle, gR_diverges,
    (find_paths_eq gR).trans (gR_diverges 1000),
    by
      rw [(find_paths_eq gR).trans (gR_diverges 1000)]
      intro hc
      injection hc with h
      exact GraphFailure.noConfusion h⟩

/-- C7: in every reachable graph state the memo flag is still set — it is
true from construction and no operation ever clears it — so `find_paths()`
never serves a stale memo: it coincides with a forced recomputation on the
current graph. -/
theorem claim_C7 {g : DirectedGraph} (hr : ReachableState g) :
    g.cache_dirty = true ∧
    g.find_paths = DirectedGraph.find_paths { g with cache_dirty := true } := by
  obtain ⟨-, hd⟩ := reachable_wf hr
  refine ⟨hd, ?_⟩
  have heq : ({ g with cache_dirty := true } : DirectedGraph) = g := by
    rw [← hd]
  rw [heq]

/-- Witness for C7 at the two-node graph a→b. -/
theorem claim_C7_witness : gAB.cache_dirty = true ∧
    gAB.find_paths = DirectedGraph.find_paths { gAB with cache_dirty := true } :=
  claim_C7 (reachable_mkGraph ["a", "b"] [("a", "b")])

/-- C8: duplicate rejection is direction-insensitive: after `add_edge(a, b)`
succeeds, both re-adding a→b and adding b→a fail with DuplicateRelation,
caught at the first endpoint before any mutation. -/
theorem claim_C8 {g g' : DirectedGraph} {a b : String}
    (h : g.add_edge a b = .ok g') :
    g'.add_edge a b = .error (.duplicateRelation, g') ∧
    g'.add_edge b a = .error (.duplicateRelation, g') :=
  add_edge_dup_both h

/-- Witness for C8: adding a→b to the fresh two-node graph, then re-adding
it in both directions. -/
theorem claim_C8_witness : (mkGraph ["a", "b"] []).add_edge "a" "b" = .ok gAB ∧
    gAB.add_edge "a" "b" = .error (.duplicateRelation, gAB) ∧
    gAB.add_edge "b" "a" = .error (.duplicateRelation, gAB) :=
  ⟨rfl, claim_C8 (show (mkGraph ["a", "b"] []).add_edge "a" "b" = .ok gAB from rfl)⟩

/-- C9: in every graph state reachable through the public operations, edges
are recorded symmetrically: an edge whose endpoints are the stored nodes na
and nb sits in na's incident-edge list iff it sits in nb's. -/
theorem claim_C9 {g : DirectedGraph} (hr : ReachableState g) :
    ∀ na ∈ g.nodes, ∀ nb ∈ g.nodes, ∀ e : Edge,
      e.from_node = na.name → e.to_node = nb.name →
      (e ∈ na.edges ↔ e ∈ nb.edges) := by
  obtain ⟨hwf, -⟩ := reachable_wf hr
  intro na hna nb hnb e hfrom hto
  constructor
  · intro he
    exact hwf.edges_sym na hna e he nb hnb (Or.inr hto.symm)
  · intro he
    exact hwf.edges_sym nb hnb e he na hna (Or.inl hfrom.symm)

/-- Witness for C9 at the two-node graph a→b and its stored edge. -/
theorem claim_C9_witness :
    (⟨"a", [⟨"a", "b"⟩], [⟨"a", "b"⟩], [], []⟩ : Node) ∈ gAB.nodes ∧
    (⟨"b", [⟨"a", "b"⟩], [], [⟨"a", "b"⟩], []⟩ : Node) ∈ gAB.nodes ∧
    ((⟨"a", "b"⟩ : Edge) ∈ (⟨"a", [⟨"a", "b"⟩], [⟨"a", "b"⟩], [], []⟩ : Node).edges ↔
      (⟨"a", "b"⟩ : Edge) ∈ (⟨"b", [⟨"a", "b"⟩], [], [⟨"a", "b"⟩], []⟩ : Node).edges) :=
  ⟨by decide, by decide,
    claim_C9 (reachable_mkGraph ["a", "b"] [("a", "b")])
      _ (by decide) _ (by decide) _ rfl rfl⟩

/-- C10: on every reachable (hence well-formed) graph state, a failing
`add_edge` carries back the graph exactly as it was: the only path that
mutates before raising — a duplicate first detected at the second endpoint —
is unreachable because edges are recorded on both endpoints. -/
theorem claim_C10 {g g₂ : DirectedGraph} {a b : String} {err : GraphFailure}
    (hr : ReachableState g) (h : g.add_edge a b = .error (err, g₂)) : g₂ = g :=
  add_edge_err_state (reachable_wf hr).1 h

/-- Witness for C10: the duplicate rejection on the two-node graph leaves it
unchanged. -/
theorem claim_C10_witness : gAB.add_edge "b" "a" = .error (.duplicateRelation, gAB) ∧
    gAB = gAB :=
  ⟨rfl, claim_C10 (reachable_mkGraph ["a", "b"] [("a", "b")])
    (show gAB.add_edge "b" "a" = .error (.duplicateRelation, gAB) from rfl)⟩

end DepGraph
